import Mathlib

/-!
Verification of the semantic-analysis and Magic-Set transformation core of a
Datalog compiler (sources: `AstSemanticChecker.cpp`, `MagicSet.cpp`).

The development shallowly embeds the AST data model and the operations the
claims are about.  External analyses (groundedness, SCC graph, precedence
graph, I/O classification) are collaborator inputs per the specification and
are passed as parameters.  Machine state that the C++ code keeps in
function-local `static` variables is made explicit by state passing.
-/

set_option maxHeartbeats 1000000

namespace Souffle

/-- Qualified names: a nonempty ordered sequence of string segments.
`AstQualifiedName::prepend` adds a segment at the front, `append` at the back. -/
abbrev QualifiedName := List String

/-- The polymorphic AST node type: arguments (`AstArgument` variants) and
literals (`AstLiteral` variants) of the source, merged into one untyped tree
as is customary for a shallow embedding of a downcast-based C++ class
hierarchy.  `intrinsic` carries the `isNumerical()` flag of the functor op. -/
inductive Node where
  | var (name : String)
  | unnamed
  | num (value : Int)
  | str (value : String)
  | counter
  | intrinsic (op : String) (numerical : Bool) (args : List Node)
  | userDef (name : String) (args : List Node)
  | cast (value : Node) (ty : QualifiedName)
  | record (args : List Node)
  | aggr (op : String) (target : Option Node) (body : List Node)
  | atom (rel : QualifiedName) (args : List Node)
  | negation (a : Node)
  | binc (op : String) (lhs rhs : Node)
  | boolc (value : Bool)

mutual

def beqNode : Node → Node → Bool
  | .var a, .var b => a == b
  | .unnamed, .unnamed => true
  | .num a, .num b => a == b
  | .str a, .str b => a == b
  | .counter, .counter => true
  | .intrinsic o n as, .intrinsic o' n' as' => o == o' && n == n' && beqNodes as as'
  | .userDef f as, .userDef f' as' => f == f' && beqNodes as as'
  | .cast v t, .cast v' t' => beqNode v v' && t == t'
  | .record as, .record as' => beqNodes as as'
  | .aggr o t b, .aggr o' t' b' => o == o' && beqOptNode t t' && beqNodes b b'
  | .atom r as, .atom r' as' => r == r' && beqNodes as as'
  | .negation a, .negation b => beqNode a b
  | .binc o l r, .binc o' l' r' => o == o' && beqNode l l' && beqNode r r'
  | .boolc a, .boolc b => a == b
  | _, _ => false

def beqNodes : List Node → List Node → Bool
  | [], [] => true
  | a :: as, b :: bs => beqNode a b && beqNodes as bs
  | _, _ => false

def beqOptNode : Option Node → Option Node → Bool
  | none, none => true
  | some a, some b => beqNode a b
  | _, _ => false

end

theorem beqNode_iff : ∀ (a b : Node), beqNode a b = true ↔ a = b :=
  @Node.rec (fun a => ∀ b, beqNode a b = true ↔ a = b)
    (fun as => ∀ bs, beqNodes as bs = true ↔ as = bs)
    (fun o => ∀ p, beqOptNode o p = true ↔ o = p)
    (fun _ b => by cases b <;> simp [beqNode])
    (fun b => by cases b <;> simp [beqNode])
    (fun _ b => by cases b <;> simp [beqNode])
    (fun _ b => by cases b <;> simp [beqNode])
    (fun b => by cases b <;> simp [beqNode])
    (fun _ _ _ ih b => by cases b <;> simp [beqNode, ih, and_assoc])
    (fun _ _ ih b => by cases b <;> simp [beqNode, ih])
    (fun _ _ ih b => by cases b <;> simp [beqNode, ih])
    (fun _ ih b => by cases b <;> simp [beqNode, ih])
    (fun _ _ _ iht ihb b => by cases b <;> simp [beqNode, iht, ihb, and_assoc])
    (fun _ _ ih b => by cases b <;> simp [beqNode, ih])
    (fun _ ih b => by cases b <;> simp [beqNode, ih])
    (fun _ _ _ ihl ihr b => by cases b <;> simp [beqNode, ihl, ihr, and_assoc])
    (fun _ b => by cases b <;> simp [beqNode])
    (fun bs => by cases bs <;> simp [beqNodes])
    (fun _ _ ihh iht bs => by cases bs <;> simp [beqNodes, ihh, iht])
    (fun p => by cases p <;> simp [beqOptNode])
    (fun _ ih p => by cases p <;> simp [beqOptNode, ih])

instance : DecidableEq Node := fun a b => decidable_of_iff _ (beqNode_iff a b)

/-- Attributes of a relation: a name and a type name. -/
structure Attr where
  name : String
  ty : QualifiedName
  deriving DecidableEq, Repr

/-- Relation representation; only `eqrel` matters to the embedded passes. -/
inductive RelRep where
  | default
  | eqrel
  deriving DecidableEq, Repr

/-- A relation declaration. -/
structure Relation where
  name : QualifiedName
  attrs : List Attr
  representation : RelRep
  deriving DecidableEq

/-- A clause: a head atom and a list of body literals.  `plan` records whether
an execution plan is attached to the clause. -/
structure Clause where
  head : Node
  body : List Node
  plan : Bool
  deriving DecidableEq

/-- A program: relation declarations plus clauses.  I/O classification is an
external analysis and is passed to the passes separately. -/
structure Program where
  relations : List Relation
  clauses : List Clause
  deriving DecidableEq

/-- The qualified name of an atom node (junk value `[]` on non-atom nodes,
which the passes never query). -/
def Node.relName : Node → QualifiedName
  | .atom r _ => r
  | _ => []

/-- The argument list of an atom node. -/
def Node.atomArgs : Node → List Node
  | .atom _ as => as
  | _ => []

/-- Head relation name of a clause. -/
def Clause.headName (c : Clause) : QualifiedName := c.head.relName

/-- `getClauses(program, name)`: all clauses whose head relation is `name`,
in program order. -/
def getClauses (P : Program) (n : QualifiedName) : List Clause :=
  P.clauses.filter fun c => c.headName = n

/-- `getRelation(program, name)`: the declaration of the relation `name`. -/
def getRelation (P : Program) (n : QualifiedName) : Option Relation :=
  P.relations.find? fun r => r.name = n

/-- `AstProgram::removeClause`: removes the (first) clause structurally equal
to the given one. -/
def removeFirstClause : List Clause → Clause → List Clause
  | [], _ => []
  | c :: cs, d => if c = d then cs else c :: removeFirstClause cs d

/-- Remove a list of clauses one at a time (`removeClause` iterated). -/
def removeClauses (cs : List Clause) (toRemove : List Clause) : List Clause :=
  toRemove.foldl removeFirstClause cs

theorem removeFirstClause_cons_self (c : Clause) (cs : List Clause) :
    removeFirstClause (c :: cs) c = cs := by
  simp [removeFirstClause]

/-- Removing exactly the leading block of clauses leaves the rest. -/
theorem removeClauses_append (xs ys : List Clause) :
    removeClauses (xs ++ ys) xs = ys := by
  induction xs with
  | nil => simp [removeClauses]
  | cons c cs ih =>
      simp only [removeClauses, List.foldl_cons, List.cons_append,
        removeFirstClause_cons_self]
      exact ih

end Souffle

/-!  C8 — fact constancy (`checkConstant` / `checkFact`, AstSemanticChecker.cpp).  -/

namespace Souffle

/-- An emitted diagnostic: message text plus the offending node (standing for
its source location). -/
abbrev Err := String × Node

mutual

/-- `isConstantArithExpr`: number constants, and numerical intrinsic functors
all of whose arguments are again constant arithmetic expressions. -/
def isConstantArithExpr : Node → Bool
  | .num _ => true
  | .intrinsic _ numerical args => numerical && isConstArithList args
  | _ => false

def isConstArithList : List Node → Bool
  | [] => true
  | a :: as => isConstantArithExpr a && isConstArithList as

end

mutual

/-- `AstSemanticChecker::checkConstant`: the per-argument constancy check of
facts.  `none` models the `assert(false)` abort on unsupported argument kinds
(aggregators and non-argument nodes). -/
def checkConstant : Node → Option (List Err)
  | .var n => some [("Variable " ++ n ++ " in fact", .var n)]
  | .unnamed => some [("Underscore in fact", .unnamed)]
  | .intrinsic o nu args =>
      if isConstantArithExpr (.intrinsic o nu args) then some []
      else some [("Function in fact", .intrinsic o nu args)]
  | .userDef f args => some [("User-defined functor in fact", .userDef f args)]
  | .cast v _ => checkConstant v
  | .counter => some [("Counter in fact", .counter)]
  | .num _ => some []
  | .str _ => some []
  | .record args => checkConstantList args
  | _ => none

def checkConstantList : List Node → Option (List Err)
  | [] => some []
  | a :: as =>
      match checkConstant a, checkConstantList as with
      | some e1, some e2 => some (e1 ++ e2)
      | _, _ => none

end

/-- `AstSemanticChecker::checkFact`: facts must only contain constants; a fact
over an undeclared relation is ignored (checked elsewhere). -/
def checkFact (P : Program) (c : Clause) : Option (List Err) :=
  match getRelation P c.headName with
  | none => some []
  | some _ => checkConstantList c.head.atomArgs

mutual

/-- Modelled from the spec: "constant-only intrinsic numeric functors" —
numeric constants and numeric intrinsic functors over such. -/
def specConstOnlyNumeric : Node → Bool
  | .num _ => true
  | .intrinsic _ numerical args => numerical && specConstOnlyNumericList args
  | _ => false

def specConstOnlyNumericList : List Node → Bool
  | [] => true
  | a :: as => specConstOnlyNumeric a && specConstOnlyNumericList as

end

mutual

/-- Modelled from the spec: a fact argument is recursively constant when it is
a constant, a constant-only intrinsic numeric functor, a record initialiser of
recursively constant arguments, or a cast of a recursively constant argument. -/
def specRecursivelyConstant : Node → Bool
  | .num _ => true
  | .str _ => true
  | .intrinsic o nu args => specConstOnlyNumeric (.intrinsic o nu args)
  | .record args => specRecConstList args
  | .cast v _ => specRecursivelyConstant v
  | _ => false

def specRecConstList : List Node → Bool
  | [] => true
  | a :: as => specRecursivelyConstant a && specRecConstList as

end

theorem specConstOnlyNumeric_eq : ∀ a, specConstOnlyNumeric a = isConstantArithExpr a :=
  @Node.rec (fun a => specConstOnlyNumeric a = isConstantArithExpr a)
    (fun as => specConstOnlyNumericList as = isConstArithList as)
    (fun _ => True)
    (fun _ => by simp [specConstOnlyNumeric, isConstantArithExpr])
    (by simp [specConstOnlyNumeric, isConstantArithExpr])
    (fun _ => by simp [specConstOnlyNumeric, isConstantArithExpr])
    (fun _ => by simp [specConstOnlyNumeric, isConstantArithExpr])
    (by simp [specConstOnlyNumeric, isConstantArithExpr])
    (fun _ _ _ ih => by simp [specConstOnlyNumeric, isConstantArithExpr, ih])
    (fun _ _ _ => by simp [specConstOnlyNumeric, isConstantArithExpr])
    (fun _ _ _ => by simp [specConstOnlyNumeric, isConstantArithExpr])
    (fun _ _ => by simp [specConstOnlyNumeric, isConstantArithExpr])
    (fun _ _ _ _ _ => by simp [specConstOnlyNumeric, isConstantArithExpr])
    (fun _ _ _ => by simp [specConstOnlyNumeric, isConstantArithExpr])
    (fun _ _ => by simp [specConstOnlyNumeric, isConstantArithExpr])
    (fun _ _ _ _ _ => by simp [specConstOnlyNumeric, isConstantArithExpr])
    (fun _ => by simp [specConstOnlyNumeric, isConstantArithExpr])
    (by simp [specConstOnlyNumericList, isConstArithList])
    (fun _ _ ihh iht => by simp [specConstOnlyNumericList, isConstArithList, ihh, iht])
    trivial
    (fun _ _ => trivial)

theorem checkConstant_empty_iff :
    ∀ (a : Node) (es : List Err), checkConstant a = some es →
      (es = [] ↔ specRecursivelyConstant a = true) :=
  @Node.rec
    (fun a => ∀ es, checkConstant a = some es → (es = [] ↔ specRecursivelyConstant a = true))
    (fun as => ∀ es, checkConstantList as = some es → (es = [] ↔ specRecConstList as = true))
    (fun _ => True)
    (fun n es h => by
      simp [checkConstant] at h; subst h; simp [specRecursivelyConstant])
    (fun es h => by
      simp [checkConstant] at h; subst h; simp [specRecursivelyConstant])
    (fun v es h => by
      simp [checkConstant] at h; subst h; simp [specRecursivelyConstant])
    (fun v es h => by
      simp [checkConstant] at h; subst h; simp [specRecursivelyConstant])
    (fun es h => by
      simp [checkConstant] at h; subst h; simp [specRecursivelyConstant])
    (fun o nu args _ es h => by
      simp only [checkConstant] at h
      split at h
      · next hc =>
          simp only [Option.some.injEq] at h; subst h
          simp [specRecursivelyConstant, specConstOnlyNumeric_eq]
          exact hc
      · next hc =>
          simp only [Option.some.injEq] at h; subst h
          simp only [specRecursivelyConstant, specConstOnlyNumeric_eq]
          simp [hc])
    (fun f args _ es h => by
      simp [checkConstant] at h; subst h; simp [specRecursivelyConstant])
    (fun v t ih es h => by
      simp only [checkConstant] at h
      simpa [specRecursivelyConstant] using ih es h)
    (fun args ih es h => by
      simp only [checkConstant] at h
      simpa [specRecursivelyConstant] using ih es h)
    (fun o t b _ _ es h => by simp [checkConstant] at h)
    (fun r args _ es h => by simp [checkConstant] at h)
    (fun a _ es h => by simp [checkConstant] at h)
    (fun o l r _ _ es h => by simp [checkConstant] at h)
    (fun v es h => by simp [checkConstant] at h)
    (fun es h => by
      simp [checkConstantList] at h; subst h; simp [specRecConstList])
    (fun a as iha ihas es h => by
      simp only [checkConstantList] at h
      cases ha : checkConstant a with
      | none => rw [ha] at h; simp at h
      | some e1 =>
          cases has : checkConstantList as with
          | none => rw [ha, has] at h; simp at h
          | some e2 =>
              rw [ha, has] at h
              simp only [Option.some.injEq] at h; subst h
              simp only [List.append_eq_nil, specRecConstList, Bool.and_eq_true]
              rw [iha e1 ha, ihas e2 has])
    trivial
    (fun _ _ => trivial)

theorem checkConstantList_empty_iff :
    ∀ (as : List Node) (es : List Err), checkConstantList as = some es →
      (es = [] ↔ specRecConstList as = true) := by
  intro as
  induction as with
  | nil =>
      intro es h
      simp [checkConstantList] at h; subst h; simp [specRecConstList]
  | cons a as ih =>
      intro es h
      simp only [checkConstantList] at h
      cases ha : checkConstant a with
      | none => rw [ha] at h; simp at h
      | some e1 =>
          cases has : checkConstantList as with
          | none => rw [ha, has] at h; simp at h
          | some e2 =>
              rw [ha, has] at h
              simp only [Option.some.injEq] at h; subst h
              simp only [List.append_eq_nil, specRecConstList, Bool.and_eq_true]
              rw [checkConstant_empty_iff a e1 ha, ih e2 has]

/-- C8: for every fact, the semantic checker reports an error on a head
argument exactly when that argument is not recursively constant — variables,
underscores, user-defined functors, counters and non-constant intrinsic
functors produce errors, while constants, constant-only intrinsic numeric
functors, record initialisers of constants and casts of constants are
accepted without error. -/
theorem c8_fact_constancy :
    (∀ (a : Node) (es : List Err), checkConstant a = some es →
        (es = [] ↔ specRecursivelyConstant a = true)) ∧
    (∀ (P : Program) (c : Clause) (es : List Err),
        c.body = [] → getRelation P c.headName ≠ none →
        checkFact P c = some es →
        (es = [] ↔ specRecConstList c.head.atomArgs = true)) := by
  constructor
  · exact checkConstant_empty_iff
  · intro P c es _ hrel h
    cases hr : getRelation P c.headName with
    | none => exact absurd hr hrel
    | some r =>
        simp only [checkFact, hr] at h
        exact checkConstantList_empty_iff _ es h

/-- Witness for C8 at a concrete fact: `R(record[3, cast("a")], 2+3)`. -/
theorem c8_fact_constancy_witness :
    specRecConstList [Node.record [Node.num 3, Node.cast (Node.str "a") ["symbol"]],
      Node.intrinsic "ADD" true [Node.num 2, Node.num 3]] = true :=
  (c8_fact_constancy.2
      ⟨[⟨["R"], [⟨"x", ["number"]⟩, ⟨"y", ["number"]⟩], RelRep.default⟩], []⟩
      ⟨Node.atom ["R"] [Node.record [Node.num 3, Node.cast (Node.str "a") ["symbol"]],
        Node.intrinsic "ADD" true [Node.num 2, Node.num 3]], [], false⟩
      [] rfl (by decide) (by decide)).mp rfl

end Souffle

/-!  C9 — retained static state (`nextSrcLoc`, `getNextEdbName`, the
`+aggr_var_<n>` counter in `usesInvalidWitness`).  -/

namespace Souffle

/-- Source locations as in `SrcLocation.h`. -/
structure SrcLocation where
  filenames : List String
  startLine : Nat
  startColumn : Nat
  endLine : Nat
  endColumn : Nat
  deriving DecidableEq, Repr

/-- Append a suffix to the last element of a list of file names
(`filenames.back() += ...`). -/
def appendToLast (suffixStr : String) : List String → List String
  | [] => []
  | [x] => [x ++ suffixStr]
  | x :: y :: xs => x :: appendToLast suffixStr (y :: xs)

/-- `nextSrcLoc`: the source location given to newly created nodes.  The C++
function keeps the counter `pos` in a function-local `static int`, made
explicit here as a state argument. -/
def nextSrcLoc (pos : Nat) (orig : SrcLocation) : SrcLocation × Nat :=
  let pos' := pos + 1
  let fns := if orig.filenames.isEmpty then ["[MAGIC_FILE]"]
             else appendToLast "[MAGIC_FILE]" orig.filenames
  ({ filenames := fns, startLine := pos', startColumn := 0,
     endLine := pos', endColumn := 1 }, pos')

/-- `getNextEdbName`: first unused relation name `newedb<X>`.  The counter
`edbNum` is a function-local `static int` in C++, made explicit; the do-while
loop is given fuel (it terminates because names are eventually fresh). -/
def getNextEdbName (P : Program) : Nat → Nat → String × Nat
  | 0, edbNum => ("newedb" ++ toString (edbNum + 1), edbNum + 1)
  | fuel + 1, edbNum =>
      let candidate := "newedb" ++ toString (edbNum + 1)
      if getRelation P [candidate] = none then (candidate, edbNum + 1)
      else getNextEdbName P fuel (edbNum + 1)

/-- Fresh-variable naming in `usesInvalidWitness`'s aggregator-replacing node
mapper; the counter `numReplaced` is a function-local `static int` in C++. -/
def aggrVarName (numReplaced : Nat) : String × Nat :=
  ("+aggr_var_" ++ toString numReplaced, numReplaced + 1)

/-- An empty source location. -/
def emptyLoc : SrcLocation := ⟨[], 0, 0, 0, 0⟩

/-- The empty program. -/
def emptyProgram : Program := ⟨[], []⟩

/-- C9: the checker and pipeline retain state between invocations, so their
output is not a pure function of program and configuration: re-running each
name/location generator on the very same input after one prior invocation
(static counter advanced) yields a different result. -/
theorem c9_checker_not_stateless :
    (nextSrcLoc (nextSrcLoc 0 emptyLoc).2 emptyLoc).1 ≠ (nextSrcLoc 0 emptyLoc).1 ∧
    (aggrVarName (aggrVarName 0).2).1 ≠ (aggrVarName 0).1 ∧
    (getNextEdbName emptyProgram 8 (getNextEdbName emptyProgram 8 0).2).1 ≠
      (getNextEdbName emptyProgram 8 0).1 := by
  refine ⟨?_, ?_, ?_⟩ <;> decide

end Souffle

/-!  C1/C2 — the Magic pass (`MagicSetTransformer::transform`, MagicSet.cpp).  -/

namespace Souffle

/-- The final qualifier of a name (asserted nonempty in C++). -/
def finalQualifier (n : QualifiedName) : String := n.getLast?.getD ""

/-- `isAdorned`: the final qualifier carries a `\x7b...\x7d` adornment marker. -/
def isAdorned (n : QualifiedName) : Bool :=
  (finalQualifier n).startsWith "\x7b"

/-- `getAdornment`: the binding characters strictly between the braces of the
final qualifier. -/
def getAdornment (n : QualifiedName) : List Char :=
  ((finalQualifier n).toList.drop 1).dropLast

/-- Keep the entries of `xs` whose position is marked `b` in the adornment. -/
def keepBound {α : Type} (marker : List Char) (xs : List α) : List α :=
  (xs.zip marker).filterMap fun p => if p.2 = 'b' then some p.1 else none

/-- Number of bound positions of an adornment. -/
def countBound (marker : List Char) : Nat := (marker.filter (· = 'b')).length

theorem keepBound_length {α : Type} (marker : List Char) (xs : List α)
    (h : xs.length = marker.length) : (keepBound marker xs).length = countBound marker := by
  induction marker generalizing xs with
  | nil => cases xs <;> simp_all [keepBound, countBound]
  | cons m ms ih =>
      cases xs with
      | nil => simp at h
      | cons x xs =>
          simp only [List.length_cons, Nat.succ.injEq] at h
          by_cases hm : m = 'b' <;>
            simp [keepBound, countBound, hm, List.filter] at ih ⊢ <;>
            simpa [keepBound, countBound] using ih xs h

def isVarNode : Node → Bool
  | .var _ => true
  | _ => false

def varNameOf : Node → String
  | .var n => n
  | _ => ""

def isConstNode : Node → Bool
  | .num _ => true
  | .str _ => true
  | _ => false

def isRecordNode : Node → Bool
  | .record _ => true
  | _ => false

mutual

def containsAggr : Node → Bool
  | .aggr _ _ _ => true
  | .intrinsic _ _ args => containsAggrList args
  | .userDef _ args => containsAggrList args
  | .cast v _ => containsAggr v
  | .record args => containsAggrList args
  | .atom _ args => containsAggrList args
  | .negation a => containsAggr a
  | .binc _ l r => containsAggr l || containsAggr r
  | _ => false

def containsAggrList : List Node → Bool
  | [] => false
  | a :: as => containsAggr a || containsAggrList as

end

mutual

def collectVars : Node → List String
  | .var n => [n]
  | .intrinsic _ _ args => collectVarsList args
  | .userDef _ args => collectVarsList args
  | .cast v _ => collectVars v
  | .record args => collectVarsList args
  | .aggr _ t body => collectVarsOpt t ++ collectVarsList body
  | .atom _ args => collectVarsList args
  | .negation a => collectVars a
  | .binc _ l r => collectVars l ++ collectVars r
  | _ => []

def collectVarsList : List Node → List String
  | [] => []
  | a :: as => collectVars a ++ collectVarsList as

def collectVarsOpt : Option Node → List String
  | none => []
  | some a => collectVars a

end

/-- `getEqualityConstraints`: the aggregator-free `EQ` constraints of a clause
body whose left side is a variable or whose right side is a constant. -/
def getEqualityConstraints (c : Clause) : List Node :=
  c.body.filter fun lit =>
    match lit with
    | .binc op l r =>
        op = "EQ" && (isVarNode l || isConstNode r) && !containsAggr (.binc op l r)
    | _ => false

/-- State threaded through the Magic pass: the mutated program (relations are
added as magic relations are created), the set of magic predicates already
seen, and the clauses scheduled for addition. -/
structure MXState where
  prog : Program
  seen : List QualifiedName
  toAdd : List Clause

/-- The magic atom of an adorned atom: name prefixed with `@magic`, arguments
restricted to the bound positions of the adornment. -/
def magicAtomOf (a : Node) : Node :=
  Node.atom ("@magic" :: a.relName) (keepBound (getAdornment a.relName) a.atomArgs)

/-- `createMagicAtom`: builds the magic atom; on first encounter of the magic
predicate also declares the magic relation, with the attributes of the looked
up relation restricted to the bound positions of the adornment. -/
def createMagicAtomSt (st : MXState) (a : Node) : Node × MXState :=
  let name := a.relName
  let magicRelName : QualifiedName := "@magic" :: name
  let marker := getAdornment name
  let magicAtom := Node.atom magicRelName (keepBound marker a.atomArgs)
  if magicRelName ∈ st.seen then (magicAtom, st)
  else
    let attrs := ((getRelation st.prog name).map Relation.attrs).getD []
    let magicRel : Relation := ⟨magicRelName, keepBound marker attrs, RelRep.default⟩
    (magicAtom,
      { st with
        seen := st.seen ++ [magicRelName]
        prog := { st.prog with relations := st.prog.relations ++ [magicRel] } })

/-- Insert the variables `vs` that are not yet in `seen`, in order. -/
def addNewVars (vs : List String) (seen : List String) : List String :=
  vs.foldl (fun s v => if v ∈ s then s else s ++ [v]) seen

/-- One pass of the record-equality fixpoint of `createMagicClause`: a
`var = record(...)` (or symmetric) constraint whose variable side is already
seen contributes all its variables. -/
def scanEqOnce (eqs : List Node) (seen : List String) : List String :=
  eqs.foldl
    (fun seen eq =>
      match eq with
      | .binc op l r =>
          let seen :=
            if isRecordNode r && isVarNode l && decide (varNameOf l ∈ seen) then
              addNewVars (collectVars (.binc op l r)) seen
            else seen
          if isRecordNode l && isVarNode r && decide (varNameOf r ∈ seen) then
            addNewVars (collectVars (.binc op l r)) seen
          else seen
      | _ => seen)
    seen

/-- The `while (!fixpointReached)` loop of `createMagicClause`, with fuel (one
productive pass adds at least one variable drawn from the finite variable set
of the constraints, so the fuel below always suffices). -/
def eqSeenFix (eqs : List Node) : Nat → List String → List String
  | 0, seen => seen
  | fuel + 1, seen =>
      let seen' := scanEqOnce eqs seen
      if seen'.length = seen.length then seen' else eqSeenFix eqs fuel seen'

/-- `createMagicClause` without its state effect: magic head, the constraining
atoms to the left, and those equality constraints all of whose variables are
transitively bound. -/
def magicClauseOf (a : Node) (constrainingAtoms : List Node) (eqs : List Node) : Clause :=
  let magicHead := magicAtomOf a
  let seen0 := addNewVars (collectVarsList constrainingAtoms ++ collectVars magicHead) []
  let seen := eqSeenFix eqs ((collectVarsList eqs).length + 1) seen0
  let keptEqs := eqs.filter fun eq => (collectVars eq).all (· ∈ seen)
  ⟨magicHead, constrainingAtoms ++ keptEqs, false⟩

/-- `createMagicClause`: builds the magic clause for a body atom; creating the
magic head may declare the magic relation (state effect). -/
def createMagicClauseSt (st : MXState) (a : Node) (constrainingAtoms : List Node)
    (eqs : List Node) : Clause × MXState :=
  let (_, st') := createMagicAtomSt st a
  (magicClauseOf a constrainingAtoms eqs, st')

/-- Step (2) of the Magic pass over the body literals: non-atoms are skipped,
unadorned atoms only extend the constraining prefix, adorned atoms contribute
a magic clause. -/
def magicBodyLoop (eqs : List Node) : List Node → MXState → List Node → MXState
  | [], st, _ => st
  | lit :: rest, st, left =>
      match lit with
      | .atom r as =>
          if isAdorned r = false then
            magicBodyLoop eqs rest st (left ++ [.atom r as])
          else
            let (mc, st') := createMagicClauseSt st (.atom r as) left eqs
            magicBodyLoop eqs rest { st' with toAdd := st'.toAdd ++ [mc] }
              (left ++ [.atom r as])
      | _ => magicBodyLoop eqs rest st left

/-- Per-clause processing of `MagicSetTransformer::transform`: step (1) adds
the refined clause (or passes the clause through unchanged when the head is
unadorned), step (2) adds the associated magic rules. -/
def magicProcessClause (st : MXState) (c : Clause) : MXState :=
  let st1 :=
    if isAdorned c.headName = false then { st with toAdd := st.toAdd ++ [c] }
    else
      let (ma, st') := createMagicAtomSt st c.head
      { st' with toAdd := st'.toAdd ++ [⟨c.head, ma :: c.body, false⟩] }
  let eqs := getEqualityConstraints c
  if isAdorned c.headName then
    let (ma, st2) := createMagicAtomSt st1 c.head
    magicBodyLoop eqs c.body st2 [ma]
  else
    magicBodyLoop eqs c.body st1 []

/-- `MagicSetTransformer::transform`: every clause is scheduled for removal,
refined/pass-through clauses and magic rules are scheduled for addition;
additions are applied before the removals. -/
def magicTransform (P : Program) : Program :=
  let stf := P.clauses.foldl magicProcessClause ⟨P, [], []⟩
  ⟨stf.prog.relations, removeClauses (stf.prog.clauses ++ stf.toAdd) P.clauses⟩

/-- The pure clause contribution of one clause (refined clause or pass-through,
followed by its magic rules). -/
def magicRulesLoop (eqs : List Node) : List Node → List Node → List Clause
  | [], _ => []
  | lit :: rest, left =>
      match lit with
      | .atom r as =>
          if isAdorned r = false then magicRulesLoop eqs rest (left ++ [.atom r as])
          else
            magicClauseOf (.atom r as) left eqs ::
              magicRulesLoop eqs rest (left ++ [.atom r as])
      | _ => magicRulesLoop eqs rest left

/-- The magic rules generated for a clause. -/
def magicRulesOf (c : Clause) : List Clause :=
  magicRulesLoop (getEqualityConstraints c) c.body
    (if isAdorned c.headName then [magicAtomOf c.head] else [])

end Souffle

namespace Souffle

theorem createMagicAtomSt_fst (st : MXState) (a : Node) :
    (createMagicAtomSt st a).1 = magicAtomOf a := by
  by_cases h : ("@magic" :: a.relName) ∈ st.seen <;>
    simp [createMagicAtomSt, magicAtomOf, h]

theorem createMagicAtomSt_toAdd (st : MXState) (a : Node) :
    (createMagicAtomSt st a).2.toAdd = st.toAdd := by
  by_cases h : ("@magic" :: a.relName) ∈ st.seen <;>
    simp [createMagicAtomSt, h]

theorem createMagicAtomSt_clauses (st : MXState) (a : Node) :
    (createMagicAtomSt st a).2.prog.clauses = st.prog.clauses := by
  by_cases h : ("@magic" :: a.relName) ∈ st.seen <;>
    simp [createMagicAtomSt, h]

theorem magicBodyLoop_toAdd (eqs : List Node) :
    ∀ (lits : List Node) (st : MXState) (left : List Node),
      (magicBodyLoop eqs lits st left).toAdd = st.toAdd ++ magicRulesLoop eqs lits left := by
  intro lits
  induction lits with
  | nil => intro st left; simp [magicBodyLoop, magicRulesLoop]
  | cons lit rest ih =>
      intro st left
      cases lit with
      | atom r as =>
          by_cases hr : isAdorned r = false
          · simp only [magicBodyLoop, magicRulesLoop, hr, if_pos]
            rw [ih]
          · have hb : isAdorned r = true := by
              cases hh : isAdorned r
              · exact absurd hh hr
              · rfl
            simp [magicBodyLoop, magicRulesLoop, hb, ih, createMagicClauseSt,
              createMagicAtomSt_toAdd]
      | var n => simp only [magicBodyLoop, magicRulesLoop]; rw [ih]
      | unnamed => simp only [magicBodyLoop, magicRulesLoop]; rw [ih]
      | num v => simp only [magicBodyLoop, magicRulesLoop]; rw [ih]
      | str v => simp only [magicBodyLoop, magicRulesLoop]; rw [ih]
      | counter => simp only [magicBodyLoop, magicRulesLoop]; rw [ih]
      | intrinsic o nu args => simp only [magicBodyLoop, magicRulesLoop]; rw [ih]
      | userDef f args => simp only [magicBodyLoop, magicRulesLoop]; rw [ih]
      | cast v t => simp only [magicBodyLoop, magicRulesLoop]; rw [ih]
      | record args => simp only [magicBodyLoop, magicRulesLoop]; rw [ih]
      | aggr o t b => simp only [magicBodyLoop, magicRulesLoop]; rw [ih]
      | negation a => simp only [magicBodyLoop, magicRulesLoop]; rw [ih]
      | binc o l rr => simp only [magicBodyLoop, magicRulesLoop]; rw [ih]
      | boolc v => simp only [magicBodyLoop, magicRulesLoop]; rw [ih]

theorem magicBodyLoop_clauses (eqs : List Node) :
    ∀ (lits : List Node) (st : MXState) (left : List Node),
      (magicBodyLoop eqs lits st left).prog.clauses = st.prog.clauses := by
  intro lits
  induction lits with
  | nil => intro st left; simp [magicBodyLoop]
  | cons lit rest ih =>
      intro st left
      cases lit with
      | atom r as =>
          by_cases hr : isAdorned r = false
          · simp only [magicBodyLoop, hr, if_pos]; rw [ih]
          · have hb : isAdorned r = true := by
              cases hh : isAdorned r
              · exact absurd hh hr
              · rfl
            simp [magicBodyLoop, hb, ih, createMagicClauseSt,
              createMagicAtomSt_clauses]
      | var n => simp only [magicBodyLoop]; rw [ih]
      | unnamed => simp only [magicBodyLoop]; rw [ih]
      | num v => simp only [magicBodyLoop]; rw [ih]
      | str v => simp only [magicBodyLoop]; rw [ih]
      | counter => simp only [magicBodyLoop]; rw [ih]
      | intrinsic o nu args => simp only [magicBodyLoop]; rw [ih]
      | userDef f args => simp only [magicBodyLoop]; rw [ih]
      | cast v t => simp only [magicBodyLoop]; rw [ih]
      | record args => simp only [magicBodyLoop]; rw [ih]
      | aggr o t b => simp only [magicBodyLoop]; rw [ih]
      | negation a => simp only [magicBodyLoop]; rw [ih]
      | binc o l rr => simp only [magicBodyLoop]; rw [ih]
      | boolc v => simp only [magicBodyLoop]; rw [ih]

/-- The pure clause contribution of one clause to the Magic pass. -/
def magicContrib (c : Clause) : List Clause :=
  (if isAdorned c.headName then Clause.mk c.head (magicAtomOf c.head :: c.body) false
   else c) :: magicRulesOf c

theorem magicProcessClause_toAdd (st : MXState) (c : Clause) :
    (magicProcessClause st c).toAdd = st.toAdd ++ magicContrib c := by
  by_cases h : isAdorned c.headName = false
  · simp only [magicProcessClause, h, if_pos, Bool.false_eq_true, ite_false]
    rw [magicBodyLoop_toAdd]
    simp [magicContrib, magicRulesOf, h]
  · simp only [magicProcessClause, h, if_neg]
    have hb : isAdorned c.headName = true := by
      cases hh : isAdorned c.headName
      · exact absurd hh h
      · rfl
    simp only [hb, ite_true]
    rw [magicBodyLoop_toAdd]
    simp [createMagicAtomSt_toAdd, createMagicAtomSt_fst, magicContrib, magicRulesOf, hb]

theorem magicProcessClause_clauses (st : MXState) (c : Clause) :
    (magicProcessClause st c).prog.clauses = st.prog.clauses := by
  by_cases h : isAdorned c.headName = false
  · simp only [magicProcessClause, h, if_pos, Bool.false_eq_true, ite_false]
    rw [magicBodyLoop_clauses]
  · have hb : isAdorned c.headName = true := by
      cases hh : isAdorned c.headName
      · exact absurd hh h
      · rfl
    simp only [magicProcessClause, hb, ite_true, Bool.true_eq_false]
    rw [magicBodyLoop_clauses]
    simp [createMagicAtomSt_clauses]

theorem magicFold_toAdd (cs : List Clause) :
    ∀ (st : MXState),
      (cs.foldl magicProcessClause st).toAdd = st.toAdd ++ cs.flatMap magicContrib := by
  induction cs with
  | nil => intro st; simp
  | cons c cs ih =>
      intro st
      simp only [List.foldl_cons, List.flatMap_cons]
      rw [ih, magicProcessClause_toAdd, List.append_assoc]

theorem magicFold_clauses (cs : List Clause) :
    ∀ (st : MXState),
      (cs.foldl magicProcessClause st).prog.clauses = st.prog.clauses := by
  induction cs with
  | nil => intro st; simp
  | cons c cs ih =>
      intro st
      simp only [List.foldl_cons]
      rw [ih, magicProcessClause_clauses]

/-- C1: the Magic pass replaces every clause whose head relation is adorned by
a refined clause with the same head whose body is the magic atom of the head
(holding exactly the head arguments at the bound positions of the adornment)
followed by the original body literals in their original order; clauses with
unadorned heads pass through unchanged.  (`magicRulesOf` are the supplementary
magic rules of step (2), added alongside.) -/
theorem c1_magic_refinement (P : Program) :
    (magicTransform P).clauses = P.clauses.flatMap (fun c =>
      (if isAdorned c.headName then
        Clause.mk c.head
          (Node.atom ("@magic" :: c.headName)
            (keepBound (getAdornment c.headName) c.head.atomArgs) :: c.body) false
       else c) :: magicRulesOf c) := by
  show removeClauses _ _ = _
  rw [magicFold_clauses, magicFold_toAdd]
  simp only [List.nil_append]
  rw [removeClauses_append]
  rfl

end Souffle

namespace Souffle

/-- The relation names referenced by the head and the top-level body atoms of
a clause (the atoms the Magic pass derives magic predicates from). -/
def clauseAtomNamesTop (c : Clause) : List QualifiedName :=
  c.headName :: c.body.filterMap fun l =>
    match l with
    | .atom r _ => some r
    | _ => none

/-- Shape of every relation the Magic pass declares: a `@magic`-prefixed copy
of a relation restricted to the bound positions of the adornment in its name. -/
def isMagicRelOf (P : Program) (r : Relation) : Prop :=
  ∃ n : QualifiedName, n.head? ≠ some "@magic" ∧ r.name = "@magic" :: n ∧
    r.attrs = keepBound (getAdornment n) (((getRelation P n).map Relation.attrs).getD []) ∧
    r.representation = RelRep.default

/-- Invariant threaded through the Magic pass fold. -/
def MXInv (P : Program) (st : MXState) : Prop :=
  ∃ added : List Relation,
    st.prog.relations = P.relations ++ added ∧
    added.map Relation.name = st.seen ∧
    st.seen.Nodup ∧
    (∀ r ∈ added, isMagicRelOf P r) ∧
    st.prog.clauses = P.clauses

theorem findRel_append_magic (rels added : List Relation) (n : QualifiedName)
    (hn : n.head? ≠ some "@magic")
    (hadded : ∀ r ∈ added, ∃ m, r.name = "@magic" :: m) :
    (rels ++ added).find? (fun r => decide (r.name = n)) =
      rels.find? (fun r => decide (r.name = n)) := by
  have hnone : added.find? (fun r => decide (r.name = n)) = none := by
    rw [List.find?_eq_none]
    intro r hr
    obtain ⟨m, hm⟩ := hadded r hr
    simp only [decide_eq_true_eq]
    intro hcontra
    rw [hm] at hcontra
    exact hn (by rw [← hcontra]; rfl)
  rw [List.find?_append, hnone, Option.or_none]

theorem createMagicAtomSt_inv (P : Program) (st : MXState) (a : Node)
    (hinv : MXInv P st) (ha : a.relName.head? ≠ some "@magic") :
    MXInv P (createMagicAtomSt st a).2 := by
  obtain ⟨added, hrels, hnames, hnodup, hmag, hcls⟩ := hinv
  by_cases hseen : ("@magic" :: a.relName) ∈ st.seen
  · simpa [createMagicAtomSt, hseen] using ⟨added, hrels, hnames, hnodup, hmag, hcls⟩
  · have hstable : getRelation st.prog a.relName = getRelation P a.relName := by
      unfold getRelation
      rw [hrels]
      exact findRel_append_magic P.relations added a.relName ha
        (fun r hr => ⟨(hmag r hr).choose, ((hmag r hr).choose_spec).2.1⟩)
    refine ⟨added ++ [⟨"@magic" :: a.relName,
        keepBound (getAdornment a.relName)
          (((getRelation P a.relName).map Relation.attrs).getD []), RelRep.default⟩],
      ?_, ?_, ?_, ?_, ?_⟩
    · simp [createMagicAtomSt, hseen, hrels, hstable]
    · simp [createMagicAtomSt, hseen, hnames]
    · have : (createMagicAtomSt st a).2.seen = st.seen ++ ["@magic" :: a.relName] := by
        simp [createMagicAtomSt, hseen]
      rw [this]
      exact List.Nodup.append hnodup (List.nodup_singleton _)
        (by intro x hx hx'
            rcases List.mem_singleton.mp hx' with rfl
            exact hseen hx)
    · intro r hr
      rcases List.mem_append.mp hr with h | h
      · exact hmag r h
      · rcases List.mem_singleton.mp h with rfl
        exact ⟨a.relName, ha, rfl, rfl, rfl⟩
    · simp [createMagicAtomSt, hseen, hcls]

end Souffle

namespace Souffle

theorem mxinv_toAdd (P : Program) (st : MXState) (x : List Clause)
    (h : MXInv P st) : MXInv P { st with toAdd := x } := h

theorem magicBodyLoop_inv (P : Program) (eqs : List Node) :
    ∀ (lits : List Node) (st : MXState) (left : List Node),
      MXInv P st →
      (∀ l ∈ lits, ∀ r as, l = Node.atom r as → r.head? ≠ some "@magic") →
      MXInv P (magicBodyLoop eqs lits st left) := by
  intro lits
  induction lits with
  | nil => intro st left h _; simpa [magicBodyLoop] using h
  | cons lit rest ih =>
      intro st left h hl
      have hrest : ∀ l ∈ rest, ∀ r as, l = Node.atom r as → r.head? ≠ some "@magic" :=
        fun l hml => hl l (List.mem_cons_of_mem _ hml)
      cases lit with
      | atom r as =>
          have hr : r.head? ≠ some "@magic" := hl (.atom r as) (by simp) r as rfl
          by_cases had : isAdorned r = false
          · simp only [magicBodyLoop, had, if_pos]
            exact ih _ _ h hrest
          · have hb : isAdorned r = true := by
              cases hh : isAdorned r
              · exact absurd hh had
              · rfl
            simp only [magicBodyLoop, hb, Bool.true_eq_false, ite_false]
            apply ih _ _ _ hrest
            apply mxinv_toAdd
            have : (createMagicClauseSt st (Node.atom r as) left eqs).2 =
                (createMagicAtomSt st (Node.atom r as)).2 := by
              simp [createMagicClauseSt]
            rw [this]
            exact createMagicAtomSt_inv P st _ h hr
      | var n => exact ih _ _ h hrest
      | unnamed => exact ih _ _ h hrest
      | num v => exact ih _ _ h hrest
      | str v => exact ih _ _ h hrest
      | counter => exact ih _ _ h hrest
      | intrinsic o nu args => exact ih _ _ h hrest
      | userDef f args => exact ih _ _ h hrest
      | cast v t => exact ih _ _ h hrest
      | record args => exact ih _ _ h hrest
      | aggr o t b => exact ih _ _ h hrest
      | negation a => exact ih _ _ h hrest
      | binc o l rr => exact ih _ _ h hrest
      | boolc v => exact ih _ _ h hrest

theorem magicProcessClause_inv (P : Program) (st : MXState) (c : Clause)
    (h : MXInv P st)
    (hc : ∀ m ∈ clauseAtomNamesTop c, m.head? ≠ some "@magic") :
    MXInv P (magicProcessClause st c) := by
  have hhead : c.headName.head? ≠ some "@magic" := hc c.headName (by simp [clauseAtomNamesTop])
  have hbody : ∀ l ∈ c.body, ∀ r as, l = Node.atom r as → r.head? ≠ some "@magic" := by
    intro l hml r as hl
    apply hc r
    simp only [clauseAtomNamesTop, List.mem_cons]
    right
    exact List.mem_filterMap.mpr ⟨l, hml, by rw [hl]⟩
  by_cases hfalse : isAdorned c.headName = false
  · simp only [magicProcessClause, hfalse, if_pos, Bool.false_eq_true, ite_false]
    exact magicBodyLoop_inv P _ _ _ _ (mxinv_toAdd P st _ h) hbody
  · have hb : isAdorned c.headName = true := by
      cases hh : isAdorned c.headName
      · exact absurd hh hfalse
      · rfl
    simp only [magicProcessClause, hb, ite_true, Bool.true_eq_false, ite_false]
    apply magicBodyLoop_inv P _ _ _ _ _ hbody
    apply createMagicAtomSt_inv P _ _ _ hhead
    apply mxinv_toAdd
    exact createMagicAtomSt_inv P st _ h hhead

theorem magicFold_inv (P : Program) (cs : List Clause) :
    ∀ (st : MXState), MXInv P st →
      (∀ c ∈ cs, ∀ m ∈ clauseAtomNamesTop c, m.head? ≠ some "@magic") →
      MXInv P (cs.foldl magicProcessClause st) := by
  induction cs with
  | nil => intro st h _; simpa using h
  | cons c cs ih =>
      intro st h hc
      simp only [List.foldl_cons]
      exact ih _ (magicProcessClause_inv P st c h (hc c (by simp)))
        (fun c' hc' => hc c' (List.mem_cons_of_mem _ hc'))

/-- C2: every magic relation created by the Magic pass is declared exactly
once (the added declarations have pairwise distinct names, guarded by the set
of magic predicates already seen); its attributes are exactly the attributes
of the adorned source relation at the bound positions of the adornment in its
name, in order, and hence its arity equals the number of `b` characters in
the adornment. -/
theorem c2_magic_relation_decls (P : Program)
    (hatoms : ∀ c ∈ P.clauses, ∀ m ∈ clauseAtomNamesTop c, m.head? ≠ some "@magic") :
    ∃ added : List Relation,
      (magicTransform P).relations = P.relations ++ added ∧
      (added.map Relation.name).Nodup ∧
      ∀ r ∈ added, ∃ n : QualifiedName,
        r.name = "@magic" :: n ∧
        r.attrs = keepBound (getAdornment n)
          (((getRelation P n).map Relation.attrs).getD []) ∧
        ∀ orig : Relation, getRelation P n = some orig →
          orig.attrs.length = (getAdornment n).length →
          r.attrs.length = countBound (getAdornment n) := by
  have h0 : MXInv P ⟨P, [], []⟩ := ⟨[], by simp, rfl, List.nodup_nil, by simp, rfl⟩
  have hf := magicFold_inv P P.clauses ⟨P, [], []⟩ h0 hatoms
  obtain ⟨added, hrels, hnames, hnodup, hmag, _⟩ := hf
  refine ⟨added, ?_, ?_, ?_⟩
  · show (P.clauses.foldl magicProcessClause ⟨P, [], []⟩).prog.relations = _
    exact hrels
  · rw [hnames]; exact hnodup
  · intro r hr
    obtain ⟨n, _, hname, hattrs, _⟩ := hmag r hr
    refine ⟨n, hname, hattrs, ?_⟩
    intro orig horig hlen
    rw [hattrs, horig]
    exact keepBound_length _ _ hlen

/-- Concrete witness program for C2: relation `A\x7bbf\x7d` with two
attributes and one clause with adorned head. -/
def c2WitnessProgram : Program :=
  ⟨[⟨["A", "\x7bbf\x7d"], [⟨"u", ["number"]⟩, ⟨"v", ["number"]⟩], RelRep.default⟩],
   [⟨Node.atom ["A", "\x7bbf\x7d"] [Node.var "x", Node.var "y"], [], false⟩]⟩

/-- Witness for C2 at `c2WitnessProgram`. -/
theorem c2_magic_relation_decls_witness :
    ∃ added : List Relation,
      (magicTransform c2WitnessProgram).relations =
        c2WitnessProgram.relations ++ added ∧
      (added.map Relation.name).Nodup ∧
      ∀ r ∈ added, ∃ n : QualifiedName,
        r.name = "@magic" :: n ∧
        r.attrs = keepBound (getAdornment n)
          (((getRelation c2WitnessProgram n).map Relation.attrs).getD []) ∧
        ∀ orig : Relation, getRelation c2WitnessProgram n = some orig →
          orig.attrs.length = (getAdornment n).length →
          r.attrs.length = countBound (getAdornment n) :=
  c2_magic_relation_decls c2WitnessProgram (by decide)

end Souffle

/-!  C5/C6 — the Normalise pass (`NormaliseDatabaseTransformer`, MagicSet.cpp).  -/

namespace Souffle

/-- Constructors that are `AstArgument`s in the source class hierarchy. -/
def isArgumentNode : Node → Bool
  | .var _ => true
  | .unnamed => true
  | .num _ => true
  | .str _ => true
  | .counter => true
  | .intrinsic _ _ _ => true
  | .userDef _ _ => true
  | .cast _ _ => true
  | .record _ => true
  | .aggr _ _ _ => true
  | _ => false

/-- State of the `constant_normaliser` mapper: the change counter and the
equality constraints collected for the clause. -/
structure NCState where
  count : Nat
  constraints : List Node
  deriving DecidableEq

/-- Replacement step of the `constant_normaliser`: a fresh variable
`@abdul<n>`, recording an equality `@abdul<n> = processed` (not for `_`). -/
def freshReplace (processed : Node) (addConstraint : Bool) (st : NCState) :
    Node × NCState :=
  let name := "@abdul" ++ toString st.count
  (Node.var name,
    ⟨st.count + 1,
      if addConstraint then st.constraints ++ [Node.binc "EQ" (Node.var name) processed]
      else st.constraints⟩)

mutual

/-- The `constant_normaliser` node mapper (post-order: children first, then a
non-variable argument is replaced by a fresh `@abdul<n>` variable; for every
replaced argument other than an unnamed variable an equality constraint is
recorded).  Literal nodes are kept, with mapped children. -/
def normArg : Node → NCState → Node × NCState
  | .var n, st => (.var n, st)
  | .unnamed, st => freshReplace .unnamed false st
  | .num v, st => freshReplace (.num v) true st
  | .str v, st => freshReplace (.str v) true st
  | .counter, st => freshReplace .counter true st
  | .intrinsic o nu args, st =>
      let (args', st') := normArgList args st
      freshReplace (.intrinsic o nu args') true st'
  | .userDef f args, st =>
      let (args', st') := normArgList args st
      freshReplace (.userDef f args') true st'
  | .cast v t, st =>
      let (v', st') := normArg v st
      freshReplace (.cast v' t) true st'
  | .record args, st =>
      let (args', st') := normArgList args st
      freshReplace (.record args') true st'
  | .aggr o t body, st =>
      let (t', st1) := normOptArg t st
      let (body', st2) := normArgList body st1
      freshReplace (.aggr o t' body') true st2
  | .atom r args, st =>
      let (args', st') := normArgList args st
      (.atom r args', st')
  | .negation a, st =>
      let (a', st') := normArg a st
      (.negation a', st')
  | .binc o l r, st =>
      let (l', st1) := normArg l st
      let (r', st2) := normArg r st1
      (.binc o l' r', st2)
  | .boolc b, st => (.boolc b, st)

def normArgList : List Node → NCState → List Node × NCState
  | [], st => ([], st)
  | a :: as, st =>
      let (a', st1) := normArg a st
      let (as', st2) := normArgList as st1
      (a' :: as', st2)

def normOptArg : Option Node → NCState → Option Node × NCState
  | none, st => (none, st)
  | some a, st =>
      let (a', st') := normArg a st
      (some a', st')

end

mutual

/-- The `visitDepthFirst` atom pass of `nameConstants`: applies the
`constant_normaliser` to (the arguments of) every atom found depth-first; the
replaced children of a processed atom contain no further atoms to visit. -/
def applyToAtoms : Node → NCState → Node × NCState
  | .atom r args, st =>
      let (args', st') := normArgList args st
      (.atom r args', st')
  | .intrinsic o nu args, st =>
      let (args', st') := applyToAtomsList args st
      (.intrinsic o nu args', st')
  | .userDef f args, st =>
      let (args', st') := applyToAtomsList args st
      (.userDef f args', st')
  | .cast v t, st =>
      let (v', st') := applyToAtoms v st
      (.cast v' t, st')
  | .record args, st =>
      let (args', st') := applyToAtomsList args st
      (.record args', st')
  | .aggr o t body, st =>
      let (t', st1) := applyToAtomsOpt t st
      let (body', st2) := applyToAtomsList body st1
      (.aggr o t' body', st2)
  | .negation a, st =>
      let (a', st') := applyToAtoms a st
      (.negation a', st')
  | .binc o l r, st =>
      let (l', st1) := applyToAtoms l st
      let (r', st2) := applyToAtoms r st1
      (.binc o l' r', st2)
  | n, st => (n, st)

def applyToAtomsList : List Node → NCState → List Node × NCState
  | [], st => ([], st)
  | a :: as, st =>
      let (a', st1) := applyToAtoms a st
      let (as', st2) := applyToAtomsList as st1
      (a' :: as', st2)

def applyToAtomsOpt : Option Node → NCState → Option Node × NCState
  | none, st => (none, st)
  | some a, st =>
      let (a', st') := applyToAtoms a st
      (some a', st')

end

/-- A body literal skipped by `nameConstants`: a pre-existing equality
constraint whose left-hand side is a variable. -/
def isSkippedLit : Node → Bool
  | .binc op l _ => op == "EQ" && isVarNode l
  | _ => false

/-- The body pass of `nameConstants` over the literals (skipped literals are
not rewritten). -/
def ncBodyPass (lits : List Node) (st : NCState) : List Node × NCState :=
  match lits with
  | [] => ([], st)
  | l :: ls =>
      let (l', st1) := if isSkippedLit l then (l, st) else normArg l st
      let (ls', st2) := ncBodyPass ls st1
      (l' :: ls', st2)

/-- `NormaliseDatabaseTransformer::nameConstants` on one clause: the head is
rewritten, then the non-skipped body literals, then the arguments of every
atom in the clause, and finally the collected equality constraints are
appended to the body.  Returns the clause and the change counter. -/
def nameConstantsClause (c : Clause) : Clause × Nat :=
  let (h1, st1) := normArg c.head ⟨0, []⟩
  let (body1, st2) := ncBodyPass c.body st1
  let (h2, st3) := applyToAtoms h1 st2
  let (body2, st4) := applyToAtomsList body1 st3
  (⟨h2, body2 ++ st4.constraints, c.plan⟩, st4.count)

/-- `nameConstants` over the whole program; the returned flag is true when any
clause changed (its change counter is nonzero). -/
def nameConstants (P : Program) : Program × Bool :=
  let results := P.clauses.map nameConstantsClause
  (⟨P.relations, results.map Prod.fst⟩, results.any fun r => r.2 ≠ 0)

mutual

/-- Whether a constant or unnamed-variable node occurs anywhere in a node. -/
def containsConstOrUnnamed : Node → Bool
  | .unnamed => true
  | .num _ => true
  | .str _ => true
  | .intrinsic _ _ args => containsCUList args
  | .userDef _ args => containsCUList args
  | .cast v _ => containsConstOrUnnamed v
  | .record args => containsCUList args
  | .aggr _ t body => containsCUOpt t || containsCUList body
  | .atom _ args => containsCUList args
  | .negation a => containsConstOrUnnamed a
  | .binc _ l r => containsConstOrUnnamed l || containsConstOrUnnamed r
  | _ => false

def containsCUList : List Node → Bool
  | [] => false
  | a :: as => containsConstOrUnnamed a || containsCUList as

def containsCUOpt : Option Node → Bool
  | none => false
  | some a => containsConstOrUnnamed a

end

mutual

/-- Whether an atom node occurs anywhere in a node. -/
def containsAtomNode : Node → Bool
  | .atom _ _ => true
  | .intrinsic _ _ args => containsAtomList args
  | .userDef _ args => containsAtomList args
  | .cast v _ => containsAtomNode v
  | .record args => containsAtomList args
  | .aggr _ t body => containsAtomOpt t || containsAtomList body
  | .negation a => containsAtomNode a
  | .binc _ l r => containsAtomNode l || containsAtomNode r
  | _ => false

def containsAtomList : List Node → Bool
  | [] => false
  | a :: as => containsAtomNode a || containsAtomList as

def containsAtomOpt : Option Node → Bool
  | none => false
  | some a => containsAtomNode a

end

mutual

/-- Whether `y` occurs as a subnode of `x` (including `x` itself). -/
def occursIn (y : Node) : Node → Bool
  | .intrinsic o nu args => beqNode y (.intrinsic o nu args) || occursInList y args
  | .userDef f args => beqNode y (.userDef f args) || occursInList y args
  | .cast v t => beqNode y (.cast v t) || occursIn y v
  | .record args => beqNode y (.record args) || occursInList y args
  | .aggr o t body =>
      beqNode y (.aggr o t body) || occursInOpt y t || occursInList y body
  | .atom r args => beqNode y (.atom r args) || occursInList y args
  | .negation a => beqNode y (.negation a) || occursIn y a
  | .binc o l r => beqNode y (.binc o l r) || occursIn y l || occursIn y r
  | .var s => beqNode y (.var s)
  | .unnamed => beqNode y .unnamed
  | .num v => beqNode y (.num v)
  | .str s => beqNode y (.str s)
  | .counter => beqNode y .counter
  | .boolc b => beqNode y (.boolc b)

def occursInList (y : Node) : List Node → Bool
  | [] => false
  | a :: as => occursIn y a || occursInList y as

def occursInOpt (y : Node) : Option Node → Bool
  | none => false
  | some a => occursIn y a

end

end Souffle

namespace Souffle

theorem normArg_no_cu :
    ∀ (x : Node) (st : NCState), containsConstOrUnnamed (normArg x st).1 = false :=
  @Node.rec (fun x => ∀ st, containsConstOrUnnamed (normArg x st).1 = false)
    (fun xs => ∀ st, containsCUList (normArgList xs st).1 = false)
    (fun o => ∀ st, containsCUOpt (normOptArg o st).1 = false)
    (fun _ st => by simp [normArg, containsConstOrUnnamed])
    (fun st => by simp [normArg, freshReplace, containsConstOrUnnamed])
    (fun _ st => by simp [normArg, freshReplace, containsConstOrUnnamed])
    (fun _ st => by simp [normArg, freshReplace, containsConstOrUnnamed])
    (fun st => by simp [normArg, freshReplace, containsConstOrUnnamed])
    (fun _ _ _ _ st => by simp [normArg, freshReplace, containsConstOrUnnamed])
    (fun _ _ _ st => by simp [normArg, freshReplace, containsConstOrUnnamed])
    (fun _ _ _ st => by simp [normArg, freshReplace, containsConstOrUnnamed])
    (fun _ _ st => by simp [normArg, freshReplace, containsConstOrUnnamed])
    (fun _ _ _ _ _ st => by simp [normArg, freshReplace, containsConstOrUnnamed])
    (fun _ _ ih st => by simp [normArg, containsConstOrUnnamed, ih])
    (fun _ ih st => by simp [normArg, containsConstOrUnnamed, ih])
    (fun _ _ _ ihl ihr st => by simp [normArg, containsConstOrUnnamed, ihl, ihr])
    (fun _ st => by simp [normArg, containsConstOrUnnamed])
    (fun st => by simp [normArgList, containsCUList])
    (fun _ _ ihh iht st => by simp [normArgList, containsCUList, ihh, iht])
    (fun st => by simp [normOptArg, containsCUOpt])
    (fun _ ih st => by simp [normOptArg, containsCUOpt, ih])

theorem normArgList_no_cu :
    ∀ (xs : List Node) (st : NCState), containsCUList (normArgList xs st).1 = false := by
  intro xs
  induction xs with
  | nil => intro st; simp [normArgList, containsCUList]
  | cons a as ih => intro st; simp [normArgList, containsCUList, normArg_no_cu, ih]

theorem applyToAtoms_no_cu :
    ∀ (x : Node) (st : NCState), containsConstOrUnnamed x = false →
      containsConstOrUnnamed (applyToAtoms x st).1 = false :=
  @Node.rec (fun x => ∀ st, containsConstOrUnnamed x = false →
      containsConstOrUnnamed (applyToAtoms x st).1 = false)
    (fun xs => ∀ st, containsCUList xs = false →
      containsCUList (applyToAtomsList xs st).1 = false)
    (fun o => ∀ st, containsCUOpt o = false →
      containsCUOpt (applyToAtomsOpt o st).1 = false)
    (fun _ st _ => by simp [applyToAtoms, containsConstOrUnnamed])
    (fun st h => by simp [containsConstOrUnnamed] at h)
    (fun _ st h => by simp [containsConstOrUnnamed] at h)
    (fun _ st h => by simp [containsConstOrUnnamed] at h)
    (fun st _ => by simp [applyToAtoms, containsConstOrUnnamed])
    (fun _ _ _ ih st h => by
      simp only [containsConstOrUnnamed] at h
      simp [applyToAtoms, containsConstOrUnnamed, ih _ h])
    (fun _ _ ih st h => by
      simp only [containsConstOrUnnamed] at h
      simp [applyToAtoms, containsConstOrUnnamed, ih _ h])
    (fun _ _ ih st h => by
      simp only [containsConstOrUnnamed] at h
      simp [applyToAtoms, containsConstOrUnnamed, ih _ h])
    (fun _ ih st h => by
      simp only [containsConstOrUnnamed] at h
      simp [applyToAtoms, containsConstOrUnnamed, ih _ h])
    (fun _ _ _ iht ihb st h => by
      simp only [containsConstOrUnnamed, Bool.or_eq_false_iff] at h
      simp [applyToAtoms, containsConstOrUnnamed, iht _ h.1, ihb _ h.2])
    (fun _ _ _ st _ => by
      simp [applyToAtoms, containsConstOrUnnamed, normArgList_no_cu])
    (fun _ ih st h => by
      simp only [containsConstOrUnnamed] at h
      simp [applyToAtoms, containsConstOrUnnamed, ih _ h])
    (fun _ _ _ ihl ihr st h => by
      simp only [containsConstOrUnnamed, Bool.or_eq_false_iff] at h
      simp [applyToAtoms, containsConstOrUnnamed, ihl _ h.1, ihr _ h.2])
    (fun _ st _ => by simp [applyToAtoms, containsConstOrUnnamed])
    (fun st _ => by simp [applyToAtomsList, containsCUList])
    (fun _ _ ihh iht st h => by
      simp only [containsCUList, Bool.or_eq_false_iff] at h
      simp [applyToAtomsList, containsCUList, ihh _ h.1, iht _ h.2])
    (fun st _ => by simp [applyToAtomsOpt, containsCUOpt])
    (fun _ ih st h => by
      simp only [containsCUOpt] at h
      simp [applyToAtomsOpt, containsCUOpt, ih _ h])

theorem applyToAtoms_id :
    ∀ (x : Node) (st : NCState), containsAtomNode x = false →
      applyToAtoms x st = (x, st) :=
  @Node.rec (fun x => ∀ st, containsAtomNode x = false → applyToAtoms x st = (x, st))
    (fun xs => ∀ st, containsAtomList xs = false → applyToAtomsList xs st = (xs, st))
    (fun o => ∀ st, containsAtomOpt o = false → applyToAtomsOpt o st = (o, st))
    (fun _ st _ => by simp [applyToAtoms])
    (fun st _ => by simp [applyToAtoms])
    (fun _ st _ => by simp [applyToAtoms])
    (fun _ st _ => by simp [applyToAtoms])
    (fun st _ => by simp [applyToAtoms])
    (fun _ _ _ ih st h => by
      simp only [containsAtomNode] at h
      simp [applyToAtoms, ih _ h])
    (fun _ _ ih st h => by
      simp only [containsAtomNode] at h
      simp [applyToAtoms, ih _ h])
    (fun _ _ ih st h => by
      simp only [containsAtomNode] at h
      simp [applyToAtoms, ih _ h])
    (fun _ ih st h => by
      simp only [containsAtomNode] at h
      simp [applyToAtoms, ih _ h])
    (fun _ _ _ iht ihb st h => by
      simp only [containsAtomNode, Bool.or_eq_false_iff] at h
      simp [applyToAtoms, iht _ h.1, ihb _ h.2])
    (fun _ _ _ st h => by simp [containsAtomNode] at h)
    (fun _ ih st h => by
      simp only [containsAtomNode] at h
      simp [applyToAtoms, ih _ h])
    (fun _ _ _ ihl ihr st h => by
      simp only [containsAtomNode, Bool.or_eq_false_iff] at h
      simp [applyToAtoms, ihl _ h.1, ihr _ h.2])
    (fun _ st _ => by simp [applyToAtoms])
    (fun st _ => by simp [applyToAtomsList])
    (fun _ _ ihh iht st h => by
      simp only [containsAtomList, Bool.or_eq_false_iff] at h
      simp [applyToAtomsList, ihh _ h.1, iht _ h.2])
    (fun st _ => by simp [applyToAtomsOpt])
    (fun _ ih st h => by
      simp only [containsAtomOpt] at h
      simp [applyToAtomsOpt, ih _ h])

end Souffle

namespace Souffle

/-- The constraint recorded for a replaced constant. -/
def consOf (n : Nat) (y : Node) : Node :=
  Node.binc "EQ" (Node.var ("@abdul" ++ toString n)) y

/-- Shape of every constraint the normaliser records. -/
def ConsShape (l : Node) : Prop :=
  ∃ n rhs, l = consOf n rhs ∧ rhs ≠ Node.unnamed

theorem normArg_constraints_mono :
    ∀ (x : Node) (st : NCState),
      st.constraints <+: (normArg x st).2.constraints :=
  @Node.rec (fun x => ∀ st, st.constraints <+: (normArg x st).2.constraints)
    (fun xs => ∀ st, st.constraints <+: (normArgList xs st).2.constraints)
    (fun o => ∀ st, st.constraints <+: (normOptArg o st).2.constraints)
    (fun _ st => by simp [normArg])
    (fun st => by simp [normArg, freshReplace])
    (fun _ st => by simp [normArg, freshReplace])
    (fun _ st => by simp [normArg, freshReplace])
    (fun st => by simp [normArg, freshReplace])
    (fun _ _ _ ih st => by
      simp [normArg, freshReplace]
      exact (ih st).trans (List.prefix_append _ _))
    (fun _ _ ih st => by
      simp [normArg, freshReplace]
      exact (ih st).trans (List.prefix_append _ _))
    (fun _ _ ih st => by
      simp [normArg, freshReplace]
      exact (ih st).trans (List.prefix_append _ _))
    (fun _ ih st => by
      simp [normArg, freshReplace]
      exact (ih st).trans (List.prefix_append _ _))
    (fun _ _ _ iht ihb st => by
      simp [normArg, freshReplace]
      exact ((iht st).trans (ihb _)).trans (List.prefix_append _ _))
    (fun _ _ ih st => by simp [normArg]; exact ih st)
    (fun _ ih st => by simp [normArg]; exact ih st)
    (fun _ _ _ ihl ihr st => by
      simp [normArg]
      exact (ihl st).trans (ihr _))
    (fun _ st => by simp [normArg])
    (fun st => by simp [normArgList])
    (fun _ _ ihh iht st => by
      simp [normArgList]
      exact (ihh st).trans (iht _))
    (fun st => by simp [normOptArg])
    (fun _ ih st => by simp [normOptArg]; exact ih st)

theorem normArg_constraints_mono_list :
    ∀ (xs : List Node) (st : NCState),
      st.constraints <+: (normArgList xs st).2.constraints := by
  intro xs
  induction xs with
  | nil => intro st; simp [normArgList]
  | cons a as ih =>
      intro st
      simp only [normArgList]
      exact (normArg_constraints_mono a st).trans (by simpa using ih (normArg a st).2)

theorem normArg_constraints_shape :
    ∀ (x : Node) (st : NCState) (l : Node),
      l ∈ (normArg x st).2.constraints → l ∈ st.constraints ∨ ConsShape l :=
  @Node.rec (fun x => ∀ st l, l ∈ (normArg x st).2.constraints →
      l ∈ st.constraints ∨ ConsShape l)
    (fun xs => ∀ st l, l ∈ (normArgList xs st).2.constraints →
      l ∈ st.constraints ∨ ConsShape l)
    (fun o => ∀ st l, l ∈ (normOptArg o st).2.constraints →
      l ∈ st.constraints ∨ ConsShape l)
    (fun _ st l h => by simp [normArg] at h; exact Or.inl h)
    (fun st l h => by simp [normArg, freshReplace] at h; exact Or.inl h)
    (fun v st l h => by
      simp [normArg, freshReplace] at h
      rcases h with h | h
      · exact Or.inl h
      · exact Or.inr ⟨st.count, _, h, by simp⟩)
    (fun v st l h => by
      simp [normArg, freshReplace] at h
      rcases h with h | h
      · exact Or.inl h
      · exact Or.inr ⟨st.count, _, h, by simp⟩)
    (fun st l h => by
      simp [normArg, freshReplace] at h
      rcases h with h | h
      · exact Or.inl h
      · exact Or.inr ⟨st.count, _, h, by simp⟩)
    (fun o nu args ih st l h => by
      simp [normArg, freshReplace] at h
      rcases h with h | h
      · exact ih st l h
      · exact Or.inr ⟨(normArgList args st).2.count, _, h, by simp⟩)
    (fun f args ih st l h => by
      simp [normArg, freshReplace] at h
      rcases h with h | h
      · exact ih st l h
      · exact Or.inr ⟨(normArgList args st).2.count, _, h, by simp⟩)
    (fun v t ih st l h => by
      simp [normArg, freshReplace] at h
      rcases h with h | h
      · exact ih st l h
      · exact Or.inr ⟨(normArg v st).2.count, _, h, by simp⟩)
    (fun args ih st l h => by
      simp [normArg, freshReplace] at h
      rcases h with h | h
      · exact ih st l h
      · exact Or.inr ⟨(normArgList args st).2.count, _, h, by simp⟩)
    (fun o t body iht ihb st l h => by
      simp [normArg, freshReplace] at h
      rcases h with h | h
      · rcases ihb _ l h with h' | h'
        · exact iht st l h'
        · exact Or.inr h'
      · exact Or.inr ⟨(normArgList body (normOptArg t st).2).2.count, _, h, by simp⟩)
    (fun r args ih st l h => by
      simp [normArg] at h
      exact ih st l h)
    (fun a ih st l h => by
      simp [normArg] at h
      exact ih st l h)
    (fun o lhs rhs ihl ihr st l h => by
      simp [normArg] at h
      rcases ihr _ l h with h' | h'
      · exact ihl st l h'
      · exact Or.inr h')
    (fun _ st l h => by simp [normArg] at h; exact Or.inl h)
    (fun st l h => by simp [normArgList] at h; exact Or.inl h)
    (fun a as ihh iht st l h => by
      simp [normArgList] at h
      rcases iht _ l h with h' | h'
      · exact ihh st l h'
      · exact Or.inr h')
    (fun st l h => by simp [normOptArg] at h; exact Or.inl h)
    (fun a ih st l h => by
      simp [normOptArg] at h
      exact ih st l h)

end Souffle

namespace Souffle

theorem const_beq_false (y x : Node) (hy : isConstNode y = true)
    (hx : isConstNode x = false) : beqNode y x = false := by
  cases hbe : beqNode y x
  · rfl
  · rw [beqNode_iff] at hbe
    subst hbe
    rw [hy] at hx
    cases hx

theorem normArg_const_constraint (y : Node) (hy : isConstNode y = true) :
    ∀ (x : Node) (st : NCState), occursIn y x = true →
      ∃ n, consOf n y ∈ (normArg x st).2.constraints :=
  @Node.rec (fun x => ∀ st, occursIn y x = true →
      ∃ n, consOf n y ∈ (normArg x st).2.constraints)
    (fun xs => ∀ st, occursInList y xs = true →
      ∃ n, consOf n y ∈ (normArgList xs st).2.constraints)
    (fun o => ∀ st, occursInOpt y o = true →
      ∃ n, consOf n y ∈ (normOptArg o st).2.constraints)
    (fun s st h => by
      rw [occursIn, const_beq_false y (Node.var s) hy (by simp [isConstNode])] at h
      exact Bool.noConfusion h)
    (fun st h => by
      rw [occursIn, const_beq_false y Node.unnamed hy (by simp [isConstNode])] at h
      exact Bool.noConfusion h)
    (fun v st h => by
      rw [occursIn, beqNode_iff] at h
      subst h
      exact ⟨st.count, by simp [normArg, freshReplace, consOf]⟩)
    (fun v st h => by
      rw [occursIn, beqNode_iff] at h
      subst h
      exact ⟨st.count, by simp [normArg, freshReplace, consOf]⟩)
    (fun st h => by
      rw [occursIn, const_beq_false y Node.counter hy (by simp [isConstNode])] at h
      exact Bool.noConfusion h)
    (fun o nu args ih st h => by
      rw [occursIn,
        const_beq_false y (Node.intrinsic o nu args) hy (by simp [isConstNode])] at h
      simp only [Bool.false_or] at h
      obtain ⟨n, hn⟩ := ih st h
      exact ⟨n, by simp [normArg, freshReplace]; exact Or.inl hn⟩)
    (fun f args ih st h => by
      rw [occursIn,
        const_beq_false y (Node.userDef f args) hy (by simp [isConstNode])] at h
      simp only [Bool.false_or] at h
      obtain ⟨n, hn⟩ := ih st h
      exact ⟨n, by simp [normArg, freshReplace]; exact Or.inl hn⟩)
    (fun v t ih st h => by
      rw [occursIn, const_beq_false y (Node.cast v t) hy (by simp [isConstNode])] at h
      simp only [Bool.false_or] at h
      obtain ⟨n, hn⟩ := ih st h
      exact ⟨n, by simp [normArg, freshReplace]; exact Or.inl hn⟩)
    (fun args ih st h => by
      rw [occursIn, const_beq_false y (Node.record args) hy (by simp [isConstNode])] at h
      simp only [Bool.false_or] at h
      obtain ⟨n, hn⟩ := ih st h
      exact ⟨n, by simp [normArg, freshReplace]; exact Or.inl hn⟩)
    (fun o t body iht ihb st h => by
      rw [occursIn, const_beq_false y (Node.aggr o t body) hy (by simp [isConstNode])] at h
      simp only [Bool.false_or, Bool.or_eq_true] at h
      rcases h with h | h
      · obtain ⟨n, hn⟩ := iht st h
        refine ⟨n, by
          simp [normArg, freshReplace]
          exact Or.inl ((normArg_constraints_mono_list body _).subset hn)⟩
      · obtain ⟨n, hn⟩ := ihb _ h
        exact ⟨n, by simp [normArg, freshReplace]; exact Or.inl hn⟩)
    (fun r args ih st h => by
      rw [occursIn, const_beq_false y (Node.atom r args) hy (by simp [isConstNode])] at h
      simp only [Bool.false_or] at h
      obtain ⟨n, hn⟩ := ih st h
      exact ⟨n, by simp [normArg]; exact hn⟩)
    (fun a ih st h => by
      rw [occursIn, const_beq_false y (Node.negation a) hy (by simp [isConstNode])] at h
      simp only [Bool.false_or] at h
      obtain ⟨n, hn⟩ := ih st h
      exact ⟨n, by simp [normArg]; exact hn⟩)
    (fun o lhs rhs ihl ihr st h => by
      rw [occursIn, const_beq_false y (Node.binc o lhs rhs) hy (by simp [isConstNode])] at h
      simp only [Bool.false_or, Bool.or_eq_true] at h
      rcases h with h | h
      · obtain ⟨n, hn⟩ := ihl st h
        exact ⟨n, by
          simp [normArg]
          exact (normArg_constraints_mono rhs _).subset hn⟩
      · obtain ⟨n, hn⟩ := ihr _ h
        exact ⟨n, by simp [normArg]; exact hn⟩)
    (fun v st h => by
      rw [occursIn, const_beq_false y (Node.boolc v) hy (by simp [isConstNode])] at h
      exact Bool.noConfusion h)
    (fun st h => by cases h)
    (fun a as ihh iht st h => by
      rw [occursInList, Bool.or_eq_true] at h
      rcases h with h | h
      · obtain ⟨n, hn⟩ := ihh st h
        exact ⟨n, by
          simp [normArgList]
          exact (normArg_constraints_mono_list as _).subset hn⟩
      · obtain ⟨n, hn⟩ := iht _ h
        exact ⟨n, by simp [normArgList]; exact hn⟩)
    (fun st h => by cases h)
    (fun a ih st h => by
      rw [occursInOpt] at h
      obtain ⟨n, hn⟩ := ih st h
      exact ⟨n, by simp [normOptArg]; exact hn⟩)

end Souffle

namespace Souffle

theorem normArgList_constraints_shape :
    ∀ (xs : List Node) (st : NCState) (l : Node),
      l ∈ (normArgList xs st).2.constraints → l ∈ st.constraints ∨ ConsShape l := by
  intro xs
  induction xs with
  | nil => intro st l h; simp [normArgList] at h; exact Or.inl h
  | cons a as ih =>
      intro st l h
      simp only [normArgList] at h
      try simp at h
      rcases ih _ l h with h' | h'
      · exact normArg_constraints_shape a st l h'
      · exact Or.inr h'

theorem applyToAtoms_constraints_mono :
    ∀ (x : Node) (st : NCState), st.constraints <+: (applyToAtoms x st).2.constraints :=
  @Node.rec (fun x => ∀ st, st.constraints <+: (applyToAtoms x st).2.constraints)
    (fun xs => ∀ st, st.constraints <+: (applyToAtomsList xs st).2.constraints)
    (fun o => ∀ st, st.constraints <+: (applyToAtomsOpt o st).2.constraints)
    (fun _ st => by simp [applyToAtoms])
    (fun st => by simp [applyToAtoms])
    (fun _ st => by simp [applyToAtoms])
    (fun _ st => by simp [applyToAtoms])
    (fun st => by simp [applyToAtoms])
    (fun _ _ _ ih st => by simp [applyToAtoms]; exact ih st)
    (fun _ _ ih st => by simp [applyToAtoms]; exact ih st)
    (fun _ _ ih st => by simp [applyToAtoms]; exact ih st)
    (fun _ ih st => by simp [applyToAtoms]; exact ih st)
    (fun _ _ _ iht ihb st => by
      simp [applyToAtoms]
      exact (iht st).trans (ihb _))
    (fun _ _ _ st => by
      simp [applyToAtoms]
      exact normArg_constraints_mono_list _ _)
    (fun _ ih st => by simp [applyToAtoms]; exact ih st)
    (fun _ _ _ ihl ihr st => by
      simp [applyToAtoms]
      exact (ihl st).trans (ihr _))
    (fun _ st => by simp [applyToAtoms])
    (fun st => by simp [applyToAtomsList])
    (fun _ _ ihh iht st => by
      simp [applyToAtomsList]
      exact (ihh st).trans (iht _))
    (fun st => by simp [applyToAtomsOpt])
    (fun _ ih st => by simp [applyToAtomsOpt]; exact ih st)

theorem applyToAtoms_constraints_shape :
    ∀ (x : Node) (st : NCState) (l : Node),
      l ∈ (applyToAtoms x st).2.constraints → l ∈ st.constraints ∨ ConsShape l :=
  @Node.rec (fun x => ∀ st l, l ∈ (applyToAtoms x st).2.constraints →
      l ∈ st.constraints ∨ ConsShape l)
    (fun xs => ∀ st l, l ∈ (applyToAtomsList xs st).2.constraints →
      l ∈ st.constraints ∨ ConsShape l)
    (fun o => ∀ st l, l ∈ (applyToAtomsOpt o st).2.constraints →
      l ∈ st.constraints ∨ ConsShape l)
    (fun _ st l h => by simp [applyToAtoms] at h; exact Or.inl h)
    (fun st l h => by simp [applyToAtoms] at h; exact Or.inl h)
    (fun _ st l h => by simp [applyToAtoms] at h; exact Or.inl h)
    (fun _ st l h => by simp [applyToAtoms] at h; exact Or.inl h)
    (fun st l h => by simp [applyToAtoms] at h; exact Or.inl h)
    (fun _ _ _ ih st l h => by simp [applyToAtoms] at h; exact ih st l h)
    (fun _ _ ih st l h => by simp [applyToAtoms] at h; exact ih st l h)
    (fun _ _ ih st l h => by simp [applyToAtoms] at h; exact ih st l h)
    (fun _ ih st l h => by simp [applyToAtoms] at h; exact ih st l h)
    (fun _ _ _ iht ihb st l h => by
      simp [applyToAtoms] at h
      rcases ihb _ l h with h' | h'
      · exact iht st l h'
      · exact Or.inr h')
    (fun _ _ _ st l h => by
      simp [applyToAtoms] at h
      exact normArgList_constraints_shape _ st l h)
    (fun _ ih st l h => by simp [applyToAtoms] at h; exact ih st l h)
    (fun _ _ _ ihl ihr st l h => by
      simp [applyToAtoms] at h
      rcases ihr _ l h with h' | h'
      · exact ihl st l h'
      · exact Or.inr h')
    (fun _ st l h => by simp [applyToAtoms] at h; exact Or.inl h)
    (fun st l h => by simp [applyToAtomsList] at h; exact Or.inl h)
    (fun _ _ ihh iht st l h => by
      simp [applyToAtomsList] at h
      rcases iht _ l h with h' | h'
      · exact ihh st l h'
      · exact Or.inr h')
    (fun st l h => by simp [applyToAtomsOpt] at h; exact Or.inl h)
    (fun _ ih st l h => by simp [applyToAtomsOpt] at h; exact ih st l h)

theorem applyToAtomsList_constraints_mono :
    ∀ (xs : List Node) (st : NCState),
      st.constraints <+: (applyToAtomsList xs st).2.constraints := by
  intro xs
  induction xs with
  | nil => intro st; simp [applyToAtomsList]
  | cons a as ih =>
      intro st
      simp only [applyToAtomsList]
      exact (applyToAtoms_constraints_mono a st).trans (by simpa using ih (applyToAtoms a st).2)

theorem applyToAtomsList_constraints_shape :
    ∀ (xs : List Node) (st : NCState) (l : Node),
      l ∈ (applyToAtomsList xs st).2.constraints → l ∈ st.constraints ∨ ConsShape l := by
  intro xs
  induction xs with
  | nil => intro st l h; simp [applyToAtomsList] at h; exact Or.inl h
  | cons a as ih =>
      intro st l h
      simp only [applyToAtomsList] at h
      try simp at h
      rcases ih _ l h with h' | h'
      · exact applyToAtoms_constraints_shape a st l h'
      · exact Or.inr h'

theorem ncBodyPass_constraints_mono :
    ∀ (lits : List Node) (st : NCState),
      st.constraints <+: (ncBodyPass lits st).2.constraints := by
  intro lits
  induction lits with
  | nil => intro st; simp [ncBodyPass]
  | cons l ls ih =>
      intro st
      by_cases hs : isSkippedLit l = true
      · simpa [ncBodyPass, hs] using ih st
      · simp only [ncBodyPass, Bool.not_eq_true] at hs ⊢
        simp only [hs, Bool.false_eq_true, ite_false]
        exact (normArg_constraints_mono l st).trans (by simpa using ih (normArg l st).2)

theorem ncBodyPass_constraints_shape :
    ∀ (lits : List Node) (st : NCState) (l : Node),
      l ∈ (ncBodyPass lits st).2.constraints → l ∈ st.constraints ∨ ConsShape l := by
  intro lits
  induction lits with
  | nil => intro st l h; simp [ncBodyPass] at h; exact Or.inl h
  | cons x xs ih =>
      intro st l h
      by_cases hs : isSkippedLit x = true
      · simp only [ncBodyPass, hs, ite_true] at h
        try simp at h
        exact ih _ l h
      · simp only [Bool.not_eq_true] at hs
        simp only [ncBodyPass, hs, Bool.false_eq_true, ite_false] at h
        try simp at h
        rcases ih _ l h with h' | h'
        · exact normArg_constraints_shape x st l h'
        · exact Or.inr h'

theorem ncBodyPass_const_constraint (y : Node) (hy : isConstNode y = true) :
    ∀ (lits : List Node) (st : NCState) (l : Node),
      l ∈ lits → isSkippedLit l = false → occursIn y l = true →
      ∃ n, consOf n y ∈ (ncBodyPass lits st).2.constraints := by
  intro lits
  induction lits with
  | nil => intro st l h; simp at h
  | cons x xs ih =>
      intro st l hmem hns hocc
      rcases List.mem_cons.mp hmem with rfl | hmem'
      · simp only [ncBodyPass, hns, Bool.false_eq_true, ite_false]
        obtain ⟨n, hn⟩ := normArg_const_constraint y hy l st hocc
        exact ⟨n, by
          exact (ncBodyPass_constraints_mono xs _).subset hn⟩
      · by_cases hs : isSkippedLit x = true
        · simp only [ncBodyPass, hs, ite_true]
          exact ih _ l hmem' hns hocc
        · simp only [Bool.not_eq_true] at hs
          simp only [ncBodyPass, hs, Bool.false_eq_true, ite_false]
          exact ih _ l hmem' hns hocc

end Souffle

namespace Souffle

theorem ncBodyPass_cons_fst (l : Node) (ls : List Node) (st : NCState) :
    (ncBodyPass (l :: ls) st).1 =
      (if isSkippedLit l then l else (normArg l st).1) ::
        (ncBodyPass ls (if isSkippedLit l then st else (normArg l st).2)).1 := by
  by_cases hs : isSkippedLit l = true
  · simp [ncBodyPass, hs]
  · simp only [Bool.not_eq_true] at hs
    simp [ncBodyPass, hs]

theorem applyToAtomsList_cons_fst (a : Node) (as : List Node) (st : NCState) :
    (applyToAtomsList (a :: as) st).1 =
      (applyToAtoms a st).1 :: (applyToAtomsList as (applyToAtoms a st).2).1 := by
  simp [applyToAtomsList]

theorem ncBodyPass_length (lits : List Node) :
    ∀ st, (ncBodyPass lits st).1.length = lits.length := by
  induction lits with
  | nil => intro st; simp [ncBodyPass]
  | cons l ls ih =>
      intro st
      rw [ncBodyPass_cons_fst]
      simp [ih]

theorem applyToAtomsList_length (xs : List Node) :
    ∀ st, (applyToAtomsList xs st).1.length = xs.length := by
  induction xs with
  | nil => intro st; simp [applyToAtomsList]
  | cons a as ih =>
      intro st
      rw [applyToAtomsList_cons_fst]
      simp [ih]

theorem pass23_pointwise (lits : List Node) :
    ∀ (st st' : NCState) (i : Nat) (li lo : Node),
      lits[i]? = some li →
      ((applyToAtomsList (ncBodyPass lits st).1 st').1)[i]? = some lo →
      (isSkippedLit li = false → containsConstOrUnnamed lo = false) ∧
      (isSkippedLit li = true → containsAtomNode li = false → lo = li) := by
  induction lits with
  | nil => intro st st' i li lo h; simp at h
  | cons l ls ih =>
      intro st st' i li lo hinp hout
      rw [ncBodyPass_cons_fst, applyToAtomsList_cons_fst] at hout
      cases i with
      | zero =>
          simp only [List.getElem?_cons_zero, Option.some.injEq] at hinp hout
          subst hinp
          subst hout
          constructor
          · intro hns
            simp only [hns, Bool.false_eq_true, ite_false]
            exact applyToAtoms_no_cu _ _ (normArg_no_cu l st)
          · intro hs hna
            simp only [hs, ite_true]
            rw [applyToAtoms_id l _ hna]
      | succ j =>
          simp only [List.getElem?_cons_succ] at hinp hout
          exact ih _ _ j li lo hinp hout

end Souffle

namespace Souffle

theorem nameConstantsClause_def (c : Clause) :
    nameConstantsClause c =
      (⟨(applyToAtoms (normArg c.head ⟨0, []⟩).1
            (ncBodyPass c.body (normArg c.head ⟨0, []⟩).2).2).1,
        (applyToAtomsList (ncBodyPass c.body (normArg c.head ⟨0, []⟩).2).1
            (applyToAtoms (normArg c.head ⟨0, []⟩).1
              (ncBodyPass c.body (normArg c.head ⟨0, []⟩).2).2).2).1 ++
          (applyToAtomsList (ncBodyPass c.body (normArg c.head ⟨0, []⟩).2).1
            (applyToAtoms (normArg c.head ⟨0, []⟩).1
              (ncBodyPass c.body (normArg c.head ⟨0, []⟩).2).2).2).2.constraints,
        c.plan⟩,
      (applyToAtomsList (ncBodyPass c.body (normArg c.head ⟨0, []⟩).2).1
          (applyToAtoms (normArg c.head ⟨0, []⟩).1
            (ncBodyPass c.body (normArg c.head ⟨0, []⟩).2).2).2).2.count) := by
  simp [nameConstantsClause]

/-- C5 (amended): after the Name-constants sub-pass, no constant or unnamed
variable remains in the head or in any body literal that is not a pre-existing
equality constraint with variable left-hand side; such equality constraints
are skipped in their entirety (unchanged whenever no atom is nested inside
them, the RHS included — not only their LHS); each collected constraint is an
equality `@abdul<n> = rhs` with non-underscore right side; and for every
constant occurring in the head or a non-skipped literal an equality
`@abdul<n> = constant` is appended to the clause. -/
theorem c5_name_constants_amended (c : Clause) :
    containsConstOrUnnamed ((nameConstantsClause c).1).head = false ∧
    ∃ mainBody appended : List Node,
      ((nameConstantsClause c).1).body = mainBody ++ appended ∧
      mainBody.length = c.body.length ∧
      (∀ (i : Nat) (li lo : Node), c.body[i]? = some li → mainBody[i]? = some lo →
        (isSkippedLit li = false → containsConstOrUnnamed lo = false) ∧
        (isSkippedLit li = true → containsAtomNode li = false → lo = li)) ∧
      (∀ l ∈ appended, ConsShape l) ∧
      (∀ y : Node, isConstNode y = true →
        (occursIn y c.head = true ∨
          ∃ l ∈ c.body, isSkippedLit l = false ∧ occursIn y l = true) →
        ∃ n, consOf n y ∈ appended) := by
  rw [nameConstantsClause_def]
  refine ⟨?_, ?_⟩
  · exact applyToAtoms_no_cu _ _ (normArg_no_cu c.head ⟨0, []⟩)
  · refine ⟨_, _, rfl, ?_, ?_, ?_, ?_⟩
    · rw [applyToAtomsList_length, ncBodyPass_length]
    · intro i li lo hi ho
      exact pass23_pointwise c.body _ _ i li lo hi ho
    · intro l hl
      rcases applyToAtomsList_constraints_shape _ _ l hl with h1 | h1
      · rcases applyToAtoms_constraints_shape _ _ l h1 with h2 | h2
        · rcases ncBodyPass_constraints_shape _ _ l h2 with h3 | h3
          · rcases normArg_constraints_shape _ _ l h3 with h4 | h4
            · simp at h4
            · exact h4
          · exact h3
        · exact h2
      · exact h1
    · intro y hy hocc
      rcases hocc with hocc | ⟨l, hl, hns, hocc⟩
      · obtain ⟨n, hn⟩ := normArg_const_constraint y hy c.head ⟨0, []⟩ hocc
        exact ⟨n, (applyToAtomsList_constraints_mono _ _).subset
          ((applyToAtoms_constraints_mono _ _).subset
            ((ncBodyPass_constraints_mono _ _).subset hn))⟩
      · obtain ⟨n, hn⟩ := ncBodyPass_const_constraint y hy c.body _ l hl hns hocc
        exact ⟨n, (applyToAtomsList_constraints_mono _ _).subset
          ((applyToAtoms_constraints_mono _ _).subset hn)⟩

/-- The counterexample clause `A(y) :- y = 3`. -/
def c5cex : Clause :=
  ⟨Node.atom ["A"] [Node.var "y"], [Node.binc "EQ" (Node.var "y") (Node.num 3)], false⟩

/-- C5 counterexample: on `A(y) :- y = 3` the Name-constants sub-pass leaves
the clause completely unchanged (change counter 0, no constraint added), so
the constant `3` — an argument on the right-hand side of the pre-existing
equality, not its left-hand side — is NOT replaced by a fresh `@abdul<n>`
variable and no equality `@abdul<n> = 3` is added, contradicting the claim
that every constant argument outside the LHS of a `var = const` equality is
rewritten. -/
theorem c5_rhs_constant_kept_counterexample :
    (nameConstantsClause c5cex).1 = c5cex ∧
    (nameConstantsClause c5cex).2 = 0 ∧
    (nameConstantsClause c5cex).1.body = [Node.binc "EQ" (Node.var "y") (Node.num 3)] ∧
    occursIn (Node.num 3) (Node.binc "EQ" (Node.var "y") (Node.num 3)) = true := by
  refine ⟨by decide, by decide, by decide, by decide⟩

/-- Witness clause for C5: `A(x, 7) :- P([2]), x = 5`. -/
def c5W : Clause :=
  ⟨Node.atom ["A"] [Node.var "x", Node.num 7],
   [Node.atom ["P"] [Node.record [Node.num 2]],
    Node.binc "EQ" (Node.var "x") (Node.num 5)], false⟩

/-- Witness for C5 at the concrete clause `c5W`. -/
theorem c5_name_constants_amended_witness :
    containsConstOrUnnamed ((nameConstantsClause c5W).1).head = false ∧
    ∃ mainBody appended : List Node,
      ((nameConstantsClause c5W).1).body = mainBody ++ appended ∧
      mainBody.length = c5W.body.length ∧
      (∀ (i : Nat) (li lo : Node), c5W.body[i]? = some li → mainBody[i]? = some lo →
        (isSkippedLit li = false → containsConstOrUnnamed lo = false) ∧
        (isSkippedLit li = true → containsAtomNode li = false → lo = li)) ∧
      (∀ l ∈ appended, ConsShape l) ∧
      (∀ y : Node, isConstNode y = true →
        (occursIn y c5W.head = true ∨
          ∃ l ∈ c5W.body, isSkippedLit l = false ∧ occursIn y l = true) →
        ∃ n, consOf n y ∈ appended) :=
  c5_name_constants_amended c5W

end Souffle

namespace Souffle

/-- Whether a clause "has rules" in the sense of `extractIDB`: some atom
occurs (at any depth) among its body literals. -/
def clauseHasBodyAtom (c : Clause) : Bool := containsAtomList c.body

/-- Whether some clause of relation `n` has a body atom. -/
def relHasRules (P : Program) (n : QualifiedName) : Bool :=
  (getClauses P n).any clauseHasBodyAtom

/-- The input relations `extractIDB` processes: inputs with body-atom rules. -/
def extractInputRels (P : Program) (ioInput : List QualifiedName) : List Relation :=
  P.relations.filter fun r => decide (r.name ∈ ioInput) && relHasRules P r.name

/-- Their names. -/
def extractInputNames (P : Program) (ioInput : List QualifiedName) : List QualifiedName :=
  (extractInputRels P ioInput).map Relation.name

mutual

/-- The `rename_relation` node mapper of `extractIDB`: an atom whose relation
is in the set is renamed by prepending `@interm_in` and is NOT further
descended into (the C++ mapper returns the renamed clone without recursing);
all other nodes have their children mapped. -/
def renameIntermIn (S : List QualifiedName) : Node → Node
  | .atom r as =>
      if r ∈ S then .atom ("@interm_in" :: r) as
      else .atom r (renameIntermInList S as)
  | .intrinsic o nu args => .intrinsic o nu (renameIntermInList S args)
  | .userDef f args => .userDef f (renameIntermInList S args)
  | .cast v t => .cast (renameIntermIn S v) t
  | .record args => .record (renameIntermInList S args)
  | .aggr o t body => .aggr o (renameIntermInOpt S t) (renameIntermInList S body)
  | .negation a => .negation (renameIntermIn S a)
  | .binc o l r => .binc o (renameIntermIn S l) (renameIntermIn S r)
  | x => x

def renameIntermInList (S : List QualifiedName) : List Node → List Node
  | [] => []
  | a :: as => renameIntermIn S a :: renameIntermInList S as

def renameIntermInOpt (S : List QualifiedName) : Option Node → Option Node
  | none => none
  | some a => some (renameIntermIn S a)

end

/-- The `@query_x<i>` variables of the copy rules. -/
def queryVars (k : Nat) : List Node :=
  (List.range k).map fun i => Node.var ("@query_x" ++ toString i)

/-- The copy rule `@interm_in_R(x...) :- R(x...)`. -/
def copyRuleOf (r : Relation) : Clause :=
  ⟨Node.atom ("@interm_in" :: r.name) (queryVars r.attrs.length),
   [Node.atom r.name (queryVars r.attrs.length)], false⟩

/-- `NormaliseDatabaseTransformer::extractIDB`: clone each input relation
with rules under an `@interm_in` name, rename all atom references
systematically, and add one copy rule per processed relation. -/
def extractIDB (P : Program) (ioInput : List QualifiedName) : Program × Bool :=
  let inputRels := extractInputRels P ioInput
  let inputNames := inputRels.map Relation.name
  let newRels := inputRels.map fun r => { r with name := "@interm_in" :: r.name }
  let renamedClauses := P.clauses.map fun c =>
    Clause.mk (renameIntermIn inputNames c.head)
      (c.body.map (renameIntermIn inputNames)) c.plan
  let copyRules := inputRels.map copyRuleOf
  (⟨P.relations ++ newRels, renamedClauses ++ copyRules⟩, !inputNames.isEmpty)

mutual

/-- Whether an atom named `n` occurs anywhere in a node. -/
def mentionsRel (n : QualifiedName) : Node → Bool
  | .atom r as => r == n || mentionsRelList n as
  | .intrinsic _ _ args => mentionsRelList n args
  | .userDef _ args => mentionsRelList n args
  | .cast v _ => mentionsRel n v
  | .record args => mentionsRelList n args
  | .aggr _ t body => mentionsRelOpt n t || mentionsRelList n body
  | .negation a => mentionsRel n a
  | .binc _ l r => mentionsRel n l || mentionsRel n r
  | _ => false

def mentionsRelList (n : QualifiedName) : List Node → Bool
  | [] => false
  | a :: as => mentionsRel n a || mentionsRelList n as

def mentionsRelOpt (n : QualifiedName) : Option Node → Bool
  | none => false
  | some a => mentionsRel n a

end

mutual

/-- Whether no atom is nested inside the argument list of another atom (so the
stop-at-renamed-atom behaviour of the mapper cannot hide references). -/
def noNestedAtoms : Node → Bool
  | .atom _ as => !containsAtomList as
  | .intrinsic _ _ args => noNestedAtomsList args
  | .userDef _ args => noNestedAtomsList args
  | .cast v _ => noNestedAtoms v
  | .record args => noNestedAtomsList args
  | .aggr _ t body => noNestedAtomsOpt t && noNestedAtomsList body
  | .negation a => noNestedAtoms a
  | .binc _ l r => noNestedAtoms l && noNestedAtoms r
  | _ => true

def noNestedAtomsList : List Node → Bool
  | [] => true
  | a :: as => noNestedAtoms a && noNestedAtomsList as

def noNestedAtomsOpt : Option Node → Bool
  | none => true
  | some a => noNestedAtoms a

end

end Souffle

namespace Souffle

theorem renameIntermIn_id_of_atomFree (S : List QualifiedName) :
    ∀ (x : Node), containsAtomNode x = false → renameIntermIn S x = x :=
  @Node.rec (fun x => containsAtomNode x = false → renameIntermIn S x = x)
    (fun xs => containsAtomList xs = false → renameIntermInList S xs = xs)
    (fun o => containsAtomOpt o = false → renameIntermInOpt S o = o)
    (fun _ _ => by simp [renameIntermIn])
    (fun _ => by simp [renameIntermIn])
    (fun _ _ => by simp [renameIntermIn])
    (fun _ _ => by simp [renameIntermIn])
    (fun _ => by simp [renameIntermIn])
    (fun _ _ _ ih h => by
      simp only [containsAtomNode] at h
      simp [renameIntermIn, ih h])
    (fun _ _ ih h => by
      simp only [containsAtomNode] at h
      simp [renameIntermIn, ih h])
    (fun _ _ ih h => by
      simp only [containsAtomNode] at h
      simp [renameIntermIn, ih h])
    (fun _ ih h => by
      simp only [containsAtomNode] at h
      simp [renameIntermIn, ih h])
    (fun _ _ _ iht ihb h => by
      simp only [containsAtomNode, Bool.or_eq_false_iff] at h
      simp [renameIntermIn, iht h.1, ihb h.2])
    (fun _ _ _ h => by simp [containsAtomNode] at h)
    (fun _ ih h => by
      simp only [containsAtomNode] at h
      simp [renameIntermIn, ih h])
    (fun _ _ _ ihl ihr h => by
      simp only [containsAtomNode, Bool.or_eq_false_iff] at h
      simp [renameIntermIn, ihl h.1, ihr h.2])
    (fun _ _ => by simp [renameIntermIn])
    (fun _ => by simp [renameIntermInList])
    (fun _ _ ihh iht h => by
      simp only [containsAtomList, Bool.or_eq_false_iff] at h
      simp [renameIntermInList, ihh h.1, iht h.2])
    (fun _ => by simp [renameIntermInOpt])
    (fun _ ih h => by
      simp only [containsAtomOpt] at h
      simp [renameIntermInOpt, ih h])

theorem mentionsRel_false_of_atomFree (n : QualifiedName) :
    ∀ (x : Node), containsAtomNode x = false → mentionsRel n x = false :=
  @Node.rec (fun x => containsAtomNode x = false → mentionsRel n x = false)
    (fun xs => containsAtomList xs = false → mentionsRelList n xs = false)
    (fun o => containsAtomOpt o = false → mentionsRelOpt n o = false)
    (fun _ _ => by simp [mentionsRel])
    (fun _ => by simp [mentionsRel])
    (fun _ _ => by simp [mentionsRel])
    (fun _ _ => by simp [mentionsRel])
    (fun _ => by simp [mentionsRel])
    (fun _ _ _ ih h => by
      simp only [containsAtomNode] at h
      simp [mentionsRel, ih h])
    (fun _ _ ih h => by
      simp only [containsAtomNode] at h
      simp [mentionsRel, ih h])
    (fun _ _ ih h => by
      simp only [containsAtomNode] at h
      simp [mentionsRel, ih h])
    (fun _ ih h => by
      simp only [containsAtomNode] at h
      simp [mentionsRel, ih h])
    (fun _ _ _ iht ihb h => by
      simp only [containsAtomNode, Bool.or_eq_false_iff] at h
      simp [mentionsRel, iht h.1, ihb h.2])
    (fun _ _ _ h => by simp [containsAtomNode] at h)
    (fun _ ih h => by
      simp only [containsAtomNode] at h
      simp [mentionsRel, ih h])
    (fun _ _ _ ihl ihr h => by
      simp only [containsAtomNode, Bool.or_eq_false_iff] at h
      simp [mentionsRel, ihl h.1, ihr h.2])
    (fun _ _ => by simp [mentionsRel])
    (fun _ => by simp [mentionsRelList])
    (fun _ _ ihh iht h => by
      simp only [containsAtomList, Bool.or_eq_false_iff] at h
      simp [mentionsRelList, ihh h.1, iht h.2])
    (fun _ => by simp [mentionsRelOpt])
    (fun _ ih h => by
      simp only [containsAtomOpt] at h
      simp [mentionsRelOpt, ih h])

theorem renameIntermInList_id_of_atomFree (S : List QualifiedName) :
    ∀ (xs : List Node), containsAtomList xs = false → renameIntermInList S xs = xs := by
  intro xs
  induction xs with
  | nil => intro _; simp [renameIntermInList]
  | cons a as ih =>
      intro h
      simp only [containsAtomList, Bool.or_eq_false_iff] at h
      simp [renameIntermInList, renameIntermIn_id_of_atomFree S a h.1, ih h.2]

theorem mentionsRelList_false_of_atomFree (n : QualifiedName) :
    ∀ (xs : List Node), containsAtomList xs = false → mentionsRelList n xs = false := by
  intro xs
  induction xs with
  | nil => intro _; simp [mentionsRelList]
  | cons a as ih =>
      intro h
      simp only [containsAtomList, Bool.or_eq_false_iff] at h
      simp [mentionsRelList, mentionsRel_false_of_atomFree n a h.1, ih h.2]

theorem renameIntermIn_no_mention (S : List QualifiedName) (n : QualifiedName)
    (hnS : n ∈ S) (hn : ∀ m : QualifiedName, n ≠ "@interm_in" :: m) :
    ∀ (x : Node), noNestedAtoms x = true →
      mentionsRel n (renameIntermIn S x) = false :=
  @Node.rec (fun x => noNestedAtoms x = true → mentionsRel n (renameIntermIn S x) = false)
    (fun xs => noNestedAtomsList xs = true → mentionsRelList n (renameIntermInList S xs) = false)
    (fun o => noNestedAtomsOpt o = true → mentionsRelOpt n (renameIntermInOpt S o) = false)
    (fun _ _ => by simp [renameIntermIn, mentionsRel])
    (fun _ => by simp [renameIntermIn, mentionsRel])
    (fun _ _ => by simp [renameIntermIn, mentionsRel])
    (fun _ _ => by simp [renameIntermIn, mentionsRel])
    (fun _ => by simp [renameIntermIn, mentionsRel])
    (fun _ _ _ ih h => by
      simp only [noNestedAtoms] at h
      simp [renameIntermIn, mentionsRel, ih h])
    (fun _ _ ih h => by
      simp only [noNestedAtoms] at h
      simp [renameIntermIn, mentionsRel, ih h])
    (fun _ _ ih h => by
      simp only [noNestedAtoms] at h
      simp [renameIntermIn, mentionsRel, ih h])
    (fun _ ih h => by
      simp only [noNestedAtoms] at h
      simp [renameIntermIn, mentionsRel, ih h])
    (fun _ _ _ iht ihb h => by
      simp only [noNestedAtoms, Bool.and_eq_true] at h
      simp [renameIntermIn, mentionsRel, iht h.1, ihb h.2])
    (fun r as _ h => by
      simp only [noNestedAtoms, Bool.not_eq_true'] at h
      by_cases hr : r ∈ S
      · simp only [renameIntermIn, hr, ite_true]
        simp only [mentionsRel, Bool.or_eq_false_iff]
        constructor
        · simp only [beq_eq_false_iff_ne, ne_eq]
          intro hcontra
          exact hn r hcontra.symm
        · exact mentionsRelList_false_of_atomFree n as h
      · simp only [renameIntermIn, hr, ite_false]
        simp only [mentionsRel, Bool.or_eq_false_iff]
        constructor
        · simp only [beq_eq_false_iff_ne, ne_eq]
          intro hcontra
          subst hcontra
          exact hr hnS
        · rw [renameIntermInList_id_of_atomFree S as h]
          exact mentionsRelList_false_of_atomFree n as h)
    (fun _ ih h => by
      simp only [noNestedAtoms] at h
      simp [renameIntermIn, mentionsRel, ih h])
    (fun _ _ _ ihl ihr h => by
      simp only [noNestedAtoms, Bool.and_eq_true] at h
      simp [renameIntermIn, mentionsRel, ihl h.1, ihr h.2])
    (fun _ _ => by simp [renameIntermIn, mentionsRel])
    (fun _ => by simp [renameIntermInList, mentionsRelList])
    (fun _ _ ihh iht h => by
      simp only [noNestedAtomsList, Bool.and_eq_true] at h
      simp [renameIntermInList, mentionsRelList, ihh h.1, iht h.2])
    (fun _ => by simp [renameIntermInOpt, mentionsRelOpt])
    (fun _ ih h => by
      simp only [noNestedAtomsOpt] at h
      simp [renameIntermInOpt, mentionsRelOpt, ih h])

end Souffle

namespace Souffle

/-- Whether a node is an atom. -/
def isAtomNode : Node → Bool
  | .atom _ _ => true
  | _ => false

theorem renameIntermInList_eq_map (S : List QualifiedName) :
    ∀ xs : List Node, renameIntermInList S xs = xs.map (renameIntermIn S) := by
  intro xs
  induction xs with
  | nil => simp [renameIntermInList]
  | cons a as ih => simp [renameIntermInList, ih]

theorem extractInputNames_mem_io (P : Program) (ioInput : List QualifiedName)
    (n : QualifiedName) (h : n ∈ extractInputNames P ioInput) : n ∈ ioInput := by
  simp only [extractInputNames, extractInputRels, List.mem_map, List.mem_filter,
    Bool.and_eq_true, decide_eq_true_eq] at h
  obtain ⟨r, ⟨_, hio, _⟩, rfl⟩ := h
  exact hio

theorem mem_extractInputNames (P : Program) (ioInput : List QualifiedName)
    (r : Relation) (hr : r ∈ P.relations) (hio : r.name ∈ ioInput)
    (hrules : relHasRules P r.name = true) :
    r.name ∈ extractInputNames P ioInput := by
  simp only [extractInputNames, extractInputRels, List.mem_map, List.mem_filter,
    Bool.and_eq_true, decide_eq_true_eq]
  exact ⟨r, ⟨hr, hio, hrules⟩, rfl⟩

theorem noNestedAtomsList_mem :
    ∀ (xs : List Node), noNestedAtomsList xs = true → ∀ x ∈ xs, noNestedAtoms x = true := by
  intro xs
  induction xs with
  | nil => intro _ x hx; simp at hx
  | cons a as ih =>
      intro h x hx
      simp only [noNestedAtomsList, Bool.and_eq_true] at h
      rcases List.mem_cons.mp hx with rfl | hx'
      · exact h.1
      · exact ih h.2 x hx'

theorem mentionsRelList_map_false (n : QualifiedName) (f : Node → Node) :
    ∀ (xs : List Node), (∀ x ∈ xs, mentionsRel n (f x) = false) →
      mentionsRelList n (xs.map f) = false := by
  intro xs
  induction xs with
  | nil => intro _; simp [mentionsRelList]
  | cons a as ih =>
      intro h
      simp only [List.map_cons, mentionsRelList, Bool.or_eq_false_iff]
      exact ⟨h a (by simp), ih fun x hx => h x (List.mem_cons_of_mem _ hx)⟩

theorem c6_fact_only_aux (P : Program) (ioInput : List QualifiedName)
    (hfresh : ∀ m : QualifiedName, ("@interm_in" :: m) ∉ ioInput)
    (hdecl : ∀ c ∈ P.clauses, c.headName ∈ ioInput →
      ∃ r ∈ P.relations, r.name = c.headName) :
    ∀ c0 ∈ P.clauses, isAtomNode c0.head = true →
      (Clause.mk (renameIntermIn (extractInputNames P ioInput) c0.head)
        (c0.body.map (renameIntermIn (extractInputNames P ioInput)))
        c0.plan).headName ∈ ioInput →
      containsAtomList
        (c0.body.map (renameIntermIn (extractInputNames P ioInput))) = false := by
  intro c0 hc0 hhd hin
  simp only [Clause.headName] at hin
  cases hhead : c0.head with
  | atom r as =>
      rw [hhead] at hin
      by_cases hrS : r ∈ extractInputNames P ioInput
      · exfalso
        rw [renameIntermIn, if_pos hrS] at hin
        simp only [Node.relName] at hin
        exact hfresh r hin
      · rw [renameIntermIn, if_neg hrS] at hin
        simp only [Node.relName] at hin
        have hc0name : c0.headName = r := by
          simp [Clause.headName, hhead, Node.relName]
        obtain ⟨rel, hrel, hreln⟩ := hdecl c0 hc0 (by rw [hc0name]; exact hin)
        have hnorules : relHasRules P r = false := by
          cases hru : relHasRules P r
          · rfl
          · exfalso
            apply hrS
            have := mem_extractInputNames P ioInput rel hrel
              (by rw [hreln, hc0name]; exact hin) (by rw [hreln, hc0name]; exact hru)
            rw [hreln, hc0name] at this
            exact this
        have hcin : c0 ∈ getClauses P r := by
          simp only [getClauses, List.mem_filter, decide_eq_true_eq]
          exact ⟨hc0, hc0name⟩
        have hfree : containsAtomList c0.body = false := by
          cases hcb : clauseHasBodyAtom c0
          · exact hcb
          · exfalso
            have : relHasRules P r = true := by
              simp only [relHasRules, List.any_eq_true]
              exact ⟨c0, hcin, hcb⟩
            rw [this] at hnorules
            cases hnorules
        rw [← renameIntermInList_eq_map,
          renameIntermInList_id_of_atomFree _ _ hfree]
        exact hfree
  | var s => rw [hhead] at hhd; simp [isAtomNode] at hhd
  | unnamed => rw [hhead] at hhd; simp [isAtomNode] at hhd
  | num v => rw [hhead] at hhd; simp [isAtomNode] at hhd
  | str v => rw [hhead] at hhd; simp [isAtomNode] at hhd
  | counter => rw [hhead] at hhd; simp [isAtomNode] at hhd
  | intrinsic o nu args => rw [hhead] at hhd; simp [isAtomNode] at hhd
  | userDef f args => rw [hhead] at hhd; simp [isAtomNode] at hhd
  | cast v t => rw [hhead] at hhd; simp [isAtomNode] at hhd
  | record args => rw [hhead] at hhd; simp [isAtomNode] at hhd
  | aggr o t b => rw [hhead] at hhd; simp [isAtomNode] at hhd
  | negation a => rw [hhead] at hhd; simp [isAtomNode] at hhd
  | binc o l rr => rw [hhead] at hhd; simp [isAtomNode] at hhd
  | boolc v => rw [hhead] at hhd; simp [isAtomNode] at hhd

/-- C6 (amended): after the Extract-IDB sub-pass, for every input relation
with a clause whose body contains an atom, an `@interm_in` copy declaration
and the copy rule `@interm_in_R(x...) :- R(x...)` are added, every reference
to the relation is renamed (when no atom is nested inside another atom's
arguments), and afterwards no input relation has a clause whose body contains
an atom; input relations whose rules' bodies are atom-free (e.g. only
constraints) keep those rules, so input relations need not be fact-only. -/
theorem c6_extract_idb_amended (P : Program) (ioInput : List QualifiedName)
    (hheads : ∀ c ∈ P.clauses, isAtomNode c.head = true)
    (hfresh : ∀ m : QualifiedName, ("@interm_in" :: m) ∉ ioInput)
    (hdecl : ∀ c ∈ P.clauses, c.headName ∈ ioInput →
      ∃ r ∈ P.relations, r.name = c.headName) :
    (extractIDB P ioInput).1.relations =
      P.relations ++ (extractInputRels P ioInput).map
        (fun r => { r with name := "@interm_in" :: r.name }) ∧
    (extractIDB P ioInput).1.clauses =
      (P.clauses.map fun c =>
        Clause.mk (renameIntermIn (extractInputNames P ioInput) c.head)
          (c.body.map (renameIntermIn (extractInputNames P ioInput))) c.plan) ++
      (extractInputRels P ioInput).map copyRuleOf ∧
    (∀ r ∈ extractInputRels P ioInput,
        copyRuleOf r ∈ (extractIDB P ioInput).1.clauses) ∧
    (∀ c ∈ (extractIDB P ioInput).1.clauses, c.headName ∈ ioInput →
        containsAtomList c.body = false) ∧
    ((∀ c ∈ P.clauses, noNestedAtomsList c.body = true) →
      ∀ c ∈ P.clauses, ∀ n ∈ extractInputNames P ioInput,
        mentionsRelList n
          (c.body.map (renameIntermIn (extractInputNames P ioInput))) = false) := by
  have hclauses : (extractIDB P ioInput).1.clauses =
      (P.clauses.map fun c =>
        Clause.mk (renameIntermIn (extractInputNames P ioInput) c.head)
          (c.body.map (renameIntermIn (extractInputNames P ioInput))) c.plan) ++
      (extractInputRels P ioInput).map copyRuleOf := rfl
  refine ⟨rfl, hclauses, ?_, ?_, ?_⟩
  · intro r hr
    rw [hclauses]
    exact List.mem_append_right _ (List.mem_map.mpr ⟨r, hr, rfl⟩)
  · intro c hc hin
    rw [hclauses] at hc
    rcases List.mem_append.mp hc with hmem | hmem
    · obtain ⟨c0, hc0, rfl⟩ := List.mem_map.mp hmem
      exact c6_fact_only_aux P ioInput hfresh hdecl c0 hc0 (hheads c0 hc0) hin
    · obtain ⟨r, _, rfl⟩ := List.mem_map.mp hmem
      exfalso
      simp only [copyRuleOf, Clause.headName, Node.relName] at hin
      exact hfresh r.name hin
  · intro hnest c hc n hnS
    apply mentionsRelList_map_false
    intro x hx
    exact renameIntermIn_no_mention _ n hnS
      (fun m hcontra => hfresh m (hcontra ▸ extractInputNames_mem_io P ioInput n hnS))
      x (noNestedAtomsList_mem c.body (hnest c hc) x hx)

/-- The counterexample program: input relation `S` with the single rule
`S(x) :- x = 3` (a rule whose body contains no atom). -/
def c6cexP : Program :=
  ⟨[⟨["S"], [⟨"a", ["number"]⟩], RelRep.default⟩],
   [⟨Node.atom ["S"] [Node.var "x"], [Node.binc "EQ" (Node.var "x") (Node.num 3)], false⟩]⟩

/-- C6 counterexample: `extractIDB` detects "has rules" by looking for body
atoms, so the input relation `S` with rule `S(x) :- x = 3` is left untouched
(no renaming, no copy rule, change flag false), and after the pass `S` is an
input relation that still has a rule — it is not fact-only as claimed. -/
theorem c6_input_rule_survives_counterexample :
    (extractIDB c6cexP [["S"]]).1 = c6cexP ∧
    (extractIDB c6cexP [["S"]]).2 = false ∧
    ∃ c ∈ (extractIDB c6cexP [["S"]]).1.clauses, c.headName = ["S"] ∧ c.body ≠ [] := by
  refine ⟨by decide, by decide, ?_⟩
  refine ⟨⟨Node.atom ["S"] [Node.var "x"],
    [Node.binc "EQ" (Node.var "x") (Node.num 3)], false⟩, by decide, by decide, by decide⟩

/-- The witness program for C6: input `S` with rule `S(x) :- T(x)`. -/
def c6W : Program :=
  ⟨[⟨["S"], [⟨"a", ["number"]⟩], RelRep.default⟩,
    ⟨["T"], [⟨"a", ["number"]⟩], RelRep.default⟩],
   [⟨Node.atom ["S"] [Node.var "x"], [Node.atom ["T"] [Node.var "x"]], false⟩]⟩

/-- Witness for C6 at `c6W`. -/
theorem c6_extract_idb_amended_witness :
    (extractIDB c6W [["S"]]).1.relations =
      c6W.relations ++ (extractInputRels c6W [["S"]]).map
        (fun r => { r with name := "@interm_in" :: r.name }) ∧
    (extractIDB c6W [["S"]]).1.clauses =
      (c6W.clauses.map fun c =>
        Clause.mk (renameIntermIn (extractInputNames c6W [["S"]]) c.head)
          (c.body.map (renameIntermIn (extractInputNames c6W [["S"]]))) c.plan) ++
      (extractInputRels c6W [["S"]]).map copyRuleOf ∧
    (∀ r ∈ extractInputRels c6W [["S"]],
        copyRuleOf r ∈ (extractIDB c6W [["S"]]).1.clauses) ∧
    (∀ c ∈ (extractIDB c6W [["S"]]).1.clauses, c.headName ∈ [["S"]] →
        containsAtomList c.body = false) ∧
    ((∀ c ∈ c6W.clauses, noNestedAtomsList c.body = true) →
      ∀ c ∈ c6W.clauses, ∀ n ∈ extractInputNames c6W [["S"]],
        mentionsRelList n
          (c.body.map (renameIntermIn (extractInputNames c6W [["S"]]))) = false) :=
  c6_extract_idb_amended c6W [["S"]] (by decide)
    (by intro m hm; simp at hm)
    (by
      intro c hc hin
      simp only [c6W, List.mem_singleton] at hc
      subst hc
      exact ⟨⟨["S"], [⟨"a", ["number"]⟩], RelRep.default⟩, by simp [c6W], by decide⟩)

end Souffle

/-!  C3 — SIPS atom selection (`getNextAtomMaxBoundSIPS`) and the Adorn pass
(`AdornDatabaseTransformer::transform`), MagicSet.cpp.  -/

namespace Souffle

/-- `isBoundComposite`: a composite placeholder variable is bound when
recorded bound, or when all its recorded variable dependencies are bound.
The `OldBindingStore` dependency map is a collaborator input. -/
def isBoundComposite (name : String) (boundArgs : List String)
    (compositeDeps : String → List String) : Bool :=
  if name ∈ boundArgs then true
  else (compositeDeps name).all (· ∈ boundArgs)

/-- `isBoundArgument`: only variables occur here (the legacy pipeline
normalises all other arguments away; `fatal` otherwise, modelled as false). -/
def isBoundArgument (arg : Node) (boundArgs : List String)
    (compositeDeps : String → List String) : Bool :=
  match arg with
  | .var v =>
      if (v.startsWith "+functor" || v.startsWith "+record") &&
          isBoundComposite v boundArgs compositeDeps then true
      else decide (v ∈ boundArgs)
  | _ => false

/-- Number of bound argument positions of an atom. -/
def numBoundArgs (a : Node) (boundArgs : List String)
    (compositeDeps : String → List String) : Nat :=
  (a.atomArgs.filter (isBoundArgument · boundArgs compositeDeps)).length

/-- One step of the `getNextAtomMaxBoundSIPS` loop.  State:
`(i, maxBound, maxIndex, maxIsEDB)` with `maxBound = -1` initially. -/
def sipsStep (boundArgs : List String) (edb : List QualifiedName)
    (compositeDeps : String → List String)
    (st : Nat × Int × Nat × Bool) (atomOpt : Option Node) : Nat × Int × Nat × Bool :=
  match atomOpt with
  | none => (st.1 + 1, st.2)
  | some a =>
      let (i, maxBound, maxIndex, maxIsEDB) := st
      let numBound : Int := (numBoundArgs a boundArgs compositeDeps : Int)
      if numBound > maxBound then
        (i + 1, numBound, i, decide (a.relName ∈ edb))
      else if !maxIsEDB && numBound == maxBound && decide (a.relName ∈ edb) then
        (i + 1, maxBound, i, true)
      else
        (i + 1, maxBound, maxIndex, maxIsEDB)

/-- `getNextAtomMaxBoundSIPS` (SIPS #2, the default): choose the atom with
the maximum number of bound arguments; on equal boundness prioritise EDB
predicates; processed entries are `none`. -/
def getNextAtomMaxBoundSIPS (atoms : List (Option Node)) (boundArgs : List String)
    (edb : List QualifiedName) (compositeDeps : String → List String) : Nat :=
  (atoms.foldl (sipsStep boundArgs edb compositeDeps) (0, -1, 0, false)).2.2.1

end Souffle

namespace Souffle

/-- Candidate positions of `l ++ [x]` decompose into those of `l` and, when
`x` is an unprocessed atom, the position `l.length`. -/
theorem cand_append (l : List (Option Node)) (x : Option Node) (j : Nat) (b : Node) :
    (l ++ [x])[j]? = some (some b) ↔
      l[j]? = some (some b) ∨ (j = l.length ∧ x = some b) := by
  rcases Nat.lt_trichotomy j l.length with h | h | h
  · rw [List.getElem?_append_left h]
    have : j ≠ l.length := Nat.ne_of_lt h
    simp [this]
  · subst h
    rw [List.getElem?_concat_length]
    have hnone : l[l.length]? = none := List.getElem?_eq_none (Nat.le_refl _)
    simp [hnone]
  · have h1 : (l ++ [x])[j]? = none := by
      apply List.getElem?_eq_none
      simp only [List.length_append, List.length_cons, List.length_nil]
      omega
    have h2 : l[j]? = none := List.getElem?_eq_none (Nat.le_of_lt h)
    have h3 : j ≠ l.length := Nat.ne_of_gt h
    simp [h1, h2, h3]

theorem cand_lt_length {l : List (Option Node)} {j : Nat} {b : Node}
    (h : l[j]? = some (some b)) : j < l.length := by
  rcases List.getElem?_eq_some_iff.mp h with ⟨hj, _⟩
  exact hj

/-- The `getNextAtomMaxBoundSIPS` fold with its full state exposed. -/
def sipsFold (boundArgs : List String) (edb : List QualifiedName)
    (compositeDeps : String → List String) (atoms : List (Option Node)) :
    Nat × Int × Nat × Bool :=
  atoms.foldl (sipsStep boundArgs edb compositeDeps) (0, -1, 0, false)

theorem getNextAtomMaxBoundSIPS_eq_sipsFold (atoms : List (Option Node))
    (boundArgs : List String) (edb : List QualifiedName)
    (compositeDeps : String → List String) :
    getNextAtomMaxBoundSIPS atoms boundArgs edb compositeDeps
      = (sipsFold boundArgs edb compositeDeps atoms).2.2.1 := rfl

/-- Invariant of the `getNextAtomMaxBoundSIPS` loop over the processed prefix
`l`: the counter equals the prefix length; if no unprocessed atom was met the
state is initial; otherwise the recorded index holds an unprocessed atom `a`
of maximal boundness whose boundness and EDB status are the recorded ones,
`a` is the left-most EDB atom of maximal boundness when one exists, and the
left-most atom of maximal boundness when no EDB atom attains the maximum. -/
def SipsInv (bound : List String) (edb : List QualifiedName)
    (deps : String → List String) (l : List (Option Node))
    (st : Nat × Int × Nat × Bool) : Prop :=
  st.1 = l.length ∧
  ((∀ (j : Nat) (b : Node), ¬ l[j]? = some (some b)) → st.2 = (-1, 0, false)) ∧
  (∀ (j0 : Nat) (b0 : Node), l[j0]? = some (some b0) →
    ∃ a, l[st.2.2.1]? = some (some a) ∧
      st.2.1 = (numBoundArgs a bound deps : Int) ∧
      st.2.2.2 = decide (a.relName ∈ edb) ∧
      (∀ (j : Nat) (b : Node), l[j]? = some (some b) →
        numBoundArgs b bound deps ≤ numBoundArgs a bound deps) ∧
      ((∃ (j : Nat) (b : Node), l[j]? = some (some b) ∧
          numBoundArgs b bound deps = numBoundArgs a bound deps ∧ b.relName ∈ edb) →
        a.relName ∈ edb ∧
          ∀ (j : Nat) (b : Node), j < st.2.2.1 → l[j]? = some (some b) →
            numBoundArgs b bound deps = numBoundArgs a bound deps →
            ¬ b.relName ∈ edb) ∧
      ((∀ (j : Nat) (b : Node), l[j]? = some (some b) →
          numBoundArgs b bound deps = numBoundArgs a bound deps →
          ¬ b.relName ∈ edb) →
        ∀ (j : Nat) (b : Node), j < st.2.2.1 → l[j]? = some (some b) →
          numBoundArgs b bound deps < numBoundArgs a bound deps))

theorem sips_inv_nil (bound : List String) (edb : List QualifiedName)
    (deps : String → List String) :
    SipsInv bound edb deps [] (0, -1, 0, false) := by
  refine ⟨rfl, fun _ => rfl, ?_⟩
  intro j0 b0 h
  simp at h

theorem sips_inv_step (bound : List String) (edb : List QualifiedName)
    (deps : String → List String) (l : List (Option Node)) (x : Option Node)
    (st : Nat × Int × Nat × Bool) (h : SipsInv bound edb deps l st) :
    SipsInv bound edb deps (l ++ [x]) (sipsStep bound edb deps st x) := by
  obtain ⟨i, mb, mi, me⟩ := st
  obtain ⟨h1, h2, h3⟩ := h
  have h1' : i = l.length := h1
  subst h1'
  cases x with
  | none =>
      have hcand : ∀ (j : Nat) (b : Node),
          (l ++ [(none : Option Node)])[j]? = some (some b) ↔ l[j]? = some (some b) := by
        intro j b
        rw [cand_append]
        simp
      have hstep : sipsStep bound edb deps (l.length, mb, mi, me) none
          = (l.length + 1, mb, mi, me) := rfl
      rw [hstep]
      refine ⟨by simp, ?_, ?_⟩
      · intro H
        exact h2 (fun j b hc => H j b ((hcand j b).mpr hc))
      · intro j0 b0 hc0
        obtain ⟨a, ha1, ha2, ha3, ha4, ha5, ha6⟩ := h3 j0 b0 ((hcand j0 b0).mp hc0)
        have hmi : mi < l.length := cand_lt_length ha1
        refine ⟨a, ?_, ?_, ?_, ?_, ?_, ?_⟩
        · rw [List.getElem?_append_left hmi]
          exact ha1
        · exact ha2
        · exact ha3
        · intro j b hj
          exact ha4 j b ((hcand j b).mp hj)
        · rintro ⟨j, b, hj, hnb, hedb⟩
          obtain ⟨hae, hleft⟩ := ha5 ⟨j, b, (hcand j b).mp hj, hnb, hedb⟩
          exact ⟨hae, fun j b hjlt hjc hnb => hleft j b hjlt ((hcand j b).mp hjc) hnb⟩
        · intro H j b hjlt hjc
          exact ha6 (fun j b hc hnb => H j b ((hcand j b).mpr hc) hnb) j b hjlt
            ((hcand j b).mp hjc)
  | some c =>
      by_cases hex : ∃ (j : Nat) (b : Node), l[j]? = some (some b)
      · -- a maximal unprocessed atom `a` is already recorded
        obtain ⟨j1, b1, hj1⟩ := hex
        obtain ⟨a, ha1, ha2, ha3, ha4, ha5, ha6⟩ := h3 j1 b1 hj1
        subst ha2
        subst ha3
        have hmi : mi < l.length := cand_lt_length ha1
        have hcl : ∀ (j : Nat) (b : Node), l[j]? = some (some b) →
            (l ++ [some c])[j]? = some (some b) := by
          intro j b hj
          rw [List.getElem?_append_left (cand_lt_length hj)]
          exact hj
        have hclen : (l ++ [some c])[l.length]? = some (some c) :=
          List.getElem?_concat_length l (some c)
        by_cases hgt : numBoundArgs a bound deps < numBoundArgs c bound deps
        · -- strictly more bound arguments: the new atom takes over
          have hgt' : ((numBoundArgs a bound deps : Int) <
              (numBoundArgs c bound deps : Int)) := by exact_mod_cast hgt
          have hstep : sipsStep bound edb deps
              (l.length, (numBoundArgs a bound deps : Int), mi, decide (a.relName ∈ edb))
              (some c)
              = (l.length + 1, (numBoundArgs c bound deps : Int), l.length,
                  decide (c.relName ∈ edb)) := by
            simp only [sipsStep]
            rw [if_pos hgt']
          rw [hstep]
          refine ⟨by simp, ?_, ?_⟩
          · intro H
            exact absurd hclen (H l.length c)
          · intro j0 b0 hc0
            refine ⟨c, hclen, rfl, rfl, ?_, ?_, ?_⟩
            · intro j b hj
              rcases (cand_append l (some c) j b).mp hj with hj' | ⟨_, hb⟩
              · exact Nat.le_of_lt (Nat.lt_of_le_of_lt (ha4 j b hj') hgt)
              · cases hb
                exact Nat.le_refl _
            · rintro ⟨j, b, hj, hnb, hedb⟩
              refine ⟨?_, ?_⟩
              · rcases (cand_append l (some c) j b).mp hj with hj' | ⟨_, hb⟩
                · exact absurd hnb (Nat.ne_of_lt (Nat.lt_of_le_of_lt (ha4 j b hj') hgt))
                · cases hb
                  exact hedb
              · intro j' b' hjlt hjc hnb
                rcases (cand_append l (some c) j' b').mp hjc with hj' | ⟨hlen, _⟩
                · exact absurd hnb (Nat.ne_of_lt (Nat.lt_of_le_of_lt (ha4 j' b' hj') hgt))
                · have hred : j' < l.length := hjlt
                  omega
            · intro H j b hjlt hjc
              rcases (cand_append l (some c) j b).mp hjc with hj' | ⟨hlen, _⟩
              · exact Nat.lt_of_le_of_lt (ha4 j b hj') hgt
              · have hred : j < l.length := hjlt
                omega
        · have hle : numBoundArgs c bound deps ≤ numBoundArgs a bound deps :=
            Nat.le_of_not_lt hgt
          have hngt : ¬ ((numBoundArgs a bound deps : Int) <
              (numBoundArgs c bound deps : Int)) := by exact_mod_cast hgt
          by_cases htie : ¬ a.relName ∈ edb ∧
              numBoundArgs c bound deps = numBoundArgs a bound deps ∧ c.relName ∈ edb
          · -- equal boundness, recorded atom not EDB, new atom EDB: take over
            obtain ⟨hae, heq, hce⟩ := htie
            have hstep : sipsStep bound edb deps
                (l.length, (numBoundArgs a bound deps : Int), mi, decide (a.relName ∈ edb))
                (some c)
                = (l.length + 1, (numBoundArgs a bound deps : Int), l.length, true) := by
              simp only [sipsStep]
              rw [if_neg hngt]
              rw [if_pos]
              simp [hae, hce, heq]
            rw [hstep]
            refine ⟨by simp, ?_, ?_⟩
            · intro H
              exact absurd hclen (H l.length c)
            · intro j0 b0 hc0
              refine ⟨c, hclen, by rw [heq], by simp [hce], ?_, ?_, ?_⟩
              · intro j b hj
                rcases (cand_append l (some c) j b).mp hj with hj' | ⟨_, hb⟩
                · rw [heq]
                  exact ha4 j b hj'
                · cases hb
                  exact Nat.le_refl _
              · intro _
                refine ⟨hce, ?_⟩
                intro j b hjlt hjc hnb
                rcases (cand_append l (some c) j b).mp hjc with hj' | ⟨hlen, _⟩
                · intro hbe
                  exact hae (ha5 ⟨j, b, hj', by omega, hbe⟩).1
                · have hred : j < l.length := hjlt
                  omega
              · intro H
                exact absurd hce (H l.length c hclen rfl)
          · -- the recorded atom stays
            have hstep : sipsStep bound edb deps
                (l.length, (numBoundArgs a bound deps : Int), mi, decide (a.relName ∈ edb))
                (some c)
                = (l.length + 1, (numBoundArgs a bound deps : Int), mi,
                    decide (a.relName ∈ edb)) := by
              simp only [sipsStep]
              rw [if_neg hngt]
              rw [if_neg]
              intro hb
              simp only [Bool.and_eq_true, Bool.not_eq_true', decide_eq_false_iff_not,
                beq_iff_eq, decide_eq_true_eq] at hb
              obtain ⟨⟨h1', h2'⟩, h3'⟩ := hb
              exact htie ⟨h1', by exact_mod_cast h2', h3'⟩
            rw [hstep]
            refine ⟨by simp, ?_, ?_⟩
            · intro H
              exact absurd hclen (H l.length c)
            · intro j0 b0 hc0
              refine ⟨a, ?_, rfl, rfl, ?_, ?_, ?_⟩
              · rw [List.getElem?_append_left hmi]
                exact ha1
              · intro j b hj
                rcases (cand_append l (some c) j b).mp hj with hj' | ⟨_, hb⟩
                · exact ha4 j b hj'
                · cases hb
                  exact hle
              · rintro ⟨j, b, hj, hnb, hedb⟩
                rcases (cand_append l (some c) j b).mp hj with hj' | ⟨_, hb⟩
                · obtain ⟨hae, hleft⟩ := ha5 ⟨j, b, hj', hnb, hedb⟩
                  refine ⟨hae, ?_⟩
                  intro j' b' hjlt hjc hnb'
                  rcases (cand_append l (some c) j' b').mp hjc with hj'' | ⟨hlen, _⟩
                  · exact hleft j' b' hjlt hj'' hnb'
                  · have hred : j' < mi := hjlt
                    omega
                · cases hb
                  have hae : a.relName ∈ edb := by
                    by_contra hae
                    exact htie ⟨hae, hnb, hedb⟩
                  obtain ⟨_, hleft⟩ := ha5 ⟨mi, a, ha1, rfl, hae⟩
                  refine ⟨hae, ?_⟩
                  intro j' b' hjlt hjc hnb'
                  rcases (cand_append l (some c) j' b').mp hjc with hj'' | ⟨hlen, _⟩
                  · exact hleft j' b' hjlt hj'' hnb'
                  · have hred : j' < mi := hjlt
                    omega
              · intro H j b hjlt hjc
                have H' : ∀ (j : Nat) (b : Node), l[j]? = some (some b) →
                    numBoundArgs b bound deps = numBoundArgs a bound deps →
                    ¬ b.relName ∈ edb := by
                  intro j b hj hnb
                  exact H j b (hcl j b hj) hnb
                rcases (cand_append l (some c) j b).mp hjc with hj' | ⟨hlen, _⟩
                · exact ha6 H' j b hjlt hj'
                · have hred : j < mi := hjlt
                  omega
      · -- no unprocessed atom seen yet: the new atom is recorded
        have H0 : ∀ (j : Nat) (b : Node), ¬ l[j]? = some (some b) := by
          intro j b hc
          exact hex ⟨j, b, hc⟩
        have hinit := h2 H0
        simp only [Prod.mk.injEq] at hinit
        obtain ⟨hmb, hmi, hme⟩ := hinit
        subst hmb
        subst hmi
        subst hme
        have hgt' : (-1 : Int) < (numBoundArgs c bound deps : Int) := by
          have : (0 : Int) ≤ (numBoundArgs c bound deps : Int) := Int.ofNat_nonneg _
          omega
        have hstep : sipsStep bound edb deps (l.length, -1, 0, false) (some c)
            = (l.length + 1, (numBoundArgs c bound deps : Int), l.length,
                decide (c.relName ∈ edb)) := by
          simp only [sipsStep]
          rw [if_pos hgt']
        rw [hstep]
        have hclen : (l ++ [some c])[l.length]? = some (some c) :=
          List.getElem?_concat_length l (some c)
        refine ⟨by simp, ?_, ?_⟩
        · intro H
          exact absurd hclen (H l.length c)
        · intro j0 b0 hc0
          refine ⟨c, hclen, rfl, rfl, ?_, ?_, ?_⟩
          · intro j b hj
            rcases (cand_append l (some c) j b).mp hj with hj' | ⟨_, hb⟩
            · exact absurd hj' (H0 j b)
            · cases hb
              exact Nat.le_refl _
          · rintro ⟨j, b, hj, hnb, hedb⟩
            rcases (cand_append l (some c) j b).mp hj with hj' | ⟨_, hb⟩
            · exact absurd hj' (H0 j b)
            · cases hb
              refine ⟨hedb, ?_⟩
              intro j' b' hjlt hjc hnb'
              rcases (cand_append l (some c) j' b').mp hjc with hj'' | ⟨hlen, _⟩
              · exact absurd hj'' (H0 j' b')
              · have hred : j' < l.length := hjlt
                omega
          · intro H j b hjlt hjc
            rcases (cand_append l (some c) j b).mp hjc with hj' | ⟨hlen, _⟩
            · exact absurd hj' (H0 j b)
            · have hred : j < l.length := hjlt
              omega

theorem sipsFold_inv (bound : List String) (edb : List QualifiedName)
    (deps : String → List String) (atoms : List (Option Node)) :
    SipsInv bound edb deps atoms (sipsFold bound edb deps atoms) := by
  induction atoms using List.reverseRecOn with
  | nil => exact sips_inv_nil bound edb deps
  | append_singleton l x ih =>
      have hfold : sipsFold bound edb deps (l ++ [x])
          = sipsStep bound edb deps (sipsFold bound edb deps l) x := by
        simp [sipsFold]
      rw [hfold]
      exact sips_inv_step bound edb deps l x _ ih

end Souffle

namespace Souffle

/-- Modelled from the spec: the `BindingStore` of the Adorn pass tracks the
set of currently bound variable names; `bindVariable` (and
`bindHeadVariable`) record a name and `isBound` tests membership. -/
abbrev BindingStore : Type := List String

def bindVariable (bs : BindingStore) (v : String) : BindingStore :=
  List.append bs [v]

def isBound (bs : BindingStore) (v : String) : Bool :=
  decide (v ∈ bs)

/-- `getAdornmentID`: the empty marker leaves the name unchanged; otherwise
the `\x7b...\x7d`-wrapped marker is appended as a final qualifier. -/
def getAdornmentID (n : QualifiedName) (marker : String) : QualifiedName :=
  if marker = "" then n else n ++ ["\x7b" ++ marker ++ "\x7d"]

/-- Head variables at the `b` positions of the adornment marker are bound
(`bindHeadVariable` loop; the C++ asserts head arguments are variables). -/
def bindHeadVars (marker : List Char) (headArgs : List Node) : BindingStore :=
  ((headArgs.zip marker).filter fun p => p.2 = 'b').map fun p => varNameOf p.1

mutual

/-- The `visitDepthFirst` seeding scan: variables bound through an `EQ`
constraint with a variable left side and a constant right side. -/
def eqBoundVars : Node → List String
  | .binc op l r =>
      (if op = "EQ" && isVarNode l && isConstNode r then [varNameOf l] else [])
        ++ eqBoundVars l ++ eqBoundVars r
  | .intrinsic _ _ args => eqBoundVarsList args
  | .userDef _ args => eqBoundVarsList args
  | .cast v _ => eqBoundVars v
  | .record args => eqBoundVarsList args
  | .aggr _ t body => eqBoundVarsOpt t ++ eqBoundVarsList body
  | .atom _ args => eqBoundVarsList args
  | .negation a => eqBoundVars a
  | _ => []

def eqBoundVarsList : List Node → List String
  | [] => []
  | a :: as => eqBoundVars a ++ eqBoundVarsList as

def eqBoundVarsOpt : Option Node → List String
  | none => []
  | some a => eqBoundVars a

end

/-- The initial binding store of the per-clause adornment loop: head
variables at bound marker positions, then the `var = const` seeds found
depth-first in the clause. -/
def adornInitialBS (marker : String) (c : Clause) : BindingStore :=
  bindHeadVars marker.toList c.head.atomArgs ++ eqBoundVars c.head
    ++ eqBoundVarsList c.body

/-- The adornment marker of a body atom: empty for ignored relations,
otherwise one `b`/`f` character per argument from the current bindings
(the C++ asserts the arguments are variables). -/
def atomMarkerOf (ignore : List QualifiedName) (bs : BindingStore)
    (r : QualifiedName) (args : List Node) : String :=
  if r ∈ ignore then ""
  else String.mk (args.map fun arg => if isBound bs (varNameOf arg) then 'b' else 'f')

/-- After an atom is adorned, all its variables become bound. -/
def bindAtomVars (bs : BindingStore) : Node → BindingStore
  | .atom _ args => args.foldl (fun b arg => bindVariable b (varNameOf arg)) bs
  | _ => bs

/-- A single literal's image under the adorned-body loop at binding store
`bs`: atoms get their computed adornment ID, other literals pass through. -/
def adornLit (ignore : List QualifiedName) (bs : BindingStore) : Node → Node
  | .atom r args => .atom (getAdornmentID r (atomMarkerOf ignore bs r args)) args
  | lit => lit

/-- One iteration of the adorned-body loop of
`AdornDatabaseTransformer::transform`: state is the adorned literals so far,
the binding store, and the adorned predicates encountered (in order). -/
def adornBodyStep (ignore : List QualifiedName)
    (st : List Node × BindingStore × List (QualifiedName × String)) (lit : Node) :
    List Node × BindingStore × List (QualifiedName × String) :=
  match lit with
  | .atom r args =>
      let marker := atomMarkerOf ignore st.2.1 r args
      (st.1 ++ [.atom (getAdornmentID r marker) args],
       bindAtomVars st.2.1 (.atom r args),
       st.2.2 ++ [(r, marker)])
  | lit => (st.1 ++ [lit], st.2.1, st.2.2)

/-- Adorn one clause under head adornment `marker`
(`AdornDatabaseTransformer::transform`, per-clause loop): the head keeps its
arguments and receives the adornment ID; the body literals are processed
left to right.  Also returns the adorned body predicates encountered. -/
def adornClause (ignore : List QualifiedName) (marker : String) (c : Clause) :
    Clause × List (QualifiedName × String) :=
  let headName := if marker = "" then c.head.relName
    else getAdornmentID c.head.relName marker
  let st := c.body.foldl (adornBodyStep ignore) ([], adornInitialBS marker c, [])
  (Clause.mk (Node.atom headName c.head.atomArgs) st.1 c.plan, st.2.2)

/-- The adorned-body fold splits componentwise: the accumulated literals and
encountered predicates are appended to, and the binding store ignores both
accumulators. -/
theorem adornFold_shape (ignore : List QualifiedName) (lits : List Node) :
    ∀ (bs : BindingStore) (acc : List Node) (pr : List (QualifiedName × String)),
    lits.foldl (adornBodyStep ignore) (acc, bs, pr)
      = (acc ++ (lits.foldl (adornBodyStep ignore) ([], bs, [])).1,
         (lits.foldl (adornBodyStep ignore) ([], bs, [])).2.1,
         pr ++ (lits.foldl (adornBodyStep ignore) ([], bs, [])).2.2) := by
  induction lits with
  | nil => intro bs acc pr; simp
  | cons a as ih =>
      intro bs acc pr
      cases a
      all_goals
        simp only [List.foldl_cons, adornBodyStep]
        conv_rhs => rw [ih]
        conv_lhs => rw [ih]
        simp [List.append_assoc]

/-- Left-to-right processing, pointwise: the `i`-th adorned body literal is
the `i`-th original literal adorned under exactly the bindings accrued from
the literals strictly to its left. -/
theorem adornBody_pointwise (ignore : List QualifiedName) (lits : List Node) :
    ∀ (bs : BindingStore) (i : Nat),
    ((lits.foldl (adornBodyStep ignore) ([], bs, [])).1)[i]?
      = (lits[i]?).map (adornLit ignore ((lits.take i).foldl bindAtomVars bs)) := by
  induction lits with
  | nil => intro bs i; simp
  | cons a as ih =>
      intro bs i
      cases i with
      | zero =>
          cases a <;>
            (simp only [List.foldl_cons, adornBodyStep];
             rw [adornFold_shape];
             simp [adornLit, bindAtomVars])
      | succ n =>
          cases a
          all_goals
            simp only [List.foldl_cons, adornBodyStep, List.take_succ_cons,
              List.getElem?_cons_succ]
            rw [adornFold_shape]
            simp only [List.nil_append, List.singleton_append, List.getElem?_cons_succ]
            rw [ih]
            try simp [bindAtomVars]

theorem adornClause_body_pointwise (ignore : List QualifiedName) (marker : String)
    (c : Clause) (i : Nat) :
    (adornClause ignore marker c).1.body[i]?
      = (c.body[i]?).map
          (adornLit ignore ((c.body.take i).foldl bindAtomVars (adornInitialBS marker c))) := by
  simp only [adornClause]
  exact adornBody_pointwise ignore c.body (adornInitialBS marker c) i

end Souffle

namespace Souffle

/-- Modelled from the spec (section 4.4): adorn body atoms by repeated SIPS
selection — select the next unprocessed atom with
`getNextAtomMaxBoundSIPS`, adorn it from the current bindings, bind its
variables, and repeat; adorned atoms are kept at their original positions. -/
def specSIPSAdornGo (ignore : List QualifiedName) (edb : List QualifiedName)
    (deps : String → List String) :
    Nat → List (Option Node) → List Node → BindingStore → List Node
  | 0, _, out, _ => out
  | fuel+1, remaining, out, bs =>
      if remaining.all (· = none) then out
      else
        match remaining[getNextAtomMaxBoundSIPS remaining bs edb deps]? with
        | some (some (.atom r args)) =>
            specSIPSAdornGo ignore edb deps fuel
              (remaining.set (getNextAtomMaxBoundSIPS remaining bs edb deps) none)
              (out.set (getNextAtomMaxBoundSIPS remaining bs edb deps)
                (.atom (getAdornmentID r (atomMarkerOf ignore bs r args)) args))
              (bindAtomVars bs (.atom r args))
        | _ => out

/-- Modelled from the spec (section 4.4): SIPS-ordered adornment of a body
of atoms. -/
def specSIPSAdornBody (ignore : List QualifiedName) (edb : List QualifiedName)
    (deps : String → List String) (atoms : List Node) (bs : BindingStore) :
    List Node :=
  specSIPSAdornGo ignore edb deps atoms.length (atoms.map some) atoms bs

/-- The clause `A(x,y)\x7bbf\x7d :- P(y,z), Q(x,z)`. -/
def c3cex : Clause :=
  Clause.mk (Node.atom ["A"] [Node.var "x", Node.var "y"])
    [Node.atom ["P"] [Node.var "y", Node.var "z"],
     Node.atom ["Q"] [Node.var "x", Node.var "z"]] false

/-- **C3** counterexample.  On the clause `A(x,y) :- P(y,z), Q(x,z)` with
head adornment `bf`, the Adorn pass (`AdornDatabaseTransformer::transform`)
adorns the body atoms left to right, yielding `P\x7bff\x7d, Q\x7bbb\x7d`,
whereas selecting atoms via the default SIPS policy
(`getNextAtomMaxBoundSIPS`, as the claim asserts) would first pick `Q`
(one bound argument) and yield `P\x7bfb\x7d, Q\x7bbf\x7d`.  The SIPS policy
is used only by the legacy adornment pipeline, not by the Adorn pass. -/
theorem c3_adorn_not_sips_counterexample :
    (adornClause [] "bf" c3cex).1.body
        = [Node.atom ["P", "\x7bff\x7d"] [Node.var "y", Node.var "z"],
           Node.atom ["Q", "\x7bbb\x7d"] [Node.var "x", Node.var "z"]] ∧
    specSIPSAdornBody [] [] (fun _ => []) c3cex.body (adornInitialBS "bf" c3cex)
        = [Node.atom ["P", "\x7bfb\x7d"] [Node.var "y", Node.var "z"],
           Node.atom ["Q", "\x7bbf\x7d"] [Node.var "x", Node.var "z"]] ∧
    ¬ (adornClause [] "bf" c3cex).1.body
        = specSIPSAdornBody [] [] (fun _ => []) c3cex.body
            (adornInitialBS "bf" c3cex) := by
  decide

/-- **C3** (amended).  The Adorn pass (`AdornDatabaseTransformer::transform`)
adorns the body literals of each clause strictly left to right: the `i`-th
adorned literal is the `i`-th original literal adorned under exactly the
bindings accrued from the head adornment, the equality seeds, and the
literals strictly to its left; no SIPS selection is involved.  The default
SIPS policy `getNextAtomMaxBoundSIPS` (used only by the legacy adornment
pipeline) selects an unprocessed atom with the greatest number of bound
argument positions; among those of maximal boundness it selects the
left-most EDB atom when one exists, and the left-most one otherwise. -/
theorem c3_adorn_left_to_right_and_sips
    (ignore : List QualifiedName) (marker : String) (c : Clause) (i : Nat)
    (bound : List String) (edb : List QualifiedName) (deps : String → List String)
    (atoms : List (Option Node)) (j0 : Nat) (b0 : Node)
    (hcand : atoms[j0]? = some (some b0)) :
    ((adornClause ignore marker c).1.body[i]?
        = (c.body[i]?).map
            (adornLit ignore
              ((c.body.take i).foldl bindAtomVars (adornInitialBS marker c)))) ∧
    ∃ a, atoms[getNextAtomMaxBoundSIPS atoms bound edb deps]? = some (some a) ∧
      (∀ (j : Nat) (b : Node), atoms[j]? = some (some b) →
          numBoundArgs b bound deps ≤ numBoundArgs a bound deps) ∧
      ((∃ (j : Nat) (b : Node), atoms[j]? = some (some b) ∧
            numBoundArgs b bound deps = numBoundArgs a bound deps ∧ b.relName ∈ edb) →
        a.relName ∈ edb ∧
          ∀ (j : Nat) (b : Node), j < getNextAtomMaxBoundSIPS atoms bound edb deps →
            atoms[j]? = some (some b) →
            numBoundArgs b bound deps = numBoundArgs a bound deps →
            ¬ b.relName ∈ edb) ∧
      ((∀ (j : Nat) (b : Node), atoms[j]? = some (some b) →
            numBoundArgs b bound deps = numBoundArgs a bound deps →
            ¬ b.relName ∈ edb) →
        ∀ (j : Nat) (b : Node), j < getNextAtomMaxBoundSIPS atoms bound edb deps →
          atoms[j]? = some (some b) →
          numBoundArgs b bound deps < numBoundArgs a bound deps) := by
  refine ⟨adornClause_body_pointwise ignore marker c i, ?_⟩
  obtain ⟨a, ha1, _, _, ha4, ha5, ha6⟩ :=
    (sipsFold_inv bound edb deps atoms).2.2 j0 b0 hcand
  rw [getNextAtomMaxBoundSIPS_eq_sipsFold]
  exact ⟨a, ha1, ha4, ha5, ha6⟩

theorem c3_adorn_left_to_right_and_sips_witness :
    (([some (Node.atom ["E"] [Node.var "x"])] : List (Option Node))[0]?
        = some (some (Node.atom ["E"] [Node.var "x"]))) ∧
    (((adornClause [] "bf" c3cex).1.body[1]?
        = (c3cex.body[1]?).map
            (adornLit []
              ((c3cex.body.take 1).foldl bindAtomVars (adornInitialBS "bf" c3cex)))) ∧
     ∃ a, ([some (Node.atom ["E"] [Node.var "x"])] :
            List (Option Node))[getNextAtomMaxBoundSIPS
              [some (Node.atom ["E"] [Node.var "x"])] ["x"] [["E"]] (fun _ => [])]?
          = some (some a) ∧
      (∀ (j : Nat) (b : Node),
          ([some (Node.atom ["E"] [Node.var "x"])] : List (Option Node))[j]?
            = some (some b) →
          numBoundArgs b ["x"] (fun _ => []) ≤ numBoundArgs a ["x"] (fun _ => [])) ∧
      ((∃ (j : Nat) (b : Node),
            ([some (Node.atom ["E"] [Node.var "x"])] : List (Option Node))[j]?
              = some (some b) ∧
            numBoundArgs b ["x"] (fun _ => []) = numBoundArgs a ["x"] (fun _ => []) ∧
            b.relName ∈ [["E"]]) →
        a.relName ∈ [["E"]] ∧
          ∀ (j : Nat) (b : Node),
            j < getNextAtomMaxBoundSIPS [some (Node.atom ["E"] [Node.var "x"])]
                  ["x"] [["E"]] (fun _ => []) →
            ([some (Node.atom ["E"] [Node.var "x"])] : List (Option Node))[j]?
              = some (some b) →
            numBoundArgs b ["x"] (fun _ => []) = numBoundArgs a ["x"] (fun _ => []) →
            ¬ b.relName ∈ [["E"]]) ∧
      ((∀ (j : Nat) (b : Node),
            ([some (Node.atom ["E"] [Node.var "x"])] : List (Option Node))[j]?
              = some (some b) →
            numBoundArgs b ["x"] (fun _ => []) = numBoundArgs a ["x"] (fun _ => []) →
            ¬ b.relName ∈ [["E"]]) →
        ∀ (j : Nat) (b : Node),
          j < getNextAtomMaxBoundSIPS [some (Node.atom ["E"] [Node.var "x"])]
                ["x"] [["E"]] (fun _ => []) →
          ([some (Node.atom ["E"] [Node.var "x"])] : List (Option Node))[j]?
            = some (some b) →
          numBoundArgs b ["x"] (fun _ => []) < numBoundArgs a ["x"] (fun _ => []))) :=
  ⟨rfl, c3_adorn_left_to_right_and_sips [] "bf" c3cex 1 ["x"] [["E"]] (fun _ => [])
      [some (Node.atom ["E"] [Node.var "x"])] 0 (Node.atom ["E"] [Node.var "x"]) rfl⟩

end Souffle

namespace Souffle

/-- Character comparison by code point. -/
def charLt (a b : Char) : Bool := Nat.blt a.toNat b.toNat

/-- `std::string` comparison: lexicographic over the characters. -/
def strLtChars : List Char → List Char → Bool
  | [], [] => false
  | [], _ :: _ => true
  | _ :: _, [] => false
  | a :: as, b :: bs => charLt a b || (a == b && strLtChars as bs)

def strLt (a b : String) : Bool := strLtChars a.toList b.toList

/-- `AstQualifiedName` comparison: lexicographic over the qualifiers. -/
def qnameLt : QualifiedName → QualifiedName → Bool
  | [], [] => false
  | [], _ :: _ => true
  | _ :: _, [] => false
  | a :: as, b :: bs => strLt a b || (a == b && qnameLt as bs)

/-- `std::pair` comparison for adorned predicates `(name, marker)`. -/
def predLt (p q : QualifiedName × String) : Bool :=
  qnameLt p.1 q.1 || (p.1 == q.1 && strLt p.2 q.2)

/-- The least element of a nonempty list of adorned predicates
(`*headAdornmentsToDo.begin()` of the `std::set`). -/
def minPred (t : QualifiedName × String) (ts : List (QualifiedName × String)) :
    QualifiedName × String :=
  ts.foldl (fun m q => if predLt q m then q else m) t

def removeFirstPred :
    List (QualifiedName × String) → QualifiedName × String →
      List (QualifiedName × String)
  | [], _ => []
  | p :: ps, q => if p = q then ps else p :: removeFirstPred ps q

/-- Pop the minimal adorned predicate off the worklist (`std::set` erase of
`begin()`). -/
def popMinPred (todo : List (QualifiedName × String)) :
    Option ((QualifiedName × String) × List (QualifiedName × String)) :=
  match todo with
  | [] => none
  | t :: ts => some (minPred t ts, removeFirstPred (t :: ts) (minPred t ts))

/-- State of `AdornDatabaseTransformer::transform`: the program (relations
are added as adorned relations are materialised), `headAdornmentsSeen`,
`headAdornmentsToDo`, `adornedClauses` and `redundantClauses`. -/
structure AdornState where
  prog : Program
  seen : List QualifiedName
  todo : List (QualifiedName × String)
  adornedClauses : List Clause
  redundantClauses : List Clause

/-- Enqueue an adorned predicate if its adornment ID is unseen. -/
def enqueuePred (sq : List QualifiedName × List (QualifiedName × String))
    (p : QualifiedName × String) :
    List QualifiedName × List (QualifiedName × String) :=
  if getAdornmentID p.1 p.2 ∈ sq.1 then sq
  else (sq.1 ++ [getAdornmentID p.1 p.2], sq.2 ++ [p])

/-- Process one popped adorned predicate `(relName, marker)`: materialise the
adorned relation for a nonempty marker, push the relation's clauses to
`redundantClauses` when the marker is empty, adorn every clause, and enqueue
the newly encountered adorned body predicates. -/
def processPred (ignore : List QualifiedName) (st : AdornState)
    (p : QualifiedName × String) : AdornState :=
  match getRelation st.prog p.1 with
  | none => st
  | some rel =>
      let prog1 : Program :=
        if p.2 = "" then st.prog
        else ⟨st.prog.relations ++ [⟨getAdornmentID p.1 p.2, rel.attrs, RelRep.default⟩],
              st.prog.clauses⟩
      let cls := getClauses st.prog p.1
      let adorned := cls.map (adornClause ignore p.2)
      let sq := (adorned.flatMap (fun a => a.2)).foldl enqueuePred (st.seen, st.todo)
      ⟨prog1, sq.1, sq.2,
       st.adornedClauses ++ adorned.map (fun a => a.1),
       st.redundantClauses ++ (if p.2 = "" then cls else [])⟩

/-- The worklist loop of `AdornDatabaseTransformer::transform` (fuelled). -/
def adornLoop (ignore : List QualifiedName) : Nat → AdornState → AdornState
  | 0, st => st
  | fuel+1, st =>
      match popMinPred st.todo with
      | none => st
      | some (p, rest) =>
          adornLoop ignore fuel (processPred ignore { st with todo := rest } p)

/-- The initial seeding loop: output relations (and print-size relations,
given through `outputs`) and ignored relations enter the worklist with the
empty adornment marker. -/
def initStep (outputs ignore : List QualifiedName)
    (sq : List QualifiedName × List (QualifiedName × String)) (r : Relation) :
    List QualifiedName × List (QualifiedName × String) :=
  if r.name ∈ outputs then enqueuePred sq (r.name, "")
  else if r.name ∈ ignore then enqueuePred sq (r.name, "")
  else sq

def initAdornState (P : Program) (outputs ignore : List QualifiedName) : AdornState :=
  let sq := P.relations.foldl (initStep outputs ignore) ([], [])
  ⟨P, sq.1, sq.2, [], []⟩

/-- `AdornDatabaseTransformer::transform`: run the worklist, then remove the
redundant clauses and append the adorned clauses.  The `IOType` analysis and
`getIgnoredRelations` results are collaborator inputs. -/
def adornTransform (P : Program) (outputs ignore : List QualifiedName)
    (fuel : Nat) : Program × Bool :=
  let stf := adornLoop ignore fuel (initAdornState P outputs ignore)
  (⟨stf.prog.relations,
    removeClauses stf.prog.clauses stf.redundantClauses ++ stf.adornedClauses⟩,
   !stf.adornedClauses.isEmpty || !stf.redundantClauses.isEmpty)

end Souffle

namespace Souffle

theorem minPred_mem (t : QualifiedName × String) (ts : List (QualifiedName × String)) :
    minPred t ts ∈ t :: ts := by
  induction ts generalizing t with
  | nil => simp [minPred]
  | cons q qs ih =>
      have hunf : minPred t (q :: qs)
          = minPred (if predLt q t then q else t) qs := rfl
      rw [hunf]
      by_cases h : predLt q t
      · rw [if_pos h]
        rcases List.mem_cons.mp (ih q) with h' | h'
        · rw [h']
          simp
        · exact List.mem_cons_of_mem _ (List.mem_cons_of_mem _ h')
      · rw [if_neg h]
        rcases List.mem_cons.mp (ih t) with h' | h'
        · rw [h']
          simp
        · exact List.mem_cons_of_mem _ (List.mem_cons_of_mem _ h')

theorem removeFirstPred_subset (l : List (QualifiedName × String))
    (x : QualifiedName × String) :
    ∀ q ∈ removeFirstPred l x, q ∈ l := by
  induction l with
  | nil => simp [removeFirstPred]
  | cons p ps ih =>
      intro q hq
      simp only [removeFirstPred] at hq
      by_cases h : p = x
      · rw [if_pos h] at hq
        exact List.mem_cons_of_mem _ hq
      · rw [if_neg h] at hq
        rcases List.mem_cons.mp hq with h' | h'
        · rw [h']
          simp
        · exact List.mem_cons_of_mem _ (ih q h')

theorem popMinPred_spec (todo : List (QualifiedName × String))
    (p : QualifiedName × String) (rest : List (QualifiedName × String))
    (h : popMinPred todo = some (p, rest)) :
    p ∈ todo ∧ ∀ q ∈ rest, q ∈ todo := by
  cases todo with
  | nil => simp [popMinPred] at h
  | cons t ts =>
      simp only [popMinPred, Option.some.injEq, Prod.mk.injEq] at h
      obtain ⟨hp, hrest⟩ := h
      subst hp
      subst hrest
      exact ⟨minPred_mem t ts, fun q hq => removeFirstPred_subset _ _ q hq⟩

theorem enqueuePred_seen_mono (sq : List QualifiedName × List (QualifiedName × String))
    (p : QualifiedName × String) (x : QualifiedName) (hx : x ∈ sq.1) :
    x ∈ (enqueuePred sq p).1 := by
  simp only [enqueuePred]
  by_cases h : getAdornmentID p.1 p.2 ∈ sq.1
  · rw [if_pos h]
    exact hx
  · rw [if_neg h]
    exact List.mem_append_left _ hx

theorem enqueuePred_mem_self (sq : List QualifiedName × List (QualifiedName × String))
    (p : QualifiedName × String) :
    getAdornmentID p.1 p.2 ∈ (enqueuePred sq p).1 := by
  simp only [enqueuePred]
  by_cases h : getAdornmentID p.1 p.2 ∈ sq.1
  · rw [if_pos h]
    exact h
  · rw [if_neg h]
    exact List.mem_append_right _ (List.mem_singleton.mpr rfl)

theorem enqueuePred_todo_inv (sq : List QualifiedName × List (QualifiedName × String))
    (p : QualifiedName × String)
    (h : ∀ q ∈ sq.2, getAdornmentID q.1 q.2 ∈ sq.1) :
    ∀ q ∈ (enqueuePred sq p).2, getAdornmentID q.1 q.2 ∈ (enqueuePred sq p).1 := by
  intro q hq
  simp only [enqueuePred] at hq ⊢
  by_cases hmem : getAdornmentID p.1 p.2 ∈ sq.1
  · rw [if_pos hmem] at hq ⊢
    exact h q hq
  · rw [if_neg hmem] at hq ⊢
    rcases List.mem_append.mp hq with h' | h'
    · exact List.mem_append_left _ (h q h')
    · have hqp : q = p := List.mem_singleton.mp h'
      subst hqp
      exact List.mem_append_right _ (List.mem_singleton.mpr rfl)

theorem enqueueFold_seen_mono (ps : List (QualifiedName × String)) :
    ∀ (sq : List QualifiedName × List (QualifiedName × String)) (x : QualifiedName),
      x ∈ sq.1 → x ∈ (ps.foldl enqueuePred sq).1 := by
  induction ps with
  | nil => intro sq x hx; exact hx
  | cons p ps ih =>
      intro sq x hx
      exact ih _ x (enqueuePred_seen_mono sq p x hx)

theorem enqueueFold_todo_inv (ps : List (QualifiedName × String)) :
    ∀ (sq : List QualifiedName × List (QualifiedName × String)),
      (∀ q ∈ sq.2, getAdornmentID q.1 q.2 ∈ sq.1) →
      ∀ q ∈ (ps.foldl enqueuePred sq).2,
        getAdornmentID q.1 q.2 ∈ (ps.foldl enqueuePred sq).1 := by
  induction ps with
  | nil => intro sq h; exact h
  | cons p ps ih =>
      intro sq h
      exact ih _ (enqueuePred_todo_inv sq p h)

theorem mem_getClauses {P : Program} {n : QualifiedName} {c : Clause}
    (h : c ∈ getClauses P n) : c ∈ P.clauses ∧ c.headName = n := by
  simpa [getClauses, List.mem_filter] using h

/-- Loop invariant of the Adorn worklist: the clause list is untouched, every
queued predicate's adornment ID has been seen, and every clause scheduled for
removal is an original clause whose head name (the adornment ID of its empty
adornment) has been seen. -/
def AdornInv (P : Program) (st : AdornState) : Prop :=
  st.prog.clauses = P.clauses ∧
  (∀ p ∈ st.todo, getAdornmentID p.1 p.2 ∈ st.seen) ∧
  (∀ c ∈ st.redundantClauses, c ∈ P.clauses ∧ c.headName ∈ st.seen)

theorem processPred_seen_mono (ignore : List QualifiedName) (st : AdornState)
    (p : QualifiedName × String) (x : QualifiedName) (hx : x ∈ st.seen) :
    x ∈ (processPred ignore st p).seen := by
  rcases hrel : getRelation st.prog p.1 with _ | rel
  · simp only [processPred, hrel]
    exact hx
  · simp only [processPred, hrel]
    exact enqueueFold_seen_mono _ _ x hx

theorem processPred_inv (P : Program) (ignore : List QualifiedName) (st : AdornState)
    (p : QualifiedName × String) (hinv : AdornInv P st)
    (hp : getAdornmentID p.1 p.2 ∈ st.seen) :
    AdornInv P (processPred ignore st p) := by
  obtain ⟨h1, h2, h3⟩ := hinv
  rcases hrel : getRelation st.prog p.1 with _ | rel
  · simp only [AdornInv, processPred, hrel]
    exact ⟨h1, h2, h3⟩
  · refine ⟨?_, ?_, ?_⟩
    · simp only [processPred, hrel]
      by_cases hm : p.2 = "" <;> simp [hm, h1]
    · simp only [processPred, hrel]
      exact enqueueFold_todo_inv _ (st.seen, st.todo) h2
    · simp only [processPred, hrel]
      intro c hc
      rcases List.mem_append.mp hc with hold | hnew
      · obtain ⟨hcP, hcs⟩ := h3 c hold
        exact ⟨hcP, enqueueFold_seen_mono _ _ _ hcs⟩
      · by_cases hm : p.2 = ""
        · rw [if_pos hm] at hnew
          obtain ⟨hcP, hch⟩ := mem_getClauses hnew
          rw [h1] at hcP
          refine ⟨hcP, ?_⟩
          have hid : getAdornmentID p.1 p.2 = p.1 := by
            simp [getAdornmentID, hm]
          rw [hid] at hp
          rw [hch]
          exact enqueueFold_seen_mono _ _ _ hp
        · rw [if_neg hm] at hnew
          simp at hnew

theorem adornLoop_inv (ignore : List QualifiedName) (fuel : Nat) :
    ∀ (P : Program) (st : AdornState), AdornInv P st →
      AdornInv P (adornLoop ignore fuel st) := by
  induction fuel with
  | zero => intro P st h; exact h
  | succ n ih =>
      intro P st h
      simp only [adornLoop]
      rcases hpop : popMinPred st.todo with _ | ⟨p, rest⟩
      · exact h
      · obtain ⟨hpmem, hsub⟩ := popMinPred_spec st.todo p rest hpop
        apply ih
        apply processPred_inv P ignore { st with todo := rest } p
        · exact ⟨h.1, fun q hq => h.2.1 q (hsub q hq), h.2.2⟩
        · exact h.2.1 p hpmem

theorem adornLoop_seen_mono (ignore : List QualifiedName) (fuel : Nat) :
    ∀ (st : AdornState) (x : QualifiedName), x ∈ st.seen →
      x ∈ (adornLoop ignore fuel st).seen := by
  induction fuel with
  | zero => intro st x hx; exact hx
  | succ n ih =>
      intro st x hx
      simp only [adornLoop]
      rcases hpop : popMinPred st.todo with _ | ⟨p, rest⟩
      · exact hx
      · exact ih _ x (processPred_seen_mono ignore { st with todo := rest } p x hx)

theorem initStep_seen_mono (outputs ignore : List QualifiedName)
    (sq : List QualifiedName × List (QualifiedName × String)) (r : Relation)
    (x : QualifiedName) (hx : x ∈ sq.1) : x ∈ (initStep outputs ignore sq r).1 := by
  simp only [initStep]
  by_cases h1 : r.name ∈ outputs
  · rw [if_pos h1]
    exact enqueuePred_seen_mono _ _ x hx
  · rw [if_neg h1]
    by_cases h2 : r.name ∈ ignore
    · rw [if_pos h2]
      exact enqueuePred_seen_mono _ _ x hx
    · rw [if_neg h2]
      exact hx

theorem initStep_todo_inv (outputs ignore : List QualifiedName)
    (sq : List QualifiedName × List (QualifiedName × String)) (r : Relation)
    (h : ∀ q ∈ sq.2, getAdornmentID q.1 q.2 ∈ sq.1) :
    ∀ q ∈ (initStep outputs ignore sq r).2,
      getAdornmentID q.1 q.2 ∈ (initStep outputs ignore sq r).1 := by
  simp only [initStep]
  by_cases h1 : r.name ∈ outputs
  · rw [if_pos h1]
    exact enqueuePred_todo_inv _ _ h
  · rw [if_neg h1]
    by_cases h2 : r.name ∈ ignore
    · rw [if_pos h2]
      exact enqueuePred_todo_inv _ _ h
    · rw [if_neg h2]
      exact h

theorem initFold_seen_mono (outputs ignore : List QualifiedName) (rs : List Relation) :
    ∀ (sq : List QualifiedName × List (QualifiedName × String)) (x : QualifiedName),
      x ∈ sq.1 → x ∈ (rs.foldl (initStep outputs ignore) sq).1 := by
  induction rs with
  | nil => intro sq x hx; exact hx
  | cons s ss ih =>
      intro sq x hx
      exact ih _ x (initStep_seen_mono outputs ignore sq s x hx)

theorem initFold_todo_inv (outputs ignore : List QualifiedName) (rs : List Relation) :
    ∀ (sq : List QualifiedName × List (QualifiedName × String)),
      (∀ q ∈ sq.2, getAdornmentID q.1 q.2 ∈ sq.1) →
      ∀ q ∈ (rs.foldl (initStep outputs ignore) sq).2,
        getAdornmentID q.1 q.2 ∈ (rs.foldl (initStep outputs ignore) sq).1 := by
  induction rs with
  | nil => intro sq h; exact h
  | cons s ss ih =>
      intro sq h
      exact ih _ (initStep_todo_inv outputs ignore sq s h)

theorem initFold_mem (outputs ignore : List QualifiedName) (rs : List Relation) :
    ∀ (sq : List QualifiedName × List (QualifiedName × String)) (r : Relation),
      r ∈ rs → (r.name ∈ outputs ∨ r.name ∈ ignore) →
      r.name ∈ (rs.foldl (initStep outputs ignore) sq).1 := by
  induction rs with
  | nil => simp
  | cons s ss ih =>
      intro sq r hr hcond
      rcases List.mem_cons.mp hr with h' | h'
      · subst h'
        have hid : getAdornmentID r.name "" = r.name := by
          simp [getAdornmentID]
        have hstep : initStep outputs ignore sq r = enqueuePred sq (r.name, "") := by
          rcases hcond with h | h
          · simp [initStep, h]
          · by_cases ho : r.name ∈ outputs <;> simp [initStep, ho, h]
        simp only [List.foldl_cons, hstep]
        apply initFold_seen_mono
        have := enqueuePred_mem_self sq (r.name, "")
        rwa [hid] at this
      · exact ih _ r h' hcond

theorem mem_removeFirstClause_of_ne (cs : List Clause) (d c : Clause)
    (hc : c ∈ cs) (hne : ¬ c = d) : c ∈ removeFirstClause cs d := by
  induction cs with
  | nil => simp at hc
  | cons x xs ih =>
      simp only [removeFirstClause]
      by_cases h : x = d
      · rw [if_pos h]
        rcases List.mem_cons.mp hc with h' | h'
        · exact absurd (h' ▸ h) hne
        · exact h'
      · rw [if_neg h]
        rcases List.mem_cons.mp hc with h' | h'
        · rw [h']
          simp
        · exact List.mem_cons_of_mem _ (ih h')

theorem mem_removeClauses (cs toRemove : List Clause) (c : Clause)
    (hc : c ∈ cs) (h : ∀ d ∈ toRemove, ¬ c = d) : c ∈ removeClauses cs toRemove := by
  induction toRemove generalizing cs with
  | nil => exact hc
  | cons d ds ih =>
      simp only [removeClauses, List.foldl_cons]
      exact ih (removeFirstClause cs d)
        (mem_removeFirstClause_of_ne cs d c hc (h d (List.mem_cons_self d ds)))
        (fun e he => h e (List.mem_cons_of_mem d he))

end Souffle

namespace Souffle

/-- **C7** (amended).  After the Adorn pass, the program's clauses are the
original clauses minus the scheduled redundant clauses, followed by the
adorned clauses.  A clause is scheduled for removal only if it is an original
clause of a relation whose empty adornment marker was scheduled (its head
name entered `headAdornmentsSeen`); consequently a clause whose head name
never entered `headAdornmentsSeen` — in particular one of a non-ignored,
non-output relation reached only with nonempty adornment markers — is
retained in the output program.  Output and ignored relations, on the other
hand, always enter `headAdornmentsSeen` (with the empty marker), so removal
is not restricted to non-ignored relations. -/
theorem c7_adorn_clause_retention (P : Program) (outputs ignore : List QualifiedName)
    (fuel : Nat) :
    ((adornTransform P outputs ignore fuel).1.clauses
        = removeClauses P.clauses
            (adornLoop ignore fuel (initAdornState P outputs ignore)).redundantClauses
          ++ (adornLoop ignore fuel (initAdornState P outputs ignore)).adornedClauses) ∧
    (∀ c ∈ (adornLoop ignore fuel (initAdornState P outputs ignore)).redundantClauses,
        c ∈ P.clauses ∧
        c.headName ∈ (adornLoop ignore fuel (initAdornState P outputs ignore)).seen) ∧
    (∀ c ∈ P.clauses,
        ¬ c.headName ∈ (adornLoop ignore fuel (initAdornState P outputs ignore)).seen →
        c ∈ (adornTransform P outputs ignore fuel).1.clauses) ∧
    (∀ r ∈ P.relations, (r.name ∈ outputs ∨ r.name ∈ ignore) →
        r.name ∈ (adornLoop ignore fuel (initAdornState P outputs ignore)).seen) := by
  have hinit : AdornInv P (initAdornState P outputs ignore) := by
    refine ⟨rfl, ?_, ?_⟩
    · simp only [initAdornState]
      exact initFold_todo_inv outputs ignore P.relations ([], []) (by simp)
    · simp [initAdornState]
  obtain ⟨h1, h2, h3⟩ :=
    adornLoop_inv ignore fuel P (initAdornState P outputs ignore) hinit
  refine ⟨?_, h3, ?_, ?_⟩
  · simp only [adornTransform]
    rw [h1]
  · intro c hc hns
    simp only [adornTransform]
    rw [h1]
    apply List.mem_append_left
    apply mem_removeClauses _ _ c hc
    intro d hd heq
    obtain ⟨_, hds⟩ := h3 d hd
    rw [heq] at hns
    exact hns hds
  · intro r hr hcond
    apply adornLoop_seen_mono
    simp only [initAdornState]
    exact initFold_mem outputs ignore P.relations ([], []) r hr hcond

/-- The program `A(x) :- P(x).  P(x) :- E(x).` with `A` an output relation
and `E` an input (hence ignored) relation. -/
def c7P : Program :=
  ⟨[⟨["A"], [⟨"a", ["number"]⟩], RelRep.default⟩,
    ⟨["P"], [⟨"a", ["number"]⟩], RelRep.default⟩,
    ⟨["E"], [⟨"a", ["number"]⟩], RelRep.default⟩],
   [Clause.mk (Node.atom ["A"] [Node.var "x"]) [Node.atom ["P"] [Node.var "x"]] false,
    Clause.mk (Node.atom ["P"] [Node.var "x"]) [Node.atom ["E"] [Node.var "x"]] false]⟩

/-- **C7** counterexample.  In `c7P` the relation `P` is neither ignored nor
an output relation, and the Adorn pass reaches it only with the nonempty
marker `f`; its original clause `P(x) :- E(x)` is retained in the output
program (next to the added adorned copy `P\x7bf\x7d(x) :- E(x)`), refuting
the claim that the original clauses of every non-ignored head relation are
removed. -/
theorem c7_original_clause_retained_counterexample :
    ¬ (["P"] : QualifiedName) ∈ ([["E"]] : List QualifiedName) ∧
    ¬ (["P"] : QualifiedName) ∈ ([["A"]] : List QualifiedName) ∧
    (Clause.mk (Node.atom ["P"] [Node.var "x"]) [Node.atom ["E"] [Node.var "x"]] false)
      ∈ (adornTransform c7P [["A"]] [["E"]] 10).1.clauses ∧
    (Clause.mk (Node.atom ["P", "\x7bf\x7d"] [Node.var "x"])
        [Node.atom ["E"] [Node.var "x"]] false)
      ∈ (adornTransform c7P [["A"]] [["E"]] 10).1.clauses := by
  decide

end Souffle

/-!  C10 — the Label pass (`LabelDatabaseTransformer`, MagicSet.cpp).  The
`IOType`, `SCCGraph` and `PrecedenceGraph` analyses are collaborator inputs
and enter as parameters (`ioInput`, `numSCCs`, `internalRels`, `sccOf`,
`precReach`); `std::set` iteration order over clause pointers is modelled by
encounter order.  -/

namespace Souffle

/-- `getNegativeLabel`: prepend the `@neglabel` qualifier. -/
def getNegativeLabel (n : QualifiedName) : QualifiedName := "@neglabel" :: n

/-- `std::set<AstQualifiedName>` insertion: sorted, duplicates dropped. -/
def insertSortedQ (n : QualifiedName) : List QualifiedName → List QualifiedName
  | [] => [n]
  | m :: ms =>
      if qnameLt n m then n :: m :: ms
      else if n = m then m :: ms
      else m :: insertSortedQ n ms

mutual

/-- First renaming visit of `runNegativeLabelling`: the atom under every
negation whose relation is not an input relation is renamed to its negative
label. -/
def negRename (input : List QualifiedName) : Node → Node
  | .negation (.atom r args) =>
      if r ∈ input then .negation (.atom r (negRenameList input args))
      else .negation (.atom (getNegativeLabel r) (negRenameList input args))
  | .negation a => .negation (negRename input a)
  | .intrinsic o nu args => .intrinsic o nu (negRenameList input args)
  | .userDef f args => .userDef f (negRenameList input args)
  | .cast v ty => .cast (negRename input v) ty
  | .record args => .record (negRenameList input args)
  | .aggr op t body => .aggr op (negRenameOpt input t) (negRenameList input body)
  | .atom r args => .atom r (negRenameList input args)
  | .binc op l r => .binc op (negRename input l) (negRename input r)
  | n => n

def negRenameList (input : List QualifiedName) : List Node → List Node
  | [] => []
  | a :: as => negRename input a :: negRenameList input as

def negRenameOpt (input : List QualifiedName) : Option Node → Option Node
  | none => none
  | some a => some (negRename input a)

end

mutual

/-- Relation names scheduled for labelling by the first visit. -/
def negCollect (input : List QualifiedName) : Node → List QualifiedName
  | .negation (.atom r args) =>
      (if r ∈ input then [] else [r]) ++ negCollectList input args
  | .negation a => negCollect input a
  | .intrinsic _ _ args => negCollectList input args
  | .userDef _ args => negCollectList input args
  | .cast v _ => negCollect input v
  | .record args => negCollectList input args
  | .aggr _ t body => negCollectOpt input t ++ negCollectList input body
  | .atom _ args => negCollectList input args
  | .binc _ l r => negCollect input l ++ negCollect input r
  | _ => []

def negCollectList (input : List QualifiedName) : List Node → List QualifiedName
  | [] => []
  | a :: as => negCollect input a ++ negCollectList input as

def negCollectOpt (input : List QualifiedName) : Option Node → List QualifiedName
  | none => []
  | some a => negCollect input a

end

/-- The second visit of `runNegativeLabelling` renames every non-input atom
below an aggregator, once per enclosing aggregator (nested aggregators are
visited separately and rename their subtrees again); an atom below `k`
aggregators is therefore renamed by `k` successive label steps, each guarded
by the input check on the then-current name. -/
def neglabelIter (input : List QualifiedName) : Nat → QualifiedName → QualifiedName
  | 0, r => r
  | k+1, r =>
      if r ∈ input then neglabelIter input k r
      else neglabelIter input k (getNegativeLabel r)

/-- Names inserted into `relationsToLabel` by the second visit for an atom
below `k` aggregators. -/
def neglabelIterCollect (input : List QualifiedName) :
    Nat → QualifiedName → List QualifiedName
  | 0, _ => []
  | k+1, r =>
      if r ∈ input then neglabelIterCollect input k r
      else r :: neglabelIterCollect input k (getNegativeLabel r)

mutual

/-- Fused form of the second visit: `k` counts the enclosing aggregators. -/
def aggRename (input : List QualifiedName) (k : Nat) : Node → Node
  | .atom r args => .atom (neglabelIter input k r) (aggRenameList input k args)
  | .negation a => .negation (aggRename input k a)
  | .intrinsic o nu args => .intrinsic o nu (aggRenameList input k args)
  | .userDef f args => .userDef f (aggRenameList input k args)
  | .cast v ty => .cast (aggRename input k v) ty
  | .record args => .record (aggRenameList input k args)
  | .aggr op t body =>
      .aggr op (aggRenameOpt input (k+1) t) (aggRenameList input (k+1) body)
  | .binc op l r => .binc op (aggRename input k l) (aggRename input k r)
  | n => n

def aggRenameList (input : List QualifiedName) (k : Nat) : List Node → List Node
  | [] => []
  | a :: as => aggRename input k a :: aggRenameList input k as

def aggRenameOpt (input : List QualifiedName) (k : Nat) : Option Node → Option Node
  | none => none
  | some a => some (aggRename input k a)

end

mutual

def aggCollect (input : List QualifiedName) (k : Nat) : Node → List QualifiedName
  | .atom r args => neglabelIterCollect input k r ++ aggCollectList input k args
  | .negation a => aggCollect input k a
  | .intrinsic _ _ args => aggCollectList input k args
  | .userDef _ args => aggCollectList input k args
  | .cast v _ => aggCollect input k v
  | .record args => aggCollectList input k args
  | .aggr _ t body =>
      aggCollectOpt input (k+1) t ++ aggCollectList input (k+1) body
  | .binc _ l r => aggCollect input k l ++ aggCollect input k r
  | _ => []

def aggCollectList (input : List QualifiedName) (k : Nat) :
    List Node → List QualifiedName
  | [] => []
  | a :: as => aggCollect input k a ++ aggCollectList input k as

def aggCollectOpt (input : List QualifiedName) (k : Nat) :
    Option Node → List QualifiedName
  | none => []
  | some a => aggCollect input k a

end

mutual

/-- The `labelAtoms` mapper of `runNegativeLabelling`: post-order, renames
every atom whose relation lies in the same stratum (`sccFriends`). -/
def negLabelAtoms (friends : List QualifiedName) : Node → Node
  | .atom r args =>
      if r ∈ friends then .atom (getNegativeLabel r) (negLabelAtomsList friends args)
      else .atom r (negLabelAtomsList friends args)
  | .negation a => .negation (negLabelAtoms friends a)
  | .intrinsic o nu args => .intrinsic o nu (negLabelAtomsList friends args)
  | .userDef f args => .userDef f (negLabelAtomsList friends args)
  | .cast v ty => .cast (negLabelAtoms friends v) ty
  | .record args => .record (negLabelAtomsList friends args)
  | .aggr op t body =>
      .aggr op (negLabelAtomsOpt friends t) (negLabelAtomsList friends body)
  | .binc op l r => .binc op (negLabelAtoms friends l) (negLabelAtoms friends r)
  | n => n

def negLabelAtomsList (friends : List QualifiedName) : List Node → List Node
  | [] => []
  | a :: as => negLabelAtoms friends a :: negLabelAtomsList friends as

def negLabelAtomsOpt (friends : List QualifiedName) : Option Node → Option Node
  | none => none
  | some a => some (negLabelAtoms friends a)

end

mutual

def negLabelCollect (friends : List QualifiedName) : Node → List QualifiedName
  | .atom r args =>
      (if r ∈ friends then [r] else []) ++ negLabelCollectList friends args
  | .negation a => negLabelCollect friends a
  | .intrinsic _ _ args => negLabelCollectList friends args
  | .userDef _ args => negLabelCollectList friends args
  | .cast v _ => negLabelCollect friends v
  | .record args => negLabelCollectList friends args
  | .aggr _ t body =>
      negLabelCollectOpt friends t ++ negLabelCollectList friends body
  | .binc _ l r => negLabelCollect friends l ++ negLabelCollect friends r
  | _ => []

def negLabelCollectList (friends : List QualifiedName) : List Node → List QualifiedName
  | [] => []
  | a :: as => negLabelCollect friends a ++ negLabelCollectList friends as

def negLabelCollectOpt (friends : List QualifiedName) : Option Node → List QualifiedName
  | none => []
  | some a => negLabelCollect friends a

end

def negLabelClause (friends : List QualifiedName) (c : Clause) : Clause :=
  Clause.mk (negLabelAtoms friends c.head) (c.body.map (negLabelAtoms friends)) c.plan

/-- `LabelDatabaseTransformer::runNegativeLabelling`. -/
def runNegativeLabelling (P : Program) (ioInput : List QualifiedName)
    (numSCCs : Nat) (internalRels : Nat → List QualifiedName) : Program × Bool :=
  let input := (P.relations.filter (fun r => r.name ∈ ioInput)).map Relation.name
  let clauses1 := P.clauses.map fun c =>
    Clause.mk (aggRename input 0 (negRename input c.head))
      ((c.body.map (negRename input)).map (aggRename input 0)) c.plan
  let prog1 : Program := ⟨P.relations, clauses1⟩
  let collected :=
    (P.clauses.flatMap fun c =>
      negCollect input c.head ++ c.body.flatMap (negCollect input))
    ++ (P.clauses.flatMap fun c =>
      aggCollect input 0 (negRename input c.head)
        ++ (c.body.map (negRename input)).flatMap (aggCollect input 0))
  let sccCollect := (List.range numSCCs).flatMap fun s =>
    (internalRels s).flatMap fun relName =>
      (getClauses prog1 relName).flatMap fun c =>
        negLabelCollect (internalRels s) c.head
          ++ c.body.flatMap (negLabelCollect (internalRels s))
  let clausesToAdd := (List.range numSCCs).flatMap fun s =>
    (internalRels s).flatMap fun relName =>
      (getClauses prog1 relName).map (negLabelClause (internalRels s))
  let relsToLabel := (collected ++ sccCollect).foldl
    (fun acc n => insertSortedQ n acc) []
  let newRels := relsToLabel.filterMap fun n =>
    (getRelation prog1 n).map fun rel =>
      Relation.mk (getNegativeLabel n) rel.attrs rel.representation
  (⟨prog1.relations ++ newRels, prog1.clauses ++ clausesToAdd⟩,
   !relsToLabel.isEmpty)

end Souffle

namespace Souffle

/-- A qualified name is negatively labelled when its first qualifier is
`@neglabel` (the C++ asserts the qualifier list is nonempty). -/
def isNegativelyLabelled : QualifiedName → Bool
  | "@neglabel" :: _ => true
  | _ => false

/-- `labelledStrataCopyCount.at`: the copy count of a stratum. -/
def lookupCount (counts : List (Nat × Nat)) (s : Nat) : Nat :=
  ((counts.find? fun p => p.1 = s).map fun p => p.2).getD 0

/-- `labelledStrataCopyCount[preStratum]++`. -/
def bumpCount (counts : List (Nat × Nat)) (s : Nat) : List (Nat × Nat) :=
  counts.map fun p => if p.1 = s then (p.1, p.2 + 1) else p

mutual

/-- All atom relation names occurring in a subtree (`visitDepthFirst` over
`AstAtom`). -/
def collectAtomNames : Node → List QualifiedName
  | .atom r args => r :: collectAtomNamesList args
  | .negation a => collectAtomNames a
  | .intrinsic _ _ args => collectAtomNamesList args
  | .userDef _ args => collectAtomNamesList args
  | .cast v _ => collectAtomNames v
  | .record args => collectAtomNamesList args
  | .aggr _ t body => collectAtomNamesOpt t ++ collectAtomNamesList body
  | .binc _ l r => collectAtomNames l ++ collectAtomNames r
  | _ => []

def collectAtomNamesList : List Node → List QualifiedName
  | [] => []
  | a :: as => collectAtomNames a ++ collectAtomNamesList as

def collectAtomNamesOpt : Option Node → List QualifiedName
  | none => []
  | some a => collectAtomNames a

end

mutual

/-- The `labelAtoms` mapper of `runPositiveLabelling`: post-order, renames
every atom in `toRelabel` by prepending `@poscopy_<count+1>` where `count`
is the copy count of the atom relation's stratum. -/
def posLabel (toRelabel : List QualifiedName) (counts : List (Nat × Nat))
    (sccOf : QualifiedName → Nat) : Node → Node
  | .atom r args =>
      if r ∈ toRelabel then
        .atom (("@poscopy_" ++ toString (lookupCount counts (sccOf r) + 1)) :: r)
          (posLabelList toRelabel counts sccOf args)
      else .atom r (posLabelList toRelabel counts sccOf args)
  | .negation a => .negation (posLabel toRelabel counts sccOf a)
  | .intrinsic o nu args => .intrinsic o nu (posLabelList toRelabel counts sccOf args)
  | .userDef f args => .userDef f (posLabelList toRelabel counts sccOf args)
  | .cast v ty => .cast (posLabel toRelabel counts sccOf v) ty
  | .record args => .record (posLabelList toRelabel counts sccOf args)
  | .aggr op t body =>
      .aggr op (posLabelOpt toRelabel counts sccOf t)
        (posLabelList toRelabel counts sccOf body)
  | .binc op l r =>
      .binc op (posLabel toRelabel counts sccOf l) (posLabel toRelabel counts sccOf r)
  | n => n

def posLabelList (toRelabel : List QualifiedName) (counts : List (Nat × Nat))
    (sccOf : QualifiedName → Nat) : List Node → List Node
  | [] => []
  | a :: as =>
      posLabel toRelabel counts sccOf a :: posLabelList toRelabel counts sccOf as

def posLabelOpt (toRelabel : List QualifiedName) (counts : List (Nat × Nat))
    (sccOf : QualifiedName → Nat) : Option Node → Option Node
  | none => none
  | some a => some (posLabel toRelabel counts sccOf a)

end

def posLabelClause (toRelabel : List QualifiedName) (counts : List (Nat × Nat))
    (sccOf : QualifiedName → Nat) (c : Clause) : Clause :=
  Clause.mk (posLabel toRelabel counts sccOf c.head)
    (c.body.map (posLabel toRelabel counts sccOf)) c.plan

/-- Processing of one stratum in `runPositiveLabelling`: relabel the clauses
of a negatively-labelled stratum in place, then emit numbered copies of the
clauses of every unlabelled predecessor stratum this stratum depends on,
bumping that predecessor's copy count. -/
def posStratumStep (inputNames : List QualifiedName)
    (internalRels : Nat → List QualifiedName) (sccOf : QualifiedName → Nat)
    (dependent : Nat → List Nat) (labelled : List Nat)
    (st : Program × List (Nat × Nat)) (s : Nat) : Program × List (Nat × Nat) :=
  if s ∈ labelled then
    let prog1 := (internalRels s).foldl
      (fun prog relName =>
        let cls := getClauses prog relName
        let toCopy := (cls.flatMap fun c =>
            collectAtomNames c.head ++ c.body.flatMap collectAtomNames).filter
          fun n => !(n ∈ inputNames : Bool) && !isNegativelyLabelled n
        ⟨prog.relations,
         prog.clauses.map fun c =>
           if c.headName = relName then posLabelClause toCopy st.2 sccOf c else c⟩)
      st.1
    let toCopyAll := (prog1.relations.map Relation.name).filter
      fun n => !(n ∈ inputNames : Bool) && !isNegativelyLabelled n
    ((List.range s).reverse.foldl
      (fun (st2 : Program × List (Nat × Nat)) pre =>
        if pre ∈ labelled then st2
        else if s ∈ dependent pre then
          let prog2 := (internalRels pre).foldl
            (fun prog relName =>
              if relName ∈ inputNames then prog
              else ⟨prog.relations,
                prog.clauses ++ (getClauses prog relName).map
                  (posLabelClause toCopyAll st2.2 sccOf)⟩)
            st2.1
          (prog2, bumpCount st2.2 pre)
        else st2)
      (prog1, st.2))
  else st

/-- `LabelDatabaseTransformer::runPositiveLabelling`.  Its `changed` flag is
initialised to `false` and never written afterwards. -/
def runPositiveLabelling (P : Program) (ioInput : List QualifiedName)
    (numSCCs : Nat) (internalRels : Nat → List QualifiedName)
    (sccOf : QualifiedName → Nat)
    (precReach : QualifiedName → List QualifiedName) : Program × Bool :=
  let changed := false
  let inputNames := (P.relations.filter (fun r => r.name ∈ ioInput)).map Relation.name
  let labelled := (List.range numSCCs).filter
    fun s => (internalRels s).any isNegativelyLabelled
  let counts0 := ((List.range numSCCs).filter
    fun s => !(internalRels s).any isNegativelyLabelled).map fun s => (s, 0)
  let dependent : Nat → List Nat := fun s =>
    (P.relations.filter fun r => sccOf r.name = s).flatMap
      fun r => (precReach r.name).map sccOf
  let res := (List.range numSCCs).foldl
    (posStratumStep inputNames internalRels sccOf dependent labelled) (P, counts0)
  let newRels := res.2.flatMap fun p =>
    (List.range p.2).flatMap fun copy =>
      (internalRels p.1).filterMap fun relName =>
        (getRelation res.1 relName).map fun rel =>
          Relation.mk (("@poscopy_" ++ toString (copy + 1)) :: relName)
            rel.attrs rel.representation
  (⟨res.1.relations ++ newRels, res.1.clauses⟩, changed)

/-- `LabelDatabaseTransformer::transform`: negative labelling, an analysis
invalidation if and only if it changed something, then positive labelling.
Returns the program, the returned change flag, and the number of
`invalidateAnalyses` calls.  The positive stage receives its own (freshly
recomputed) analyses. -/
def labelTransform (P : Program) (ioInput : List QualifiedName)
    (negNumSCCs : Nat) (negInternalRels : Nat → List QualifiedName)
    (posNumSCCs : Nat) (posInternalRels : Nat → List QualifiedName)
    (sccOf : QualifiedName → Nat)
    (precReach : QualifiedName → List QualifiedName) : Program × Bool × Nat :=
  let npair := runNegativeLabelling P ioInput negNumSCCs negInternalRels
  let invalidations := if npair.2 then 1 else 0
  let ppair := runPositiveLabelling npair.1 ioInput posNumSCCs posInternalRels
    sccOf precReach
  (ppair.1, npair.2 || ppair.2, invalidations)

end Souffle

namespace Souffle

/-- Two relations: `P` in stratum 0 and `@neglabel_B` in stratum 1; no
clauses. -/
def c10P : Program :=
  ⟨[⟨["P"], [⟨"a", ["number"]⟩], RelRep.default⟩,
    ⟨["@neglabel", "B"], [⟨"a", ["number"]⟩], RelRep.default⟩],
   []⟩

def c10Rels : Nat → List QualifiedName := fun s =>
  if s = 0 then [["P"]] else if s = 1 then [["@neglabel", "B"]] else []

def c10Scc : QualifiedName → Nat := fun n => if n = ["P"] then 0 else 1

def c10Reach : QualifiedName → List QualifiedName := fun n =>
  if n = ["P"] then [["@neglabel", "B"]] else []

/-- **C10**.  `runPositiveLabelling` always returns `false` (its `changed`
flag is initialised to `false` and never written), so the Label pass's
returned flag equals the negative-labelling flag and `invalidateAnalyses`
is called exactly when negative labelling changed something.  On the
concrete program `c10P` (stratum 1 negatively labelled and depending on
stratum 0), positive labelling mutates the program — it adds the relation
`@poscopy_1_P` — while the pass reports no change and performs no
invalidation. -/
theorem c10_positive_labelling_returns_false :
    (∀ (P : Program) (ioInput : List QualifiedName) (numSCCs : Nat)
        (internalRels : Nat → List QualifiedName) (sccOf : QualifiedName → Nat)
        (precReach : QualifiedName → List QualifiedName),
      (runPositiveLabelling P ioInput numSCCs internalRels sccOf precReach).2
        = false) ∧
    (∀ (P : Program) (ioInput : List QualifiedName)
        (negNumSCCs : Nat) (negInternalRels : Nat → List QualifiedName)
        (posNumSCCs : Nat) (posInternalRels : Nat → List QualifiedName)
        (sccOf : QualifiedName → Nat) (precReach : QualifiedName → List QualifiedName),
      (labelTransform P ioInput negNumSCCs negInternalRels posNumSCCs posInternalRels
          sccOf precReach).2.1
        = (runNegativeLabelling P ioInput negNumSCCs negInternalRels).2) ∧
    (∀ (P : Program) (ioInput : List QualifiedName)
        (negNumSCCs : Nat) (negInternalRels : Nat → List QualifiedName)
        (posNumSCCs : Nat) (posInternalRels : Nat → List QualifiedName)
        (sccOf : QualifiedName → Nat) (precReach : QualifiedName → List QualifiedName),
      (labelTransform P ioInput negNumSCCs negInternalRels posNumSCCs posInternalRels
          sccOf precReach).2.2
        = if (runNegativeLabelling P ioInput negNumSCCs negInternalRels).2
          then 1 else 0) ∧
    ((runPositiveLabelling c10P [] 2 c10Rels c10Scc c10Reach).1.relations
        = c10P.relations
          ++ [⟨["@poscopy_1", "P"], [⟨"a", ["number"]⟩], RelRep.default⟩]) ∧
    ((labelTransform c10P [] 2 c10Rels 2 c10Rels c10Scc c10Reach).2.1 = false) ∧
    ((labelTransform c10P [] 2 c10Rels 2 c10Rels c10Scc c10Reach).2.2 = 0) := by
  refine ⟨?_, ?_, ?_, ?_, ?_, ?_⟩
  · intro P ioInput numSCCs internalRels sccOf precReach
    rfl
  · intro P ioInput negNumSCCs negInternalRels posNumSCCs posInternalRels sccOf precReach
    show ((runNegativeLabelling P ioInput negNumSCCs negInternalRels).2
        || (runPositiveLabelling (runNegativeLabelling P ioInput negNumSCCs
              negInternalRels).1 ioInput posNumSCCs posInternalRels sccOf precReach).2)
        = (runNegativeLabelling P ioInput negNumSCCs negInternalRels).2
    rw [show (runPositiveLabelling (runNegativeLabelling P ioInput negNumSCCs
          negInternalRels).1 ioInput posNumSCCs posInternalRels sccOf precReach).2
        = false from rfl]
    exact Bool.or_false _
  · intro P ioInput negNumSCCs negInternalRels posNumSCCs posInternalRels sccOf precReach
    rfl
  · decide
  · decide
  · decide

end Souffle

/-!  C4 — the witness-problem check (`usesInvalidWitness` /
`AstSemanticChecker::checkWitnessProblem`, AstSemanticChecker.cpp).  The
groundedness analysis `getGroundedTerms` is a collaborator input and enters
as an oracle `g : Clause → Nat → Bool` indexed by the position of an
argument in the clause-wide depth-first argument enumeration (the head atom
`*` has no arguments, so the body's arguments start at position 0).
Arguments are identified by their position; the reported `SrcLocation` of a
surviving clone argument is the location of the original argument at its
corresponding position. -/

namespace Souffle

mutual

/-- Number of argument nodes in the subtree of an argument node (itself
included); aggregator subtrees count the arguments of their body literals,
exactly as `visitDepthFirst` enumerates them. -/
def countArgs : Node → Nat
  | .intrinsic _ _ args => 1 + countArgsList args
  | .userDef _ args => 1 + countArgsList args
  | .cast v _ => 1 + countArgs v
  | .record args => 1 + countArgsList args
  | .aggr _ t body => 1 + countArgsOpt t + countLitArgsList body
  | .atom _ args => countArgsList args
  | .negation a => countArgs a
  | .binc _ l r => countArgs l + countArgs r
  | .boolc _ => 0
  | _ => 1

def countArgsList : List Node → Nat
  | [] => 0
  | a :: as => countArgs a + countArgsList as

def countLitArgsList : List Node → Nat
  | [] => 0
  | a :: as => countArgs a + countLitArgsList as

def countArgsOpt : Option Node → Nat
  | none => 0
  | some a => countArgs a

end

mutual

/-- The aggregator-replacing mapper `M` of `usesInvalidWitness` on an
argument node, fused with the positional correspondence bookkeeping.  State
`(i, n)`: `i` is this argument's index in the depth-first argument
enumeration of the original literal list, `n` the fresh-variable counter.
Returns the mapped node, one tag per argument of the mapped node in
depth-first order (`some i` for a surviving argument corresponding to
original position `i`, `none` for a fresh aggregator variable, which has no
entry in `identicalSubnodeMap`), and the advanced state. -/
def replArg (st : Nat × Nat) : Node → Node × List (Option Nat) × Nat × Nat
  | .aggr op t body =>
      (.var ("+aggr_var_" ++ toString st.2), [none],
       st.1 + countArgs (.aggr op t body), st.2 + 1)
  | .intrinsic o nu args =>
      let r := replArgList (st.1 + 1, st.2) args
      (.intrinsic o nu r.1, some st.1 :: r.2.1, r.2.2)
  | .userDef f args =>
      let r := replArgList (st.1 + 1, st.2) args
      (.userDef f r.1, some st.1 :: r.2.1, r.2.2)
  | .cast v ty =>
      let r := replArg (st.1 + 1, st.2) v
      (.cast r.1 ty, some st.1 :: r.2.1, r.2.2)
  | .record args =>
      let r := replArgList (st.1 + 1, st.2) args
      (.record r.1, some st.1 :: r.2.1, r.2.2)
  | .var s => (.var s, [some st.1], st.1 + 1, st.2)
  | .unnamed => (.unnamed, [some st.1], st.1 + 1, st.2)
  | .num v => (.num v, [some st.1], st.1 + 1, st.2)
  | .str v => (.str v, [some st.1], st.1 + 1, st.2)
  | .counter => (.counter, [some st.1], st.1 + 1, st.2)
  | x => (x, [], st)

def replArgList (st : Nat × Nat) :
    List Node → List Node × List (Option Nat) × Nat × Nat
  | [] => ([], [], st)
  | a :: as =>
      let r := replArg st a
      let rs := replArgList r.2.2 as
      (r.1 :: rs.1, r.2.1 ++ rs.2.1, rs.2.2)

end

/-- The mapper on a body literal: its argument children are mapped, the
literal structure is kept. -/
def replLit (st : Nat × Nat) : Node → Node × List (Option Nat) × Nat × Nat
  | .atom r args =>
      let rs := replArgList st args
      (.atom r rs.1, rs.2)
  | .negation a =>
      let r := replLit st a
      (.negation r.1, r.2)
  | .binc op l r =>
      let rl := replArg st l
      let rr := replArg rl.2.2 r
      (.binc op rl.1 rr.1, rl.2.1 ++ rr.2.1, rr.2.2)
  | x => (x, [], st)

def replLitList (st : Nat × Nat) :
    List Node → List Node × List (Option Nat) × Nat × Nat
  | [] => ([], [], st)
  | l :: ls =>
      let r := replLit st l
      let rs := replLitList r.2.2 ls
      (r.1 :: rs.1, r.2.1 ++ rs.2.1, rs.2.2)

mutual

/-- All argument node values in the subtree of an argument, pre-order. -/
def argNodes : Node → List Node
  | .intrinsic o nu args => .intrinsic o nu args :: argNodesList args
  | .userDef f args => .userDef f args :: argNodesList args
  | .cast v ty => .cast v ty :: argNodes v
  | .record args => .record args :: argNodesList args
  | .aggr op t body => .aggr op t body :: (argNodesOpt t ++ litArgNodesList body)
  | .atom _ _ => []
  | .negation _ => []
  | .binc _ _ _ => []
  | .boolc _ => []
  | x => [x]

def argNodesList : List Node → List Node
  | [] => []
  | a :: as => argNodes a ++ argNodesList as

/-- All argument node values in a literal, pre-order. -/
def litArgNodes : Node → List Node
  | .atom _ args => argNodesList args
  | .negation a => litArgNodes a
  | .binc _ l r => argNodes l ++ argNodes r
  | _ => []

def litArgNodesList : List Node → List Node
  | [] => []
  | a :: as => litArgNodes a ++ litArgNodesList as

def argNodesOpt : Option Node → List Node
  | none => []
  | some t => argNodes t

end

mutual

/-- The body literal lists of all aggregators in a subtree, in depth-first
visit order (nested aggregators are visited too, so their bodies are checked
again by the recursion). -/
def collectAggrBodies : Node → List (List Node)
  | .aggr _ t body => body :: (collectAggrBodiesOpt t ++ collectAggrBodiesList body)
  | .intrinsic _ _ args => collectAggrBodiesList args
  | .userDef _ args => collectAggrBodiesList args
  | .cast v _ => collectAggrBodies v
  | .record args => collectAggrBodiesList args
  | .atom _ args => collectAggrBodiesList args
  | .negation a => collectAggrBodies a
  | .binc _ l r => collectAggrBodies l ++ collectAggrBodies r
  | _ => []

def collectAggrBodiesList : List Node → List (List Node)
  | [] => []
  | a :: as => collectAggrBodies a ++ collectAggrBodiesList as

def collectAggrBodiesOpt : Option Node → List (List Node)
  | none => []
  | some t => collectAggrBodies t

end

/-- `std::set<std::string>` insertion: sorted, duplicates dropped. -/
def insertSortedStr (s : String) : List String → List String
  | [] => [s]
  | t :: ts =>
      if strLt s t then s :: t :: ts
      else if s = t then t :: ts
      else t :: insertSortedStr s ts

/-- The fresh aggregator variables created while the counter ran from `n0`
to `n1`, in `std::set<std::string>` (string-sorted) order. -/
def freshVars (n0 n1 : Nat) : List String :=
  ((List.range (n1 - n0)).map fun k => "+aggr_var_" ++ toString (n0 + k)).foldl
    (fun acc s => insertSortedStr s acc) []

/-- Clone A (`originalClause`): head `*`, the literal clones, then the
grounding atom holding the given grounded arguments. -/
def witClauseA (literals grounded : List Node) : Clause :=
  Clause.mk (Node.atom ["*"] [])
    (literals ++ [Node.atom ["grounding_atom"] grounded]) false

/-- Clone B (`aggregatorlessClause`): head `*`, the aggregator-replaced
literal clones, then the grounding atom holding the fresh aggregator
variables followed by the given grounded arguments. -/
def witClauseB (replaced : List Node) (fresh : List String)
    (grounded : List Node) : Clause :=
  Clause.mk (Node.atom ["*"] [])
    (replaced ++ [Node.atom ["grounding_atom"] (fresh.map Node.var ++ grounded)])
    false

/-- `newlyGroundedArguments`: every argument of clone B (the literal-region
arguments, the fresh variables and the grounding-atom copies of the previous
arguments — the insertion is unconditional, regardless of groundedness),
followed by the previously grounded arguments again. -/
def newlyGroundedOf (replaced : List Node) (fresh : List String)
    (grounded : List Node) : List Node :=
  litArgNodesList replaced ++ fresh.map Node.var ++ grounded ++ grounded

/-- One step of the reporting loop over clone B's literal-region arguments:
`st.2` is the clone-B position; a surviving argument (tag `some i`) is
reported when it is ungrounded in clone B but position `i` is grounded in
clone A; a fresh variable (tag `none`) has no `identicalSubnodeMap` entry,
so its lookup yields the default `false` and it is never reported. -/
def levelStep (g : Clause → Nat → Bool) (cA cB : Clause)
    (st : List Nat × Nat) (t : Option Nat) : List Nat × Nat :=
  (st.1 ++ (match t with
    | some i => if !g cB st.2 && g cA i then [i] else []
    | none => []), st.2 + 1)

/-- Sequencing of the recursive sub-checks: reports are appended and the
fresh counter is threaded. -/
def subStep (f : Nat → List Node → List Nat × Nat)
    (acc : List Nat × Nat) (body : List Node) : List Nat × Nat :=
  (acc.1 ++ (f acc.2 body).1, (f acc.2 body).2)

/-- `usesInvalidWitness(literals, groundedArguments)`: build the two clones,
report every argument ungrounded in clone B whose corresponding clone-A
position is grounded, then recurse into the body of every aggregator
occurring depth-first in the literals, passing `newlyGroundedArguments`.
`n` threads the (statically retained) fresh-variable counter; `fuel` bounds
the recursion depth. -/
def usesInvalidWitness (g : Clause → Nat → Bool) :
    Nat → Nat → List Node → List Node → List Nat × Nat
  | 0, n, _, _ => ([], n)
  | fuel+1, n, literals, grounded =>
      let rb := replLitList (0, n) literals
      let fresh := freshVars n rb.2.2.2
      let cA := witClauseA literals grounded
      let cB := witClauseB rb.1 fresh grounded
      let reports := (rb.2.1.foldl (levelStep g cA cB) ([], 0)).1
      let newly := newlyGroundedOf rb.1 fresh grounded
      (literals.flatMap collectAggrBodies).foldl
        (subStep fun m b => usesInvalidWitness g fuel m b newly)
        (reports, rb.2.2.2)

/-- `AstSemanticChecker::checkWitnessProblem`, per clause: check the body
literals extended with a negated `*` atom holding the head's variables
(each ungrounded), starting from no grounded arguments. -/
def checkWitnessProblem (g : Clause → Nat → Bool) (fuel n : Nat) (c : Clause) :
    List Nat × Nat :=
  usesInvalidWitness g fuel n
    (c.body ++ [Node.negation (Node.atom ["*"] ((collectVars c.head).map Node.var))])
    []

end Souffle

namespace Souffle

theorem levelFold_mem (g : Clause → Nat → Bool) (cA cB : Clause)
    (tags : List (Option Nat)) :
    ∀ (acc : List Nat) (k : Nat) (p : Nat),
      (p ∈ (tags.foldl (levelStep g cA cB) (acc, k)).1 ↔
        p ∈ acc ∨ ∃ j : Nat, tags[j]? = some (some p) ∧
          g cB (k + j) = false ∧ g cA p = true) := by
  induction tags with
  | nil =>
      intro acc k p
      simp
  | cons t ts ih =>
      intro acc k p
      rw [List.foldl_cons]
      cases t with
      | none =>
          have hstep : levelStep g cA cB (acc, k) none = (acc ++ [], k + 1) := rfl
          rw [hstep, ih]
          constructor
          · rintro (h | ⟨j, hj, hgb, hga⟩)
            · exact Or.inl (by simpa using h)
            · refine Or.inr ⟨j + 1, by simpa using hj, ?_, hga⟩
              have he : k + (j + 1) = k + 1 + j := by omega
              rw [he]
              exact hgb
          · rintro (h | ⟨j, hj, hgb, hga⟩)
            · exact Or.inl (by simp [h])
            · cases j with
              | zero => simp at hj
              | succ j =>
                  refine Or.inr ⟨j, by simpa using hj, ?_, hga⟩
                  have he : k + 1 + j = k + (j + 1) := by omega
                  rw [he]
                  exact hgb
      | some i =>
          have hstep : levelStep g cA cB (acc, k) (some i)
              = (acc ++ (if !g cB k && g cA i then [i] else []), k + 1) := rfl
          rw [hstep, ih]
          by_cases hc : (!g cB k && g cA i) = true
          · rw [if_pos hc]
            have hc' : g cB k = false ∧ g cA i = true := by
              simpa only [Bool.and_eq_true, Bool.not_eq_true'] using hc
            constructor
            · rintro (h | ⟨j, hj, hgb, hga⟩)
              · rcases List.mem_append.mp h with h' | h'
                · exact Or.inl h'
                · have hp : p = i := List.mem_singleton.mp h'
                  subst hp
                  exact Or.inr ⟨0, by simp, by simpa using hc'.1, hc'.2⟩
              · refine Or.inr ⟨j + 1, by simpa using hj, ?_, hga⟩
                have he : k + (j + 1) = k + 1 + j := by omega
                rw [he]
                exact hgb
            · rintro (h | ⟨j, hj, hgb, hga⟩)
              · exact Or.inl (List.mem_append_left _ h)
              · cases j with
                | zero =>
                    have hp : i = p := by simpa using hj
                    subst hp
                    exact Or.inl (List.mem_append_right _ (by simp))
                | succ j =>
                    refine Or.inr ⟨j, by simpa using hj, ?_, hga⟩
                    have he : k + 1 + j = k + (j + 1) := by omega
                    rw [he]
                    exact hgb
          · rw [if_neg hc]
            constructor
            · rintro (h | ⟨j, hj, hgb, hga⟩)
              · exact Or.inl (by simpa using h)
              · refine Or.inr ⟨j + 1, by simpa using hj, ?_, hga⟩
                have he : k + (j + 1) = k + 1 + j := by omega
                rw [he]
                exact hgb
            · rintro (h | ⟨j, hj, hgb, hga⟩)
              · exact Or.inl (by simp [h])
              · cases j with
                | zero =>
                    have hp : i = p := by simpa using hj
                    subst hp
                    exfalso
                    apply hc
                    simp only [Bool.and_eq_true, Bool.not_eq_true']
                    exact ⟨by simpa using hgb, hga⟩
                | succ j =>
                    refine Or.inr ⟨j, by simpa using hj, ?_, hga⟩
                    have he : k + 1 + j = k + (j + 1) := by omega
                    rw [he]
                    exact hgb

theorem subFold_mem (f : Nat → List Node → List Nat × Nat)
    (bodies : List (List Node)) :
    ∀ (acc : List Nat) (n0 : Nat) (p : Nat),
      (p ∈ (bodies.foldl (subStep f) (acc, n0)).1 ↔
        p ∈ acc ∨ ∃ (i : Nat) (body : List Node), bodies[i]? = some body ∧
          p ∈ (f ((bodies.take i).foldl (fun m b => (f m b).2) n0) body).1) := by
  induction bodies with
  | nil =>
      intro acc n0 p
      simp
  | cons b bs ih =>
      intro acc n0 p
      rw [List.foldl_cons]
      have hstep : subStep f (acc, n0) b = (acc ++ (f n0 b).1, (f n0 b).2) := rfl
      rw [hstep, ih]
      constructor
      · rintro (h | ⟨i, body, hi, hp⟩)
        · rcases List.mem_append.mp h with h' | h'
          · exact Or.inl h'
          · exact Or.inr ⟨0, b, by simp, by simpa using h'⟩
        · refine Or.inr ⟨i + 1, body, by simpa using hi, ?_⟩
          have he : ((b :: bs).take (i + 1)).foldl (fun m b' => (f m b').2) n0
              = (bs.take i).foldl (fun m b' => (f m b').2) (f n0 b).2 := by
            simp [List.take_succ_cons]
          rw [he]
          exact hp
      · rintro (h | ⟨i, body, hi, hp⟩)
        · exact Or.inl (List.mem_append_left _ h)
        · cases i with
          | zero =>
              have hb : b = body := by simpa using hi
              subst hb
              exact Or.inl (List.mem_append_right _ (by simpa using hp))
          | succ i =>
              refine Or.inr ⟨i, body, by simpa using hi, ?_⟩
              have he : ((b :: bs).take (i + 1)).foldl (fun m b' => (f m b').2) n0
                  = (bs.take i).foldl (fun m b' => (f m b').2) (f n0 b).2 := by
                simp [List.take_succ_cons]
              rw [he] at hp
              exact hp

/-- **C4**.  `usesInvalidWitness` reports a position exactly when it is a
surviving argument of clone B (an entry of the positional correspondence
`identicalSubnodeMap`; fresh aggregator variables and grounding-atom
arguments have no entry and are never reported) that is ungrounded in clone
B — the aggregator-replaced clause whose fresh variables are forced grounded
through the grounding atom — while its corresponding clone-A position is
grounded; or when it is reported by the recursive check of the body of some
depth-first aggregator occurrence, which receives the newly grounded
arguments (all of clone B's arguments, regardless of groundedness, plus the
previously grounded ones).  `checkWitnessProblem` runs this check per clause
on the body extended with a negated `*` atom of the head variables, with no
arguments grounded initially. -/
theorem c4_invalid_witness_reports (g : Clause → Nat → Bool)
    (fuel n : Nat) (literals grounded : List Node) (p : Nat) (c : Clause) :
    ((p ∈ (usesInvalidWitness g (fuel + 1) n literals grounded).1 ↔
      (∃ j : Nat, (replLitList (0, n) literals).2.1[j]? = some (some p) ∧
        g (witClauseB (replLitList (0, n) literals).1
            (freshVars n (replLitList (0, n) literals).2.2.2) grounded) j = false ∧
        g (witClauseA literals grounded) p = true) ∨
      (∃ (i : Nat) (body : List Node),
        (literals.flatMap collectAggrBodies)[i]? = some body ∧
        p ∈ (usesInvalidWitness g fuel
              (((literals.flatMap collectAggrBodies).take i).foldl
                (fun m b => (usesInvalidWitness g fuel m b
                  (newlyGroundedOf (replLitList (0, n) literals).1
                    (freshVars n (replLitList (0, n) literals).2.2.2) grounded)).2)
                (replLitList (0, n) literals).2.2.2)
              body
              (newlyGroundedOf (replLitList (0, n) literals).1
                (freshVars n (replLitList (0, n) literals).2.2.2) grounded)).1))) ∧
    checkWitnessProblem g fuel n c
      = usesInvalidWitness g fuel n
          (c.body ++ [Node.negation (Node.atom ["*"]
            ((collectVars c.head).map Node.var))]) [] := by
  constructor
  · have he : usesInvalidWitness g (fuel + 1) n literals grounded
        = (literals.flatMap collectAggrBodies).foldl
            (subStep fun m b => usesInvalidWitness g fuel m b
              (newlyGroundedOf (replLitList (0, n) literals).1
                (freshVars n (replLitList (0, n) literals).2.2.2) grounded))
            (((replLitList (0, n) literals).2.1.foldl
                (levelStep g (witClauseA literals grounded)
                  (witClauseB (replLitList (0, n) literals).1
                    (freshVars n (replLitList (0, n) literals).2.2.2) grounded))
                ([], 0)).1,
             (replLitList (0, n) literals).2.2.2) := rfl
    rw [he, subFold_mem, levelFold_mem]
    simp
  · rfl

end Souffle
